import Mathlib

/-!
# Verification development for the OTP mail bot

Shallow embedding of the code-extraction engine (`OTPExtractor.extractVerificationCodes`
of `index-improved.js`, `extractOTPCodes` of `index.js`) and of the connection
management of both entry points, followed by the theorems about them.

Conventions of the embedding.

* A JavaScript string is the list of its characters (`Char`).  A character outside the
  Basic Multilingual Plane is two UTF-16 code units in JavaScript; no pattern or test of
  the source tells such a pair from a single unit (both are non-digit, non-word and
  non-space, and `length` is only taken of strings of digits).
* `String.prototype.toLowerCase` is a parameter `toLowerCase : Str → Str` of every
  function that calls it; theorems hold for every such function.  `asciiLower` is the
  instance used to evaluate concrete inputs (it agrees with JavaScript on ASCII text).
* A regular expression literal is a list of `Node`s and is run by a backtracking
  matcher that follows the ECMAScript pattern semantics for the constructs the
  source uses.
* A property access on `undefined` raises `TypeError`; functions that can raise
  return `Except JSError _`.
-/

namespace OTP

/-- A JavaScript string as its sequence of characters. -/
abbrev Str := List Char

/-- ASCII instance of `String.prototype.toLowerCase`. -/
def asciiLower (s : Str) : Str := s.map Char.toLower

/-- The method `String.prototype.includes`: `p` occurs in `s` as a contiguous substring. -/
def includes (s p : Str) : Bool :=
  match s with
  | [] => p.isEmpty
  | c :: cs => p.isPrefixOf (c :: cs) || includes cs p

/-! ## Regular expressions -/

/-- The class `\d`. -/
def isDigit (c : Char) : Bool := decide ('0' ≤ c) && decide (c ≤ '9')

/-- The class `\w`, which decides `\b`. -/
def isWordChar (c : Char) : Bool :=
  (decide ('a' ≤ c) && decide (c ≤ 'z')) || (decide ('A' ≤ c) && decide (c ≤ 'Z')) ||
    isDigit c || c == '_'

/-- The class `\s`: ECMAScript WhiteSpace and LineTerminator code units. -/
def isSpace (c : Char) : Bool :=
  let n := c.toNat
  n == 9 || n == 10 || n == 11 || n == 12 || n == 13 || n == 32 || n == 160 || n == 5760 ||
    (decide (8192 ≤ n) && decide (n ≤ 8202)) || n == 8232 || n == 8233 || n == 8239 ||
    n == 8287 || n == 12288 || n == 65279

/-- The class `[:\s]`. -/
def isSep (c : Char) : Bool := c == ':' || isSpace c

/-- The class `[^0-9]`. -/
def isNonDigit (c : Char) : Bool := !isDigit c

/-- The class `[^]`: every code unit. -/
def isAny (_ : Char) : Bool := true

/-- The class `[^\s@]`. -/
def isAddrChar (c : Char) : Bool := !(isSpace c || c == '@')

/-- Pattern terms.  `cls p min max greedy` is a character class with a quantifier:
`p*` is `cls p 0 none true`, `p*?` is `cls p 0 none false`, `p+` is `cls p 1 none true`,
`p{m,n}` is `cls p m (some n) true`.  The classes of the source (`[:\s]`, `[^0-9]`, `\d`,
`[^]`, `[^\s@]`) contain no cased character, so under the `i` flag membership is tested on
the code unit itself. -/
inductive Node where
  | char (c : Char)
  | cls (p : Char → Bool) (min : Nat) (max : Option Nat) (greedy : Bool)
  | wordBoundary
  | lineStart
  | lineEnd

/-- A regular expression: its terms in sequence and the `i` flag.  The `g` flag is not
recorded: the source only reads element 0 of `String.prototype.match`, which is the
leftmost match with or without it, and every literal is evaluated anew at each call. -/
structure RegExp where
  nodes : List Node
  ignoreCase : Bool

/-- Canonicalize of the ECMAScript pattern semantics (no `u` flag).  With `i` a code unit
is compared through its upper-case form; a code unit above 127 is never mapped to one
below 128, so for the ASCII pattern characters of the source this is ASCII upper-casing. -/
def canonicalize (ignoreCase : Bool) (c : Char) : Char :=
  if ignoreCase then c.toUpper else c

/-- A matcher continuation: from the previous code unit (if any) and the rest of the
input to the text matched from here on. -/
abbrev Cont := Option Char → Str → Option Str

/-- RepeatMatcher for a quantified class: at least `min` and at most `max` code units of
class `p`, then the continuation `k`; greedy tries one more code unit first, lazy tries
the continuation first. -/
def quantMatch (p : Char → Bool) (greedy : Bool) (k : Cont) :
    Nat → Option Nat → Option Char → Str → Option Str
  | min, _, prev, [] => if min = 0 then k prev [] else none
  | min, max, prev, d :: ds =>
    if p d && max != some 0 then
      if greedy then
        match quantMatch p greedy k (min - 1) (max.map (· - 1)) (some d) ds with
        | some r => some (d :: r)
        | none => if min = 0 then k prev (d :: ds) else none
      else
        match (if min = 0 then k prev (d :: ds) else none) with
        | some r => some r
        | none => (quantMatch p greedy k (min - 1) (max.map (· - 1)) (some d) ds).map (d :: ·)
    else if min = 0 then k prev (d :: ds) else none

/-- Word-character test behind `\b` for a position: `none` is the edge of the input. -/
def isWordAt : Option Char → Bool
  | none => false
  | some c => isWordChar c

/-- The backtracking matcher of a term sequence at one position. -/
def matchNodes (ignoreCase : Bool) : List Node → Cont
  | [] => fun _ _ => some []
  | .char c :: ns => fun _ input =>
    match input with
    | [] => none
    | d :: ds =>
      if canonicalize ignoreCase d = canonicalize ignoreCase c then
        (matchNodes ignoreCase ns (some d) ds).map (d :: ·)
      else none
  | .cls p min max greedy :: ns => quantMatch p greedy (matchNodes ignoreCase ns) min max
  | .wordBoundary :: ns => fun prev input =>
    if isWordAt prev != isWordAt input.head? then matchNodes ignoreCase ns prev input else none
  | .lineStart :: ns => fun prev input =>
    if prev.isNone then matchNodes ignoreCase ns prev input else none
  | .lineEnd :: ns => fun prev input =>
    if input.isEmpty then matchNodes ignoreCase ns prev input else none

/-- Try every start position from left to right; the result is the start index and the
matched text of the first position at which the matcher succeeds. -/
def scanFrom (m : Cont) : Nat → Option Char → Str → Option (Nat × Str)
  | i, prev, [] => (m prev []).map (fun r => (i, r))
  | i, prev, c :: cs =>
    match m prev (c :: cs) with
    | some r => some (i, r)
    | none => scanFrom m (i + 1) (some c) cs

/-- The method `RegExp.prototype.exec` from index 0: index and text of the leftmost match. -/
def RegExp.exec (re : RegExp) (s : Str) : Option (Nat × Str) :=
  scanFrom (matchNodes re.ignoreCase re.nodes) 0 none s

/-- Element 0 of `s.match(re)`, or `none` when `s.match(re)` is `null`. -/
def firstMatch (re : RegExp) (s : Str) : Option Str :=
  (re.exec s).map Prod.snd

/-- The terms of a literal piece of a pattern. -/
def lit (s : String) : List Node := s.toList.map Node.char

/-- The group `(\d{4,6})`. -/
def digits46 : Node := .cls isDigit 4 (some 6) true

/-- The pattern `/\d{4,6}/`. -/
def digitRun : RegExp := ⟨[digits46], false⟩

/-- A pattern `/<phrase>[:\s]*(\d{4,6})/gi`. -/
def phraseSep (phrase : String) : RegExp :=
  ⟨lit phrase ++ [.cls isSep 0 none true, digits46], true⟩

/-- A pattern `/<phrase>[^0-9]*(\d{4,6})/gi`. -/
def phraseGap (phrase : String) : RegExp :=
  ⟨lit phrase ++ [.cls isNonDigit 0 none true, digits46], true⟩

/-- A pattern `/\b\d{n}\b/g`. -/
def bareDigits (n : Nat) : RegExp :=
  ⟨[.wordBoundary, .cls isDigit n (some n) true, .wordBoundary], false⟩

/-! ## Messages and candidate codes -/

/-- Errors a JavaScript call can raise. -/
inductive JSError where
  | typeError
  deriving DecidableEq, Repr

deriving instance DecidableEq for Except

/-- The record built by `fetchEmails` / `checkEmailsForOTP` from a parsed message; the
fields `from` and `to` are named `sender` and `recipient` here.  `subject`, `text`, `html`
and `date` are `undefined` (`none`) when the message lacks them. -/
structure EmailContent where
  subject : Option Str
  sender : Str
  recipient : Str
  text : Option Str
  html : Option Str
  date : Option Nat
  deriving DecidableEq, Repr

/-- The value of the `pattern` field: `'priority'`, `'specific'` or `'general'`. -/
inductive Tier where
  | priority
  | specific
  | general
  deriving DecidableEq, Repr

/-- The object pushed onto `codes` / `otpCodes` (its field `to` is `recipient` here). -/
structure CandidateCode where
  code : Str
  subject : Option Str
  recipient : Str
  date : Option Nat
  targetEmail : Option Str
  pattern : Tier
  deriving DecidableEq, Repr

/-- The candidate built from a message, a target and an extracted code. -/
def mkCandidate (e : EmailContent) (targetEmail : Option Str) (tier : Tier) (code : Str) :
    CandidateCode :=
  ⟨code, e.subject, e.recipient, e.date, targetEmail, tier⟩

/-- The test `code && code.length >= 4 && code.length <= 6`. -/
def validCode (code : Str) : Bool :=
  !code.isEmpty && decide (4 ≤ code.length) && decide (code.length ≤ 6)

/-- The subject test shared by both extractors. -/
def isUberVerificationEmail (toLowerCase : Str → Str) (subject : Str) : Bool :=
  includes (toLowerCase subject) "your uber verification code".toList ||
    includes (toLowerCase subject) "your uber account verification code".toList

/-- The sender test of `index-improved.js`. -/
def isFromUberAdmin (toLowerCase : Str → Str) (sender : Str) : Bool :=
  includes (toLowerCase sender) "admin@uber.com".toList

/-- The recipient test: a `null` or empty target is falsy and accepts every recipient. -/
def isTargetEmail (toLowerCase : Str → Str) (recipient : Str) : Option Str → Bool
  | none => true
  | some t => if t.isEmpty then true else includes (toLowerCase recipient) (toLowerCase t)

/-! ## `OTPExtractor.extractVerificationCodes` (index-improved.js) -/

/-- The list `priorityPatterns` of `index-improved.js`. -/
def priorityPatterns : List RegExp :=
  [phraseSep "enter this verification code",
   phraseSep "verification code is",
   phraseSep "verification code",
   phraseSep "your code",
   phraseSep "code is",
   phraseSep "code"]

/-- The list `specificPatterns` of `index-improved.js`. -/
def specificPatterns : List RegExp :=
  [phraseGap "verification code",
   phraseGap "enter this code",
   phraseGap "this verification code"]

/-- The list `generalPatterns` (both files). -/
def generalPatterns : List RegExp := [bareDigits 4, bareDigits 6]

/-- A loop over phrase-anchored patterns (`priorityPatterns`, `specificPatterns`): the
first pattern with a match whose `match.match(/\d{4,6}/)[0]` passes the length test
returns a candidate; a `null` inner match raises `TypeError` at `[0]`. -/
def anchoredLoop (mk : Str → CandidateCode) (text : Str) :
    List RegExp → Except JSError (Option CandidateCode)
  | [] => .ok none
  | pattern :: rest =>
    match firstMatch pattern text with
    | none => anchoredLoop mk text rest
    | some m =>
      match firstMatch digitRun m with
      | none => .error .typeError
      | some code => if validCode code then .ok (some (mk code)) else anchoredLoop mk text rest

/-- A loop over `generalPatterns`: the first pattern whose leftmost match has length 4
to 6 returns a candidate. -/
def generalLoop (mk : Str → CandidateCode) (text : Str) : List RegExp → Option CandidateCode
  | [] => none
  | pattern :: rest =>
    match firstMatch pattern text with
    | none => generalLoop mk text rest
    | some m =>
      if decide (4 ≤ m.length) && decide (m.length ≤ 6) then some (mk m)
      else generalLoop mk text rest

/-- The function `OTPExtractor.extractVerificationCodes(emailContent, targetEmail)`. -/
def extractVerificationCodes (toLowerCase : Str → Str) (e : EmailContent)
    (targetEmail : Option Str) : Except JSError (List CandidateCode) :=
  match e.subject with
  | none => .error .typeError
  | some subject =>
    if isUberVerificationEmail toLowerCase subject && isFromUberAdmin toLowerCase e.sender &&
        isTargetEmail toLowerCase e.recipient targetEmail then
      match e.text with
      | none => .error .typeError
      | some text =>
        match anchoredLoop (mkCandidate e targetEmail .priority) text priorityPatterns with
        | .error err => .error err
        | .ok (some c) => .ok [c]
        | .ok none =>
          match anchoredLoop (mkCandidate e targetEmail .specific) text specificPatterns with
          | .error err => .error err
          | .ok (some c) => .ok [c]
          | .ok none =>
            match generalLoop (mkCandidate e targetEmail .general) text generalPatterns with
            | some c => .ok [c]
            | none =>
              match generalLoop (mkCandidate e targetEmail .general) text generalPatterns with
              | some c => .ok [c]
              | none => .ok []
    else .ok []

/-! ## `extractOTPCodes` (index.js) -/

/-- The pattern `/enter this verification code[^]*?(\d{4,6})/gi`. -/
def phraseLazy (phrase : String) : RegExp :=
  ⟨lit phrase ++ [.cls isAny 0 none false, digits46], true⟩

/-- The list `priorityPatterns` of `index.js`. -/
def priorityPatternsV1 : List RegExp :=
  [phraseSep "enter this verification code",
   phraseSep "verification code",
   phraseSep "your code",
   phraseSep "code",
   phraseLazy "enter this verification code"]

/-- The priority loop of `index.js`: the first pattern with a match sets
`foundPriorityMatch` and ends the loop, pushing a candidate when the code passes the
length test.  The result is `none` when no pattern matched (`foundPriorityMatch` false). -/
def priorityLoopV1 (mk : Str → CandidateCode) (text : Str) :
    List RegExp → Except JSError (Option (List CandidateCode))
  | [] => .ok none
  | pattern :: rest =>
    match firstMatch pattern text with
    | none => priorityLoopV1 mk text rest
    | some m =>
      match firstMatch digitRun m with
      | none => .error .typeError
      | some code => if validCode code then .ok (some [mk code]) else .ok (some [])

/-- The general loop of `index.js`: the first pattern with a match ends the loop. -/
def generalLoopV1 (mk : Str → CandidateCode) (text : Str) : List RegExp → List CandidateCode
  | [] => []
  | pattern :: rest =>
    match firstMatch pattern text with
    | none => generalLoopV1 mk text rest
    | some m => if decide (4 ≤ m.length) && decide (m.length ≤ 6) then [mk m] else []

/-- The function `extractOTPCodes(emailContent, targetEmail)` of `index.js`. -/
def extractOTPCodes (toLowerCase : Str → Str) (e : EmailContent) (targetEmail : Option Str) :
    Except JSError (List CandidateCode) :=
  match e.subject with
  | none => .error .typeError
  | some subject =>
    if isUberVerificationEmail toLowerCase subject &&
        isTargetEmail toLowerCase e.recipient targetEmail then
      match e.text with
      | none => .error .typeError
      | some text =>
        match priorityLoopV1 (mkCandidate e targetEmail .priority) text priorityPatternsV1 with
        | .error err => .error err
        | .ok (some found) => .ok found
        | .ok none => .ok (generalLoopV1 (mkCandidate e targetEmail .general) text generalPatterns)
    else .ok []

/-- The previous code unit after consuming `xs`. -/
def lastOr : Option Char → Str → Option Char
  | prev, [] => prev
  | _, c :: cs => lastOr (some c) cs

/-- The match of `<phrase><p>*(\d{4,6})` (flag `i`) at the very start of `input`, written
out with `takeWhile`; `matchNodes_anchored` shows the matcher computes it when the class
`p` contains no digit. -/
def anchoredAt (phrase : Str) (p : Char → Bool) (input : Str) : Option Str :=
  if (input.take phrase.length).map Char.toUpper = phrase.map Char.toUpper then
    if 4 ≤ ((((input.drop phrase.length).dropWhile p).takeWhile isDigit).take 6).length then
      some (input.take phrase.length ++ ((input.drop phrase.length).takeWhile p ++
        (((input.drop phrase.length).dropWhile p).takeWhile isDigit).take 6))
    else none
  else none

/-- No digit follows: the next code unit, if any, is not a digit. -/
def NoDigitAhead (post : Str) : Prop := ∀ c, post.head? = some c → isDigit c = false

/-- The text `body` splits as `pre ++ w ++ gap ++ ds ++ post` where `w` is one of
`phrases` up to ASCII case, `gap` lies in the class `p` and `ds` is 4 to 6 digits. -/
def Anchored (phrases : List String) (p : Char → Bool) (body pre w gap ds post : Str) : Prop :=
  body = pre ++ w ++ gap ++ ds ++ post ∧
    (∃ ph ∈ phrases, w.map Char.toUpper = ph.toList.map Char.toUpper) ∧
    (∀ c ∈ gap, p c = true) ∧ (∀ c ∈ ds, isDigit c = true) ∧ 4 ≤ ds.length ∧ ds.length ≤ 6

/-- The phrases of `priorityPatterns` (index-improved.js), in listed order. -/
def priorityPhrases : List String :=
  ["enter this verification code", "verification code is", "verification code", "your code",
   "code is", "code"]

/-- The keywords of `specificPatterns`, in listed order. -/
def specificPhrases : List String :=
  ["verification code", "enter this code", "this verification code"]

/-- The eligibility gate of `extractVerificationCodes`: the message has a subject and the
three tests `isUberVerificationEmail`, `isFromUberAdmin`, `isTargetEmail` hold. -/
def eligible (toLowerCase : Str → Str) (e : EmailContent) (targetEmail : Option Str) : Bool :=
  match e.subject with
  | none => false
  | some subject =>
    isUberVerificationEmail toLowerCase subject && isFromUberAdmin toLowerCase e.sender &&
      isTargetEmail toLowerCase e.recipient targetEmail

/-- The digit test of candidate codes: 4 to 6 code units, all ASCII digits. -/
def IsCode (code : Str) : Prop :=
  4 ≤ code.length ∧ code.length ≤ 6 ∧ ∀ c ∈ code, isDigit c = true

/-- The three tiers of `extractVerificationCodes` run on the body text of an eligible
message (the body of the `if` of the source). -/
def tierCascade (e : EmailContent) (targetEmail : Option Str) (text : Str) :
    Except JSError (List CandidateCode) :=
  match anchoredLoop (mkCandidate e targetEmail .priority) text priorityPatterns with
  | .error err => .error err
  | .ok (some c) => .ok [c]
  | .ok none =>
    match anchoredLoop (mkCandidate e targetEmail .specific) text specificPatterns with
    | .error err => .error err
    | .ok (some c) => .ok [c]
    | .ok none =>
      match generalLoop (mkCandidate e targetEmail .general) text generalPatterns with
      | some c => .ok [c]
      | none =>
        match generalLoop (mkCandidate e targetEmail .general) text generalPatterns with
        | some c => .ok [c]
        | none => .ok []

/-! ## Sample messages -/

/-- A message from `admin@uber.com` to `alice@catchall.test` with the recognised subject
and the given body text. -/
def uberMessage (body : String) : EmailContent :=
  ⟨some "Your Uber verification code".toList, "admin@uber.com".toList,
    "alice@catchall.test".toList, some body.toList, none, some 0⟩

/-- The target address `alice@catchall.test`. -/
def alice : Option Str := some "alice@catchall.test".toList

/-! ## Connection management of `index.js` (`checkEmailsForOTP`)

The module variables `emailConnection`, `isConnecting`, `connectionQueue` and
`lastConnectionTime`, together with what the environment holds for them: the `Imap`
objects created so far, the pending `setTimeout` timers and the settled promises.  Every
event is one JavaScript turn: a call of `checkEmailsForOTP`, a timer firing, or one of
the callbacks registered on an `Imap` object. -/

/-- The constant `CONNECTION_COOLDOWN` (milliseconds). -/
def CONNECTION_COOLDOWN : Int := 2000

/-- A call of `checkEmailsForOTP`: its argument and the promise it has to settle. -/
structure Request where
  targetEmail : Option Str
  promise : Nat
  deriving DecidableEq, Repr

/-- How a promise was settled. -/
inductive Outcome where
  | resolved (emails : List EmailContent)
  | rejected (message : Str)
  deriving DecidableEq, Repr

/-- A pending `setTimeout` that re-issues `checkEmailsForOTP` for a request. -/
structure Timer where
  due : Int
  request : Request
  deriving DecidableEq, Repr

/-- An `Imap` object created by `checkEmailsForOTP`: the request whose closure owns it,
the time `imap.connect()` was called, whether `end()` was called on it or the mail store
dropped it (`closed`), whether the callback chain `ready`, `openBox`, `search`, `fetch`
has run to its last callback (`finished`), and whether its `once('error')` handler has
run (`errored`). -/
structure Conn where
  request : Request
  openedAt : Int
  closed : Bool
  finished : Bool
  errored : Bool
  deriving DecidableEq, Repr

/-- The module state of `index.js` and its environment.  A connection is named by its
index in `conns` (oldest first). -/
structure ConnState where
  emailConnection : Option Nat
  isConnecting : Bool
  connectionQueue : List Request
  lastConnectionTime : Int
  conns : List Conn
  timers : List Timer
  settled : List (Nat × Outcome)
  deriving DecidableEq, Repr

/-- The state when the module is loaded. -/
def ConnState.init : ConnState := ⟨none, false, [], 0, [], [], []⟩

/-- The times at which connections were established, oldest first. -/
def ConnState.opened (s : ConnState) : List Int := s.conns.map Conn.openedAt

/-- Mark connection `i` as closed (`imap.end()`, or dropped by the mail store). -/
def closeConn : List Conn → Nat → List Conn
  | [], _ => []
  | c :: cs, 0 => { c with closed := true } :: cs
  | c :: cs, i + 1 => c :: closeConn cs i

/-- Mark the callback chain of connection `i` as finished. -/
def finishConn : List Conn → Nat → List Conn
  | [], _ => []
  | c :: cs, 0 => { c with finished := true } :: cs
  | c :: cs, i + 1 => c :: finishConn cs i

/-- The synchronous body of `checkEmailsForOTP(targetEmail)` run at time `now`. -/
def checkEmailsForOTP (s : ConnState) (now : Int) (r : Request) : ConnState :=
  if now - s.lastConnectionTime < CONNECTION_COOLDOWN then
    { s with timers := s.timers ++
        [⟨now + (CONNECTION_COOLDOWN - (now - s.lastConnectionTime)), r⟩] }
  else if s.isConnecting then
    { s with connectionQueue := s.connectionQueue ++ [r] }
  else
    let conns := match s.emailConnection with
      | some i => closeConn s.conns i
      | none => s.conns
    { s with
      emailConnection := some conns.length
      isConnecting := true
      lastConnectionTime := now
      conns := conns ++ [⟨r, now, false, false, false⟩] }

/-- One turn of the event loop. -/
inductive Event where
  | call (now : Int) (request : Request)
  | timeout (now : Int) (i : Nat)
  | openBoxError (conn : Nat) (message : Str)
  | searchError (conn : Nat) (message : Str)
  | searchEmpty (conn : Nat)
  | fetchError (conn : Nat) (message : Str)
  | fetchEnd (now : Int) (conn : Nat) (emails : List EmailContent)
  | imapError (now : Int) (conn : Nat) (limit : Bool) (message : Str)
  deriving DecidableEq, Repr

/-- Record that the `error` handler of connection `i` has run; the connection is gone. -/
def errorConn : List Conn → Nat → List Conn
  | [], _ => []
  | c :: cs, 0 => { c with closed := true, errored := true } :: cs
  | c :: cs, i + 1 => c :: errorConn cs i

/-- The request that owns connection `i`, when a callback of its chain can still run. -/
def activeRequest (s : ConnState) (i : Nat) : Option Request :=
  match s.conns.get? i with
  | some c => if c.finished || c.errored then none else some c.request
  | none => none

/-- The request that owns connection `i`, when its `once('error')` handler can still
run (also after the callback chain has finished). -/
def errorRequest (s : ConnState) (i : Nat) : Option Request :=
  match s.conns.get? i with
  | some c => if c.errored then none else some c.request
  | none => none

/-- The handlers of `checkEmailsForOTP`, one event at a time.  An event that is not
enabled (no such timer, no such connection, handler already run) changes nothing.
`settled` records every call of `resolve` and `reject`; for one promise the first entry
is the one that counts. -/
def step (s : ConnState) : Event → ConnState
  | .call now r => checkEmailsForOTP s now r
  | .timeout now i =>
    match s.timers.get? i with
    | some t =>
      if t.due ≤ now then checkEmailsForOTP { s with timers := s.timers.eraseIdx i } now t.request
      else s
    | none => s
  | .openBoxError i msg =>
    match activeRequest s i with
    | some r =>
      { s with isConnecting := false, emailConnection := none,
               conns := finishConn s.conns i,
               settled := s.settled ++ [(r.promise, .rejected msg)] }
    | none => s
  | .searchError i msg =>
    match activeRequest s i with
    | some r =>
      { s with isConnecting := false, emailConnection := none,
               conns := finishConn s.conns i,
               settled := s.settled ++ [(r.promise, .rejected msg)] }
    | none => s
  | .searchEmpty i =>
    match activeRequest s i with
    | some r =>
      { s with isConnecting := false, emailConnection := none,
               conns := finishConn (closeConn s.conns i) i,
               settled := s.settled ++ [(r.promise, .resolved [])] }
    | none => s
  | .fetchError i msg =>
    match activeRequest s i with
    | some r =>
      { s with isConnecting := false, emailConnection := none,
               conns := finishConn s.conns i,
               settled := s.settled ++ [(r.promise, .rejected msg)] }
    | none => s
  | .fetchEnd now i emails =>
    match activeRequest s i with
    | some r =>
      let s1 : ConnState :=
        { s with isConnecting := false, emailConnection := none,
                 conns := finishConn (closeConn s.conns i) i,
                 settled := s.settled ++ [(r.promise, .resolved emails)] }
      match s1.connectionQueue with
      | [] => s1
      | next :: rest =>
        { s1 with connectionQueue := rest,
                  timers := s1.timers ++ [⟨now + CONNECTION_COOLDOWN, next⟩] }
    | none => s
  | .imapError now i limit msg =>
    match errorRequest s i with
    | some r =>
      let s1 : ConnState :=
        { s with isConnecting := false, emailConnection := none,
                 conns := errorConn s.conns i }
      if limit then { s1 with timers := s1.timers ++ [⟨now + 5000, r⟩] }
      else { s1 with settled := s1.settled ++ [(r.promise, .rejected msg)] }
    | none => s

/-- The clock value read by `Date.now()` in a turn that runs `checkEmailsForOTP`. -/
def Event.clock : Event → Option Int
  | .call now _ => some now
  | .timeout now _ => some now
  | _ => none

/-- The state after a sequence of events, from the initial state. -/
def run (events : List Event) : ConnState := events.foldl step ConnState.init

/-- Successive entries of a list of times (oldest first) are at least `d` apart. -/
def SpacedBy (d : Int) : List Int → Prop
  | [] => True
  | [_] => True
  | a :: b :: rest => b - a ≥ d ∧ SpacedBy d (b :: rest)

/-! ## The session gatekeeper of `index-improved.js` (`EmailOTPChecker`)

`checkForNewOTPs` creates one `EmailOTPChecker` per call; `connectImap` creates an
`EmailConnection` and awaits its `connect()`.  The constant `CONNECTION_COOLDOWN` of
`index-improved.js` is declared (`// 2 seconds between connections`) and read nowhere
in that file. -/

/-- An `EmailConnection` object: when its `connect()` was called, its `isConnected` flag
and whether `imap.end()` was called on it. -/
structure Session where
  openedAt : Int
  isConnected : Bool
  ended : Bool
  deriving DecidableEq, Repr

/-- An `EmailOTPChecker` object.  `initiator` is the caller suspended at
`await this.connection.connect()`; callers are named by numbers. -/
structure Checker where
  connection : Option Nat
  isConnecting : Bool
  connectionQueue : List Nat
  initiator : Option Nat
  deriving DecidableEq, Repr

/-- What a caller of `connectImap` received. -/
inductive ConnectResult where
  | resolved (session : Nat)
  | rejected (message : Str)
  deriving DecidableEq, Repr

/-- All checkers and sessions of the process (each named by its index, oldest first) and
the results delivered to callers of `connectImap` so far. -/
structure Improved where
  checkers : List Checker
  sessions : List Session
  results : List (Nat × ConnectResult)
  deriving DecidableEq, Repr

/-- One turn of the event loop of `index-improved.js`, as far as sessions go. -/
inductive ImprovedEvent where
  | newChecker
  | connectImap (now : Int) (checker : Nat) (caller : Nat)
  | ready (session : Nat)
  | error (session : Nat) (message : Str)
  | disconnect (checker : Nat)
  deriving DecidableEq, Repr

/-- Replace element `i` of a list. -/
def setAt {α : Type} : List α → Nat → α → List α
  | [], _, _ => []
  | _ :: xs, 0, a => a :: xs
  | x :: xs, i + 1, a => x :: setAt xs i a

/-- The test `this.connection && this.connection.isConnected`. -/
def hasLiveConnection (w : Improved) (c : Checker) : Option Nat :=
  match c.connection with
  | none => none
  | some i =>
    match w.sessions.get? i with
    | some s => if s.isConnected then some i else none
    | none => none

/-- The index of the checker that awaits `connect()` of session `i`. -/
def awaitingChecker (w : Improved) (i : Nat) : Option Nat :=
  (List.range w.checkers.length).find? fun k =>
    match w.checkers.get? k with
    | some c => c.isConnecting && c.connection == some i
    | none => false

/-- The methods of `EmailOTPChecker` and `EmailConnection`, one turn at a time. -/
def stepImproved (w : Improved) : ImprovedEvent → Improved
  | .newChecker => { w with checkers := w.checkers ++ [⟨none, false, [], none⟩] }
  | .connectImap now k caller =>
    match w.checkers.get? k with
    | none => w
    | some c =>
      if c.isConnecting then
        let c1 : Checker := { c with connectionQueue := c.connectionQueue ++ [caller] }
        { w with checkers := setAt w.checkers k c1 }
      else
        match hasLiveConnection w c with
        | some i => { w with results := w.results ++ [(caller, .resolved i)] }
        | none =>
          let c1 : Checker :=
            { c with isConnecting := true, connection := some w.sessions.length,
                     initiator := some caller }
          { w with checkers := setAt w.checkers k c1,
                   sessions := w.sessions ++ [⟨now, false, false⟩] }
  | .ready i =>
    match w.sessions.get? i with
    | none => w
    | some s =>
      let sessions := setAt w.sessions i ({ s with isConnected := true })
      match awaitingChecker w i with
      | none => { w with sessions := sessions }
      | some k =>
        match w.checkers.get? k with
        | none => w
        | some c =>
          let c1 : Checker :=
            { c with isConnecting := false, connectionQueue := [], initiator := none }
          let delivered := c.connectionQueue.map (fun q => (q, ConnectResult.resolved i)) ++
            c.initiator.toList.map (fun q => (q, ConnectResult.resolved i))
          { checkers := setAt w.checkers k c1, sessions := sessions,
            results := w.results ++ delivered }
  | .error i msg =>
    match w.sessions.get? i with
    | none => w
    | some s =>
      let sessions := setAt w.sessions i ({ s with isConnected := false })
      match awaitingChecker w i with
      | none => { w with sessions := sessions }
      | some k =>
        match w.checkers.get? k with
        | none => w
        | some c =>
          let c1 : Checker := { c with isConnecting := false, initiator := none }
          let delivered := c.initiator.toList.map (fun q => (q, ConnectResult.rejected msg))
          { checkers := setAt w.checkers k c1, sessions := sessions,
            results := w.results ++ delivered }
  | .disconnect k =>
    match w.checkers.get? k with
    | none => w
    | some c =>
      match hasLiveConnection w c with
      | none => w
      | some i =>
        match w.sessions.get? i with
        | none => w
        | some s =>
          let s1 : Session := { s with isConnected := false, ended := true }
          { w with sessions := setAt w.sessions i s1 }

/-- The state after a sequence of events, from the empty process. -/
def runImproved (events : List ImprovedEvent) : Improved :=
  events.foldl stepImproved ⟨[], [], []⟩

/-- The times at which `index-improved.js` established connections, oldest first. -/
def Improved.opened (w : Improved) : List Int := w.sessions.map Session.openedAt

/-! ## `EmailConnection.fetchEmails` and `EmailOTPChecker.waitForVerificationEmail` -/

/-- The ids handed to `imap.fetch`: `messageIds.sort((a, b) => b - a).slice(0, 3)`. -/
def sortedIds (messageIds : List Nat) : List Nat :=
  (messageIds.insertionSort (fun a b => b ≤ a)).take 3

/-- The method `fetchEmails(messageIds)` over the `imap.fetch` of the session, which yields
the parsed messages in arrival order or an error. -/
def fetchEmails (imapFetch : List Nat → Except Str (List EmailContent))
    (messageIds : List Nat) : Except Str (List EmailContent) :=
  if messageIds.length = 0 then .ok [] else imapFetch (sortedIds messageIds)

/-- The mail store as seen by one call of `waitForVerificationEmail`: the outcome of
`connectImap`, of the search of each cycle (cycle 0 is the search for existing messages,
cycle `k ≥ 1` the `k`-th polling search), of `imap.fetch` in each cycle, and the value of
`Date.now() - startTime` when a code is found in a cycle. -/
structure MailStore where
  connect : Except Str Unit
  search : Nat → Except Str (List Nat)
  imapFetch : Nat → List Nat → Except Str (List EmailContent)
  elapsed : Nat → Int

/-- The `options` argument.  The source reads `options.checkInterval` only; `deadline`
stands for a deadline a caller puts into the object, which no line of the source reads. -/
structure WatchOptions where
  checkInterval : Option Nat
  deadline : Option Int
  deriving DecidableEq, Repr

/-- What was thrown inside the `try` of `waitForVerificationEmail`. -/
inductive Thrown where
  | store (message : Str)
  | js (error : JSError)
  deriving DecidableEq, Repr

/-- The object returned by `waitForVerificationEmail`: `found codes primaryCode waitTime`
is the record with `success: true`, `failed e` the record with `success: false`,
`codes: []` and the message of `e`. -/
inductive WatchResult where
  | found (codes : List CandidateCode) (primaryCode : CandidateCode) (waitTime : Int)
  | failed (error : Thrown)
  deriving DecidableEq, Repr

/-- The mail-store operations and sleeps a call performs, in order. -/
inductive Op where
  | connectImap
  | searchEmails (cycle : Nat)
  | fetchEmails (ids : List Nat)
  | sleep (ms : Nat)
  deriving DecidableEq, Repr

/-- The loop `for (let i = emails.length - 1; i >= 0; i--)` over the messages in the
order it visits them: the first message with a non-empty result ends it. -/
def firstHit (toLowerCase : Str → Str) (targetEmail : Option Str) :
    List EmailContent → Except JSError (Option (List CandidateCode × CandidateCode))
  | [] => .ok none
  | e :: rest =>
    match extractVerificationCodes toLowerCase e targetEmail with
    | .error err => .error err
    | .ok [] => firstHit toLowerCase targetEmail rest
    | .ok (c :: cs) => .ok (some (c :: cs, c))

/-- One search/fetch/extract cycle. -/
def cycle (toLowerCase : Str → Str) (store : MailStore) (targetEmail : Option Str) (k : Nat) :
    Except Thrown (Option (List CandidateCode × CandidateCode)) × List Op :=
  match store.search k with
  | .error m => (.error (.store m), [.searchEmails k])
  | .ok ids =>
    if ids.length > 0 then
      match fetchEmails (store.imapFetch k) ids with
      | .error m => (.error (.store m), [.searchEmails k, .fetchEmails (sortedIds ids)])
      | .ok emails =>
        match firstHit toLowerCase targetEmail emails.reverse with
        | .error err => (.error (.js err), [.searchEmails k, .fetchEmails (sortedIds ids)])
        | .ok hit => (.ok hit, [.searchEmails k, .fetchEmails (sortedIds ids)])
    else (.ok none, [.searchEmails k])

/-- The loop `while (true)`, run for at most `fuel` cycles starting with cycle `k`; the
result is `none` when the loop is still running after them. -/
def poll (toLowerCase : Str → Str) (store : MailStore) (targetEmail : Option Str)
    (checkInterval : Nat) : Nat → Nat → Option WatchResult × List Op
  | 0, _ => (none, [])
  | fuel + 1, k =>
    match cycle toLowerCase store targetEmail k with
    | (.error e, ops) => (some (.failed e), ops)
    | (.ok (some (codes, primary)), ops) => (some (.found codes primary (store.elapsed k)), ops)
    | (.ok none, ops) =>
      let next := poll toLowerCase store targetEmail checkInterval fuel (k + 1)
      (next.1, ops ++ [.sleep checkInterval] ++ next.2)

/-- The method `waitForVerificationEmail(targetEmail, options)` against a mail store,
with the polling loop run for at most `fuel` cycles. -/
def waitForVerificationEmail (toLowerCase : Str → Str) (store : MailStore)
    (targetEmail : Option Str) (options : WatchOptions) (fuel : Nat) :
    Option WatchResult × List Op :=
  let checkInterval := match options.checkInterval with
    | some n => if n = 0 then 100 else n
    | none => 100
  match store.connect with
  | .error m => (some (.failed (.store m)), [.connectImap])
  | .ok _ =>
    match cycle toLowerCase store targetEmail 0 with
    | (.error e, ops) => (some (.failed e), .connectImap :: ops)
    | (.ok (some (codes, primary)), ops) =>
      (some (.found codes primary (store.elapsed 0)), .connectImap :: ops)
    | (.ok none, ops) =>
      let rest := poll toLowerCase store targetEmail checkInterval fuel 1
      (rest.1, .connectImap :: ops ++ rest.2)

/-- A mail store that accepts the connection and never has a message. -/
def emptyStore : MailStore := ⟨.ok (), fun _ => .ok [], fun _ _ => .ok [], fun _ => 0⟩

/-- A mail store that accepts the connection and holds one message, with id 1. -/
def storeWith (e : EmailContent) : MailStore :=
  ⟨.ok (), fun _ => .ok [1], fun _ _ => .ok [e], fun _ => 0⟩

/-! ## Positions of matches -/

/-- The pattern `re` matches at index `i` of `body` with matched text `m`. -/
def MatchAt (re : RegExp) (body : Str) (i : Nat) (m : Str) : Prop :=
  ∃ pre rest, body = pre ++ rest ∧ pre.length = i ∧
    matchNodes re.ignoreCase re.nodes (lastOr none pre) rest = some m

/-- A bare `n`-digit token `ds` stands at index `i` of `body`: `n` digits with no word
character (letter, digit, underscore) right before or right after them. -/
def BareTokenAt (n : Nat) (body : Str) (i : Nat) (ds : Str) : Prop :=
  ∃ pre post, body = pre ++ ds ++ post ∧ pre.length = i ∧ ds.length = n ∧
    (∀ c ∈ ds, isDigit c = true) ∧ isWordAt pre.getLast? = false ∧
    isWordAt post.head? = false

/-- The number of connections of `checkEmailsForOTP` that were opened and are neither
ended nor dropped. -/
def ConnState.openCount (s : ConnState) : Nat :=
  (s.conns.filter fun c => !c.closed).length

/-- Callers of `connectImap` on checker `k`, one event each, in arrival order. -/
def queueCalls (k : Nat) (callers : List (Int × Nat)) (w : Improved) : Improved :=
  callers.foldl (fun w q => stepImproved w (.connectImap q.1 k q.2)) w

/-! ## `checkForNewOTPs` (index-improved.js) -/

/-- The method `EmailConnection.disconnect()`: `imap.end()` and `isConnected = false` when
the connection is connected, nothing otherwise. -/
def EmailConnection.disconnect (s : Session) : Session :=
  if s.isConnected then { s with isConnected := false, ended := true } else s

/-- The method `EmailOTPChecker.disconnect()` on the field `connection`. -/
def EmailOTPChecker.disconnect : Option Session → Option Session
  | none => none
  | some s => some (EmailConnection.disconnect s)

/-- What `checkForNewOTPs` does, in order: mail-store operations of
`waitForVerificationEmail`, `sendOTPToDiscord`, `interaction.followUp`, and
`emailChecker.disconnect()`. -/
inductive Action where
  | mail (op : Op)
  | sendOTPToDiscord
  | followUp
  | disconnect
  deriving DecidableEq, Repr

/-- The Discord side of one call: whether an `interaction` was passed, whether
`sendOTPToDiscord` raises, and whether `interaction.followUp` raises in the `else` branch
of the `try` block or in the `catch` block. -/
structure Notifier where
  interaction : Bool
  sendThrows : Bool
  followUpThrows : Bool
  catchFollowUpThrows : Bool
  deriving DecidableEq, Repr

/-- How a call of `checkForNewOTPs` ends: it returns `otps` (and `waitTime` when a code was
found), or it raises. -/
inductive CheckOutcome where
  | returned (otps : List CandidateCode) (waitTime : Option Int)
  | threw
  deriving DecidableEq, Repr

/-- The `catch` block followed by the `finally` block of `checkForNewOTPs`. -/
def catchAndFinally (n : Notifier) (acts : List Action) (conn : Option Session) :
    Option CheckOutcome × List Action × Option Session :=
  if n.interaction then
    if n.catchFollowUpThrows then
      (some .threw, acts ++ [.followUp, .disconnect], EmailOTPChecker.disconnect conn)
    else
      (some (.returned [] none), acts ++ [.followUp, .disconnect],
        EmailOTPChecker.disconnect conn)
  else (some (.returned [] none), acts ++ [.disconnect], EmailOTPChecker.disconnect conn)

/-- The function `checkForNewOTPs(targetEmail, interaction)` called at time `now`: its
outcome (`none` while `waitForVerificationEmail` is still polling after `fuel` cycles),
its actions in order, and the `connection` field of its `EmailOTPChecker` at the end.
The checker is new, so `connectImap` creates the `EmailConnection`, whose `isConnected`
flag is set when the connection succeeds. -/
def checkForNewOTPs (toLowerCase : Str → Str) (store : MailStore) (targetEmail : Option Str)
    (n : Notifier) (now : Int) (fuel : Nat) :
    Option CheckOutcome × List Action × Option Session :=
  let w := waitForVerificationEmail toLowerCase store targetEmail ⟨some 100, none⟩ fuel
  let conn : Option Session :=
    match store.connect with
    | .ok _ => some ⟨now, true, false⟩
    | .error _ => some ⟨now, false, false⟩
  let acts := w.2.map Action.mail
  match w.1 with
  | none => (none, acts, conn)
  | some (.found _ primary waitTime) =>
    if n.sendThrows then catchAndFinally n (acts ++ [.sendOTPToDiscord]) conn
    else
      (some (.returned [primary] (some waitTime)), acts ++ [.sendOTPToDiscord, .disconnect],
        EmailOTPChecker.disconnect conn)
  | some (.failed _) =>
    if n.interaction then
      if n.followUpThrows then catchAndFinally n (acts ++ [.followUp]) conn
      else
        (some (.returned [] none), acts ++ [.followUp, .disconnect],
          EmailOTPChecker.disconnect conn)
    else (some (.returned [] none), acts ++ [.disconnect], EmailOTPChecker.disconnect conn)

/-- A mail store whose answer to `imap.fetch` is one message per requested id, in the
order requested, and whose searches return `ids` from cycle `first` on. -/
def storeOf (first : Nat) (ids : List Nat) (message : Nat → EmailContent) : MailStore :=
  ⟨.ok (), fun k => if first ≤ k then .ok ids else .ok [],
    fun _ requested => .ok (requested.map message), fun _ => 0⟩

/-- Two messages: id 2, the newer, carries `2222`; every other id carries `1111`. -/
def twoCodes (id : Nat) : EmailContent :=
  if id = 2 then uberMessage "Your code: 2222" else uberMessage "Your code: 1111"

/-! ## Variants compared with the extractors -/

/-- The function `extractVerificationCodes` with its second pass over `generalPatterns`
(the loop after the log line `trying general patterns`) removed. -/
def extractVerificationCodesOnePass (toLowerCase : Str → Str) (e : EmailContent)
    (targetEmail : Option Str) : Except JSError (List CandidateCode) :=
  match e.subject with
  | none => .error .typeError
  | some subject =>
    if isUberVerificationEmail toLowerCase subject && isFromUberAdmin toLowerCase e.sender &&
        isTargetEmail toLowerCase e.recipient targetEmail then
      match e.text with
      | none => .error .typeError
      | some text =>
        match anchoredLoop (mkCandidate e targetEmail .priority) text priorityPatterns with
        | .error err => .error err
        | .ok (some c) => .ok [c]
        | .ok none =>
          match anchoredLoop (mkCandidate e targetEmail .specific) text specificPatterns with
          | .error err => .error err
          | .ok (some c) => .ok [c]
          | .ok none =>
            match generalLoop (mkCandidate e targetEmail .general) text generalPatterns with
            | some c => .ok [c]
            | none => .ok []
    else .ok []

/-- The function `extractOTPCodes(emailContent, targetEmail)` of `test-otp-fix.js`: the
patterns and loops of `index.js`, entered when the subject is recognised; the recipient
is logged and not tested. -/
def extractOTPCodesTest (toLowerCase : Str → Str) (e : EmailContent)
    (targetEmail : Option Str) : Except JSError (List CandidateCode) :=
  match e.subject with
  | none => .error .typeError
  | some subject =>
    if isUberVerificationEmail toLowerCase subject then
      match e.text with
      | none => .error .typeError
      | some text =>
        match priorityLoopV1 (mkCandidate e targetEmail .priority) text priorityPatternsV1 with
        | .error err => .error err
        | .ok (some found) => .ok found
        | .ok none => .ok (generalLoopV1 (mkCandidate e targetEmail .general) text generalPatterns)
    else .ok []

/-- No digit stands right before: the previous code unit, if any, is not a digit. -/
def NoDigitBehind (pre : Str) : Prop := ∀ c, pre.getLast? = some c → isDigit c = false

/-- A message to `bob@catchall.test` with the recognised subject and sender. -/
def messageToBob (body : String) : EmailContent :=
  ⟨some "Your Uber verification code".toList, "admin@uber.com".toList,
    "bob@catchall.test".toList, some body.toList, none, some 0⟩

/-! ## Address validation -/

/-- The method `String.prototype.split` with a separator of one code unit. -/
def split (sep : Char) : Str → List Str
  | [] => [[]]
  | c :: cs =>
    if c = sep then [] :: split sep cs
    else
      match split sep cs with
      | [] => [[c]]
      | seg :: segs => (c :: seg) :: segs

/-- The method `Array.prototype.join`. -/
def join (sep : Str) (parts : List Str) : Str := sep.intercalate parts

/-- The default of `SUPPORTED_DOMAINS` (the environment variable is not set). -/
def SUPPORTED_DOMAINS : List Str := ["familyfeastadmin.xyz".toList, "bigboyent.xyz".toList]

/-- The object returned by `validateCatchAllEmail`; an absent field is `none`. -/
structure Validation where
  valid : Bool
  message : Option Str
  domain : Option Str
  deriving DecidableEq, Repr

/-- The function `validateCatchAllEmail(email)` of `index-improved.js`, for an argument
that is a string or `null` (`none`), over the configured list of domains. -/
def validateCatchAllEmail (toLowerCase : Str → Str) (supportedDomains : List Str)
    (email : Option Str) : Validation :=
  match email with
  | none => ⟨false, some "Email address is required".toList, none⟩
  | some email =>
    if email.isEmpty then ⟨false, some "Email address is required".toList, none⟩
    else
      match (split '@' email).get? 1 with
      | none => ⟨false, some "Invalid email format".toList, none⟩
      | some domain =>
        if domain.isEmpty then ⟨false, some "Invalid email format".toList, none⟩
        else if supportedDomains.any fun supportedDomain =>
            decide (toLowerCase domain = toLowerCase supportedDomain) then
          ⟨true, some "Email is valid".toList, none⟩
        else
          ⟨false, some ("Email domain not supported. Supported domains: ".toList ++
            join ", ".toList supportedDomains), none⟩

/-- The pattern `/^[^\s@]+@[^\s@]+\.[^\s@]+$/`. -/
def emailRegex : RegExp :=
  ⟨[.lineStart, .cls isAddrChar 1 none true, .char '@', .cls isAddrChar 1 none true,
    .char '.', .cls isAddrChar 1 none true, .lineEnd], false⟩

/-- The method `RegExp.prototype.test` of a pattern without the `g` flag. -/
def RegExp.test (re : RegExp) (s : Str) : Bool := (re.exec s).isSome

/-- The function `validateCatchAllEmail(email)` of `index.js`, over the configured list
of domains; `Array.prototype.includes` finds no `undefined` in a list of strings. -/
def validateCatchAllEmailV1 (supportedDomains : List Str) (email : Str) : Validation :=
  if !emailRegex.test email then ⟨false, some "Invalid email format".toList, none⟩
  else
    let domain := (split '@' email).get? 1
    let included : Bool :=
      match domain with
      | none => false
      | some d => decide (d ∈ supportedDomains)
    if !included then
      ⟨false, some ("Only supported domains: ".toList ++ join ", ".toList supportedDomains),
        none⟩
    else ⟨true, none, domain⟩

/-- The text after the last `@` of an address (the whole text when there is none). -/
def textAfterLastAt (email : Str) : Str := ((split '@' email).getLast?).getD []

/-- An address of the shape `local@domain`: no white space and no other `@`, a local
part that is not empty, and a domain with a `.` that has text on both sides. -/
def WellFormedAddress (email localPart domain : Str) : Prop :=
  email = localPart ++ '@' :: domain ∧ localPart ≠ [] ∧
    (∀ c ∈ localPart, isSpace c = false ∧ c ≠ '@') ∧
    (∀ c ∈ domain, isSpace c = false ∧ c ≠ '@') ∧
    ∃ d1 d2, domain = d1 ++ '.' :: d2 ∧ d1 ≠ [] ∧ d2 ≠ []

/-! ## The connection-limit test -/

/-- The test `err.textCode === 'ALERT' && err.message.includes('Too many simultaneous
connections')` of the `error` handler of `checkEmailsForOTP`. -/
def isConnectionLimit (textCode : Option Str) (message : Str) : Bool :=
  decide (textCode = some "ALERT".toList) &&
    includes message "Too many simultaneous connections".toList

/-! ## `checkForNewOTPs` of `index.js` -/

/-- The loop `for (const email of emails) allOTPs.push(...extractOTPCodes(email,
targetEmail))`; an exception of `extractOTPCodes` leaves the loop. -/
def collectOTPs (toLowerCase : Str → Str) (targetEmail : Option Str) :
    List EmailContent → Except JSError (List CandidateCode)
  | [] => .ok []
  | email :: rest =>
    match extractOTPCodes toLowerCase email targetEmail with
    | .error err => .error err
    | .ok otps =>
      match collectOTPs toLowerCase targetEmail rest with
      | .error err => .error err
      | .ok more => .ok (otps ++ more)

/-- The time value of `new Date(otp.date)`; the model covers valid dates, an absent date
is read as `0`. -/
def dateValue (c : CandidateCode) : Nat := c.date.getD 0

/-- The call `allOTPs.sort((a, b) => new Date(b.date) - new Date(a.date))`: a stable sort,
latest date first. -/
def sortByDate (allOTPs : List CandidateCode) : List CandidateCode :=
  allOTPs.insertionSort (fun a b => dateValue b ≤ dateValue a)

/-- The `catch` block of `checkForNewOTPs` in `index.js`. -/
def catchBlockV1 (n : Notifier) : CheckOutcome :=
  if n.interaction && n.catchFollowUpThrows then .threw else .returned [] none

/-- The function `checkForNewOTPs(targetEmail, interaction)` of `index.js`, given what
`checkEmailsForOTP` settles with (`fetched`) and how the Discord calls behave (`n`). -/
def checkForNewOTPsV1 (toLowerCase : Str → Str) (fetched : Except Str (List EmailContent))
    (targetEmail : Option Str) (n : Notifier) : CheckOutcome :=
  match fetched with
  | .error _ => catchBlockV1 n
  | .ok emails =>
    match collectOTPs toLowerCase targetEmail emails with
    | .error _ => catchBlockV1 n
    | .ok allOTPs =>
      match sortByDate allOTPs with
      | mostRecentOTP :: _ =>
        if n.sendThrows then catchBlockV1 n else .returned [mostRecentOTP] none
      | [] =>
        if n.interaction && n.followUpThrows then catchBlockV1 n else .returned [] none

/-- A message to `alice@catchall.test` with the recognised subject, body and date. -/
def datedMessage (body : String) (date : Nat) : EmailContent :=
  ⟨some "Your Uber verification code".toList, "admin@uber.com".toList,
    "alice@catchall.test".toList, some body.toList, none, some date⟩

/-- A message to `alice@catchall.test` that has no `Subject` header. -/
def subjectlessMessage (date : Nat) : EmailContent :=
  ⟨none, "news@example.com".toList, "alice@catchall.test".toList, some "hello".toList, none,
    some date⟩

/-- A notifier whose Discord calls all succeed. -/
def quietNotifier : Notifier := ⟨true, false, false, false⟩

/-! ## The watch registry of `index.js` -/

/-- A `watcher` object of `/watchotp` with its two timers: whether the `setInterval` held
in `watcher.interval` is still running, and whether its `setTimeout` is still pending. -/
structure Watcher where
  userId : Nat
  email : Str
  intervalRunning : Bool
  timeoutPending : Bool
  deriving DecidableEq, Repr

/-- The registry `activeWatchers` (a map from user id to a watcher, named by its index in
`watchers`) and every watcher object created, oldest first. -/
structure WatchState where
  activeWatchers : List (Nat × Nat)
  watchers : List Watcher
  deriving DecidableEq, Repr

/-- The commands and timer callbacks that touch the registry. -/
inductive WatchEvent where
  | watchotp (userId : Nat) (email : Str)
  | stopwatch (userId : Nat)
  | codeFound (watcher : Nat)
  | timeout (watcher : Nat)
  deriving DecidableEq, Repr

/-- The call `clearInterval(watcher.interval)`. -/
def clearInterval (watchers : List Watcher) (w : Nat) : List Watcher :=
  match watchers.get? w with
  | some x => setAt watchers w { x with intervalRunning := false }
  | none => watchers

/-- The call `activeWatchers.delete(userId)`. -/
def mapDelete (m : List (Nat × Nat)) (userId : Nat) : List (Nat × Nat) :=
  m.filter fun entry => entry.1 != userId

/-- The call `activeWatchers.set(userId, watcher)`. -/
def mapSet (m : List (Nat × Nat)) (userId w : Nat) : List (Nat × Nat) :=
  mapDelete m userId ++ [(userId, w)]

/-- One command or timer callback.  `watchotp` is the handler after the address has passed
validation; `codeFound w` is a tick of the interval of watcher `w` whose check returned a
code (enabled while that interval runs); `timeout w` is the `setTimeout` callback of
watcher `w` (enabled once). -/
def stepWatch (s : WatchState) : WatchEvent → WatchState
  | .watchotp userId email =>
    { activeWatchers := mapSet s.activeWatchers userId s.watchers.length
      watchers := s.watchers ++ [⟨userId, email, true, true⟩] }
  | .stopwatch userId =>
    match s.activeWatchers.lookup userId with
    | some w =>
      { activeWatchers := mapDelete s.activeWatchers userId
        watchers := clearInterval s.watchers w }
    | none => s
  | .codeFound w =>
    match s.watchers.get? w with
    | some x =>
      if x.intervalRunning then
        { activeWatchers := mapDelete s.activeWatchers x.userId
          watchers := clearInterval s.watchers w }
      else s
    | none => s
  | .timeout w =>
    match s.watchers.get? w with
    | some x =>
      if x.timeoutPending then
        let fired := setAt s.watchers w { x with timeoutPending := false }
        if (s.activeWatchers.lookup x.userId).isSome then
          { activeWatchers := mapDelete s.activeWatchers x.userId
            watchers := clearInterval fired w }
        else { s with watchers := fired }
      else s
    | none => s

/-- The registry after a sequence of events, from the empty registry. -/
def runWatch (events : List WatchEvent) : WatchState := events.foldl stepWatch ⟨[], []⟩

/-- The watchers started by `userId` whose polling interval is still running. -/
def runningOf (s : WatchState) (userId : Nat) : List Nat :=
  (List.range s.watchers.length).filter fun w =>
    match s.watchers.get? w with
    | some x => x.userId == userId && x.intervalRunning
    | none => false

/-! ## RegExp objects and their `lastIndex` -/

/-- A RegExp object: its pattern (source text and `i` flag), its `g` flag and its mutable
property `lastIndex`. -/
structure RegExpObject where
  pattern : RegExp
  global : Bool
  lastIndex : Nat

/-- The operation RegExpBuiltinExec(R, S): the search starts at `lastIndex` when the
pattern is global and at 0 otherwise; a global pattern is left with `lastIndex` at the end
of the match, or at 0 after a failure.  Result: index and text of the match, and the
object afterwards. -/
def RegExpObject.exec (R : RegExpObject) (S : Str) : Option (Nat × Str) × RegExpObject :=
  let lastIndex := if R.global then R.lastIndex else 0
  if S.length < lastIndex then (none, { R with lastIndex := 0 })
  else
    match scanFrom (matchNodes R.pattern.ignoreCase R.pattern.nodes) lastIndex
        (lastOr none (S.take lastIndex)) (S.drop lastIndex) with
    | none => (none, if R.global then { R with lastIndex := 0 } else R)
    | some (i, m) =>
      (some (i, m), if R.global then { R with lastIndex := i + m.length } else R)

/-- The loop of `RegExp.prototype[Symbol.match]` for a global pattern: `exec` is repeated
until it fails, and after an empty match `lastIndex` is advanced by one.  Result: the
matched texts in order and the object afterwards; `none` when `fuel` iterations did not
reach the failing `exec`. -/
def matchLoop (S : Str) : Nat → RegExpObject → Option (List Str × RegExpObject)
  | 0, _ => none
  | fuel + 1, R =>
    match R.exec S with
    | (none, R1) => some ([], R1)
    | (some (_, matchStr), R1) =>
      let R2 : RegExpObject :=
        if matchStr.isEmpty then { R1 with lastIndex := R1.lastIndex + 1 } else R1
      (matchLoop S fuel R2).map fun r => (matchStr :: r.1, r.2)

/-- The call `S.match(R)`.  The result array is given by its matched texts (`[]` stands
for `null`; for a pattern without `g` the array holds the match at element 0, its capture
groups are left out).  A global pattern has `lastIndex` set to 0 before the loop. -/
def stringMatch (S : Str) (R : RegExpObject) : Option (List Str × RegExpObject) :=
  if R.global then matchLoop S (S.length + 2) { R with lastIndex := 0 }
  else
    match R.exec S with
    | (none, R1) => some ([], R1)
    | (some (_, m), R1) => some ([m], R1)

/-- The mutable environment a call of `extractVerificationCodes` could read: the clock and
the RegExp objects of its three pattern lists. -/
structure Realm where
  now : Int
  priorityPatterns : List RegExpObject
  specificPatterns : List RegExpObject
  generalPatterns : List RegExpObject

/-- The object a literal `/.../g` or `/.../gi` evaluates to. -/
def RegExp.literal (re : RegExp) : RegExpObject := ⟨re, true, 0⟩

/-- The pattern objects right after the three array literals of
`extractVerificationCodes` have been evaluated. -/
def Realm.fresh (now : Int) : Realm :=
  ⟨now, OTP.priorityPatterns.map RegExp.literal, OTP.specificPatterns.map RegExp.literal,
    OTP.generalPatterns.map RegExp.literal⟩

/-- A loop over `priorityPatterns` or `specificPatterns` on RegExp objects:
`matches = text.match(pattern)`, `match = matches[0]`, `code = match.match(/\d{4,6}/)[0]`
with a literal evaluated in every iteration. -/
def anchoredLoopWith (mk : Str → CandidateCode) (text : Str) :
    List RegExpObject → Option (Except JSError (Option CandidateCode) × List RegExpObject)
  | [] => some (.ok none, [])
  | pattern :: rest =>
    match stringMatch text pattern with
    | none => none
    | some ([], pattern1) =>
      (anchoredLoopWith mk text rest).map fun r => (r.1, pattern1 :: r.2)
    | some (m :: _, pattern1) =>
      match stringMatch m ⟨digitRun, false, 0⟩ with
      | none => none
      | some ([], _) => some (.error .typeError, pattern1 :: rest)
      | some (code :: _, _) =>
        if validCode code then some (.ok (some (mk code)), pattern1 :: rest)
        else (anchoredLoopWith mk text rest).map fun r => (r.1, pattern1 :: r.2)

/-- A loop over `generalPatterns` on RegExp objects. -/
def generalLoopWith (mk : Str → CandidateCode) (text : Str) :
    List RegExpObject → Option (Option CandidateCode × List RegExpObject)
  | [] => some (none, [])
  | pattern :: rest =>
    match stringMatch text pattern with
    | none => none
    | some ([], pattern1) =>
      (generalLoopWith mk text rest).map fun r => (r.1, pattern1 :: r.2)
    | some (m :: _, pattern1) =>
      if decide (4 ≤ m.length) && decide (m.length ≤ 6) then some (some (mk m), pattern1 :: rest)
      else (generalLoopWith mk text rest).map fun r => (r.1, pattern1 :: r.2)

/-- The body of `extractVerificationCodes` run on given pattern objects: the result and
the environment afterwards (`none` when a `match` loop ran out of fuel).  The second pass
over `generalPatterns` uses the objects as the first pass left them. -/
def extractVerificationCodesWith (toLowerCase : Str → Str) (e : EmailContent)
    (targetEmail : Option Str) (r : Realm) :
    Option (Except JSError (List CandidateCode) × Realm) :=
  match e.subject with
  | none => some (.error .typeError, r)
  | some subject =>
    if isUberVerificationEmail toLowerCase subject && isFromUberAdmin toLowerCase e.sender &&
        isTargetEmail toLowerCase e.recipient targetEmail then
      match e.text with
      | none => some (.error .typeError, r)
      | some text =>
        match anchoredLoopWith (mkCandidate e targetEmail .priority) text r.priorityPatterns with
        | none => none
        | some (.error err, p1) => some (.error err, { r with priorityPatterns := p1 })
        | some (.ok (some c), p1) => some (.ok [c], { r with priorityPatterns := p1 })
        | some (.ok none, p1) =>
          match anchoredLoopWith (mkCandidate e targetEmail .specific) text
              r.specificPatterns with
          | none => none
          | some (.error err, s1) => some (.error err, ⟨r.now, p1, s1, r.generalPatterns⟩)
          | some (.ok (some c), s1) => some (.ok [c], ⟨r.now, p1, s1, r.generalPatterns⟩)
          | some (.ok none, s1) =>
            match generalLoopWith (mkCandidate e targetEmail .general) text
                r.generalPatterns with
            | none => none
            | some (some c, g1) => some (.ok [c], ⟨r.now, p1, s1, g1⟩)
            | some (none, g1) =>
              match generalLoopWith (mkCandidate e targetEmail .general) text g1 with
              | none => none
              | some (some c, g2) => some (.ok [c], ⟨r.now, p1, s1, g2⟩)
              | some (none, g2) => some (.ok [], ⟨r.now, p1, s1, g2⟩)
    else some (.ok [], r)

/-- The pattern objects of an environment are those of the source (same patterns, flag
`g`), at any `lastIndex`. -/
def Realm.HasPatterns (r : Realm) : Prop :=
  (r.priorityPatterns.map RegExpObject.pattern = OTP.priorityPatterns ∧
      ∀ o ∈ r.priorityPatterns, o.global = true) ∧
    (r.specificPatterns.map RegExpObject.pattern = OTP.specificPatterns ∧
      ∀ o ∈ r.specificPatterns, o.global = true) ∧
    (r.generalPatterns.map RegExpObject.pattern = OTP.generalPatterns ∧
      ∀ o ∈ r.generalPatterns, o.global = true)

/-- Pattern objects left in the middle of an earlier search: every `lastIndex` is `k`. -/
def Realm.stale (now : Int) (k : Nat) : Realm :=
  ⟨now, OTP.priorityPatterns.map fun re => ⟨re, true, k⟩,
    OTP.specificPatterns.map fun re => ⟨re, true, k⟩,
    OTP.generalPatterns.map fun re => ⟨re, true, k⟩⟩

/-! ## The bot's use of `EmailOTPChecker` -/

/-- The turns in which `index-improved.js` touches a checker: `checkForNewOTPs` creates an
`EmailOTPChecker` and, through `waitForVerificationEmail`, calls `connectImap` on it in
the same turn; the other turns are those of `ImprovedEvent`. -/
inductive BotEvent where
  | checkForNewOTPs (now : Int) (caller : Nat)
  | ready (session : Nat)
  | error (session : Nat) (message : Str)
  | disconnect (checker : Nat)
  deriving DecidableEq, Repr

/-- One turn of the bot. -/
def stepBot (w : Improved) : BotEvent → Improved
  | .checkForNewOTPs now caller =>
    stepImproved (stepImproved w .newChecker) (.connectImap now w.checkers.length caller)
  | .ready i => stepImproved w (.ready i)
  | .error i message => stepImproved w (.error i message)
  | .disconnect k => stepImproved w (.disconnect k)

/-- The state after a sequence of turns of the bot, from the empty process. -/
def runBot (events : List BotEvent) : Improved := events.foldl stepBot ⟨[], [], []⟩

/-! ## Lemmas on the matcher -/

theorem lastOr_append (prev : Option Char) (xs ys : Str) :
    lastOr prev (xs ++ ys) = lastOr (lastOr prev xs) ys := by
  induction xs generalizing prev with
  | nil => rfl
  | cons c cs ih => simp [lastOr, ih]

/-- A greedy bounded class followed by nothing takes the longest run allowed. -/
theorem quantMatch_total (p : Char → Bool) :
    ∀ (input : Str) (min M : Nat) (prev : Option Char),
      quantMatch p true (fun _ _ => some []) min (some M) prev input =
        if min ≤ ((input.takeWhile p).take M).length then some ((input.takeWhile p).take M)
        else none := by
  intro input
  induction input with
  | nil => intro min M prev; simp [quantMatch]
  | cons d ds ih =>
    intro min M prev
    by_cases hp : p d = true
    · cases M with
      | zero => simp [quantMatch, hp]
      | succ M =>
        have h1 : ((some (M + 1) : Option Nat) != some 0) = true := by simp
        simp only [quantMatch, hp, Bool.true_and, h1, if_true, Option.map_some',
          Nat.add_sub_cancel, ih, List.takeWhile_cons, List.take_succ_cons, List.length_cons]
        by_cases hm : min - 1 ≤ (List.take M (List.takeWhile p ds)).length
        · have h2 : min ≤ (List.take M (List.takeWhile p ds)).length + 1 := by omega
          rw [if_pos hm, if_pos h2]
        · have h2 : ¬ min ≤ (List.take M (List.takeWhile p ds)).length + 1 := by omega
          have h0 : min ≠ 0 := by omega
          rw [if_neg hm, if_neg h2, if_neg h0]
    · simp [quantMatch, hp]

/-- A greedy star whose continuation cannot start on a code unit of the class takes the
whole run of the class and then runs the continuation. -/
theorem quantMatch_star_disjoint (p : Char → Bool) (k : Cont)
    (hk : ∀ prev c cs, p c = true → k prev (c :: cs) = none) :
    ∀ (input : Str) (prev : Option Char),
      quantMatch p true k 0 none prev input =
        (k (lastOr prev (input.takeWhile p)) (input.dropWhile p)).map (input.takeWhile p ++ ·) := by
  intro input
  induction input with
  | nil => intro prev; simp [quantMatch, lastOr]
  | cons d ds ih =>
    intro prev
    by_cases hp : p d = true
    · have h1 : ((none : Option Nat) != some 0) = true := by simp
      simp only [quantMatch, hp, h1, Bool.and_self, if_true, Option.map_none', Nat.zero_sub, ih,
        List.takeWhile_cons, List.dropWhile_cons, lastOr]
      cases hr : k (lastOr (some d) (List.takeWhile p ds)) (List.dropWhile p ds) with
      | none => simp [hk prev d ds hp]
      | some r => simp
    · simp [quantMatch, hp, lastOr]

/-- Whatever a quantified class returns splits into a run of the class, within the
bounds, and a result of the continuation. -/
theorem quantMatch_sound (p : Char → Bool) (g : Bool) (k : Cont) :
    ∀ (input : Str) (min : Nat) (max : Option Nat) (prev : Option Char) (m : Str),
      quantMatch p g k min max prev input = some m →
      ∃ xs rest r, input = xs ++ rest ∧ (∀ c ∈ xs, p c = true) ∧ min ≤ xs.length ∧
        (∀ M, max = some M → xs.length ≤ M) ∧ k (lastOr prev xs) rest = some r ∧
        m = xs ++ r := by
  intro input
  induction input with
  | nil =>
    intro min max prev m h
    simp only [quantMatch] at h
    split at h
    · next h0 => exact ⟨[], [], m, rfl, by simp, by simp [h0], by simp, h, rfl⟩
    · cases h
  | cons d ds ih =>
    intro min max prev m h
    have stop : (if min = 0 then k prev (d :: ds) else none) = some m →
        ∃ xs rest r, d :: ds = xs ++ rest ∧ (∀ c ∈ xs, p c = true) ∧ min ≤ xs.length ∧
          (∀ M, max = some M → xs.length ≤ M) ∧ k (lastOr prev xs) rest = some r ∧
          m = xs ++ r := by
      intro h
      split at h
      · next h0 => exact ⟨[], d :: ds, m, rfl, by simp, by simp [h0], by simp, h, rfl⟩
      · cases h
    have more : ∀ r', p d = true → max ≠ some 0 →
        quantMatch p g k (min - 1) (max.map (· - 1)) (some d) ds = some r' → m = d :: r' →
        ∃ xs rest r, d :: ds = xs ++ rest ∧ (∀ c ∈ xs, p c = true) ∧ min ≤ xs.length ∧
          (∀ M, max = some M → xs.length ≤ M) ∧ k (lastOr prev xs) rest = some r ∧
          m = xs ++ r := by
      intro r' hp hmax hr hm
      obtain ⟨xs, rest, r, e1, e2, e3, e4, e5, e6⟩ := ih _ _ _ _ hr
      refine ⟨d :: xs, rest, r, by simp [e1], ?_, ?_, ?_, ?_, by simp [hm, e6]⟩
      · intro c hc
        rcases List.mem_cons.1 hc with rfl | hc
        · exact hp
        · exact e2 c hc
      · simp only [List.length_cons]; omega
      · intro M hM
        subst hM
        have := e4 (M - 1) rfl
        have : M ≠ 0 := fun h0 => hmax (by simp [h0])
        simp only [List.length_cons]; omega
      · simpa [lastOr] using e5
    simp only [quantMatch] at h
    by_cases hc : (p d && max != some 0) = true
    · have hp : p d = true := by simp at hc; exact hc.1
      have hmax : max ≠ some 0 := by simp at hc; exact hc.2
      rw [if_pos hc] at h
      cases g with
      | true =>
        simp only [if_true] at h
        cases hr : quantMatch p true k (min - 1) (max.map (· - 1)) (some d) ds with
        | none => rw [hr] at h; exact stop h
        | some r' => rw [hr] at h; exact more r' hp hmax hr (by cases h; rfl)
      | false =>
        simp only [Bool.false_eq_true, if_false] at h
        cases hs : (if min = 0 then k prev (d :: ds) else none) with
        | some r' => rw [hs] at h; cases h; exact stop hs
        | none =>
          rw [hs] at h
          cases hr : quantMatch p false k (min - 1) (max.map (· - 1)) (some d) ds with
          | none => rw [hr] at h; cases h
          | some r' => rw [hr] at h; exact more r' hp hmax hr (by cases h; rfl)
    · rw [if_neg hc] at h
      exact stop h

theorem isDigit_toNat (c : Char) : isDigit c = true ↔ 48 ≤ c.toNat ∧ c.toNat ≤ 57 := by
  simp only [isDigit, Bool.and_eq_true, decide_eq_true_eq, Char.le_def, Char.toNat]
  rfl

theorem toUpper_of_isDigit (c : Char) (h : isDigit c = true) : c.toUpper = c := by
  have h1 := (isDigit_toNat c).1 h
  have h2 : ¬ (c.toNat ≥ 97 ∧ c.toNat ≤ 122) := by omega
  simp only [Char.toUpper]
  rw [if_neg h2]

theorem isSep_not_digit (c : Char) (h : isSep c = true) : isDigit c = false := by
  cases hd : isDigit c with
  | false => rfl
  | true =>
    have h1 := (isDigit_toNat c).1 hd
    have hc : c.toNat ≠ 58 := by omega
    have hne : (c == ':') = false := by
      simp only [beq_eq_false_iff_ne, ne_eq]
      exact fun e => hc (by rw [e]; rfl)
    simp only [isSep, hne, Bool.false_or, isSpace, Bool.or_eq_true, beq_iff_eq,
      Bool.and_eq_true, decide_eq_true_eq] at h
    omega

theorem isNonDigit_not_digit (c : Char) (h : isNonDigit c = true) : isDigit c = false := by
  simpa [isNonDigit] using h

/-- A literal piece matches exactly the inputs that start with it up to case. -/
theorem matchNodes_chars (ic : Bool) (cs : List Char) (ns : List Node) :
    ∀ (prev : Option Char) (input : Str),
      matchNodes ic (cs.map Node.char ++ ns) prev input =
        if (input.take cs.length).map (canonicalize ic) = cs.map (canonicalize ic) then
          (matchNodes ic ns (lastOr prev (input.take cs.length)) (input.drop cs.length)).map
            (input.take cs.length ++ ·)
        else none := by
  induction cs with
  | nil => intro prev input; simp [lastOr]
  | cons c cs ih =>
    intro prev input
    cases input with
    | nil => simp [matchNodes]
    | cons d ds =>
      simp only [List.map_cons, List.cons_append, matchNodes, List.length_cons,
        List.take_succ_cons, List.drop_succ_cons, lastOr, List.cons.injEq, List.append_eq]
      rw [ih]
      by_cases h1 : canonicalize ic d = canonicalize ic c
      · by_cases h2 : List.map (canonicalize ic) (List.take cs.length ds) =
            List.map (canonicalize ic) cs
        · rw [if_pos h1, if_pos h2, if_pos ⟨h1, h2⟩]
          cases matchNodes ic ns (lastOr (some d) (List.take cs.length ds))
            (List.drop cs.length ds) <;> rfl
        · rw [if_pos h1, if_neg h2, if_neg (fun h => h2 h.2)]
          rfl
      · rw [if_neg h1, if_neg (fun h => h1 h.1)]

theorem scanFrom_sound (m : Cont) :
    ∀ (s : Str) (i : Nat) (prev : Option Char) (j : Nat) (r : Str),
      scanFrom m i prev s = some (j, r) →
      ∃ pre rest, s = pre ++ rest ∧ j = i + pre.length ∧ m (lastOr prev pre) rest = some r := by
  intro s
  induction s with
  | nil =>
    intro i prev j r h
    simp only [scanFrom, Option.map_eq_some'] at h
    obtain ⟨a, ha, he⟩ := h
    cases he
    exact ⟨[], [], rfl, rfl, ha⟩
  | cons c cs ih =>
    intro i prev j r h
    simp only [scanFrom] at h
    cases hm : m prev (c :: cs) with
    | some r' =>
      rw [hm] at h
      cases h
      exact ⟨[], c :: cs, rfl, rfl, hm⟩
    | none =>
      rw [hm] at h
      obtain ⟨pre, rest, e1, e2, e3⟩ := ih _ _ _ _ h
      exact ⟨c :: pre, rest, by simp [e1], by simp [e2]; omega, by simpa [lastOr] using e3⟩

theorem scanFrom_here (m : Cont) (s : Str) (i : Nat) (prev : Option Char) (r : Str)
    (h : m prev s = some r) : scanFrom m i prev s = some (i, r) := by
  cases s with
  | nil => simp [scanFrom, h]
  | cons c cs => simp [scanFrom, h]

theorem scanFrom_complete (m : Cont) :
    ∀ (pre rest : Str) (i : Nat) (prev : Option Char) (r : Str),
      m (lastOr prev pre) rest = some r → (scanFrom m i prev (pre ++ rest)).isSome = true := by
  intro pre
  induction pre with
  | nil =>
    intro rest i prev r h
    simp only [lastOr] at h
    simp [scanFrom_here m rest i prev r h]
  | cons c cs ih =>
    intro rest i prev r h
    simp only [List.cons_append, scanFrom]
    cases hm : m prev (c :: (cs ++ rest)) with
    | some r' => simp
    | none => exact ih rest (i + 1) (some c) r (by simpa [lastOr] using h)

theorem scanFrom_skip (m : Cont) (p : Char → Bool)
    (hm : ∀ prev c cs, p c = false → m prev (c :: cs) = none) :
    ∀ (pre rest : Str) (i : Nat) (prev : Option Char), (∀ c ∈ pre, p c = false) →
      scanFrom m i prev (pre ++ rest) = scanFrom m (i + pre.length) (lastOr prev pre) rest := by
  intro pre
  induction pre with
  | nil => intro rest i prev _; simp [lastOr]
  | cons c cs ih =>
    intro rest i prev h
    have h0 := hm prev c (cs ++ rest) (h c (by simp))
    have e : scanFrom m i prev (c :: cs ++ rest) = scanFrom m (i + 1) (some c) (cs ++ rest) := by
      show (match m prev (c :: (cs ++ rest)) with
        | some r => some (i, r)
        | none => scanFrom m (i + 1) (some c) (cs ++ rest)) = _
      rw [h0]
    rw [e, ih rest (i + 1) (some c) (fun x hx => h x (by simp [hx]))]
    simp only [lastOr, List.length_cons]
    congr 1
    omega

theorem matchNodes_digits46 (ic : Bool) (prev : Option Char) (input : Str) :
    matchNodes ic [digits46] prev input =
      if 4 ≤ ((input.takeWhile isDigit).take 6).length then
        some ((input.takeWhile isDigit).take 6) else none := by
  have h := quantMatch_total isDigit input 4 6 prev
  simpa [matchNodes, digits46] using h

theorem matchNodes_digits46_nondigit (ic : Bool) (prev : Option Char) (c : Char) (cs : Str)
    (h : isDigit c = false) : matchNodes ic [digits46] prev (c :: cs) = none := by
  rw [matchNodes_digits46]
  simp [List.takeWhile_cons, h]

theorem matchNodes_tail (ic : Bool) (p : Char → Bool)
    (hp : ∀ c, p c = true → isDigit c = false) (prev : Option Char) (input : Str) :
    matchNodes ic [.cls p 0 none true, digits46] prev input =
      if 4 ≤ (((input.dropWhile p).takeWhile isDigit).take 6).length then
        some (input.takeWhile p ++ ((input.dropWhile p).takeWhile isDigit).take 6)
      else none := by
  have h := quantMatch_star_disjoint p (matchNodes ic [digits46])
    (fun prev c cs hc => matchNodes_digits46_nondigit ic prev c cs (hp c hc)) input prev
  have e : matchNodes ic [.cls p 0 none true, digits46] prev input =
      quantMatch p true (matchNodes ic [digits46]) 0 none prev input := rfl
  rw [e, h, matchNodes_digits46]
  split <;> rfl

theorem canonicalize_true : canonicalize true = Char.toUpper := by
  funext c
  simp [canonicalize]

theorem matchNodes_anchored (ph : String) (p : Char → Bool)
    (hp : ∀ c, p c = true → isDigit c = false) (prev : Option Char) (input : Str) :
    matchNodes true (lit ph ++ [.cls p 0 none true, digits46]) prev input =
      anchoredAt ph.toList p input := by
  unfold lit anchoredAt
  rw [matchNodes_chars, canonicalize_true]
  split
  · rw [matchNodes_tail true p hp]
    split <;> rfl
  · rfl

theorem not_digit_of_upper_eq (w ph : Str) (h : w.map Char.toUpper = ph.map Char.toUpper)
    (hph : ∀ c ∈ ph.map Char.toUpper, isDigit c = false) : ∀ c ∈ w, isDigit c = false := by
  intro c hc
  cases hd : isDigit c with
  | false => rfl
  | true =>
    have h1 : c.toUpper ∈ w.map Char.toUpper := List.mem_map_of_mem _ hc
    rw [toUpper_of_isDigit c hd, h] at h1
    rw [hph c h1] at hd
    cases hd

theorem noDigitAhead_dropWhile (l : Str) : NoDigitAhead (l.dropWhile isDigit) := by
  intro c hc
  have h := List.head?_dropWhile_not isDigit l
  rw [hc] at h
  simpa using h

theorem anchoredAt_sound (ph : Str) (p : Char → Bool)
    (hph : ∀ c ∈ ph.map Char.toUpper, isDigit c = false) (rest m : Str)
    (h : anchoredAt ph p rest = some m) :
    ∃ w gap ds post, rest = w ++ gap ++ ds ++ post ∧ w.map Char.toUpper = ph.map Char.toUpper ∧
      (∀ c ∈ gap, p c = true) ∧ (∀ c ∈ ds, isDigit c = true) ∧ 4 ≤ ds.length ∧
      ds.length ≤ 6 ∧ (ds.length = 6 ∨ NoDigitAhead post) ∧ m = w ++ gap ++ ds ∧
      (∀ c ∈ w, isDigit c = false) := by
  unfold anchoredAt at h
  split at h
  case isFalse => cases h
  case isTrue hw =>
    split at h
    case isFalse => cases h
    case isTrue h4 =>
      cases h
      set X := (rest.drop ph.length).dropWhile p with hX
      set T := X.takeWhile isDigit with hT
      refine ⟨rest.take ph.length, (rest.drop ph.length).takeWhile p, T.take 6,
        T.drop 6 ++ X.dropWhile isDigit, ?_, hw, ?_, ?_, h4, List.length_take_le _ _, ?_, ?_,
        not_digit_of_upper_eq _ _ hw hph⟩
      · have e1 : T.take 6 ++ (T.drop 6 ++ X.dropWhile isDigit) = X := by
          rw [← List.append_assoc, List.take_append_drop, hT, List.takeWhile_append_dropWhile]
        have e2 : (rest.drop ph.length).takeWhile p ++ X = rest.drop ph.length := by
          rw [hX, List.takeWhile_append_dropWhile]
        calc rest = rest.take ph.length ++ rest.drop ph.length :=
              (List.take_append_drop _ _).symm
          _ = rest.take ph.length ++ ((rest.drop ph.length).takeWhile p ++ X) := by rw [e2]
          _ = rest.take ph.length ++ ((rest.drop ph.length).takeWhile p ++
                (T.take 6 ++ (T.drop 6 ++ X.dropWhile isDigit))) := by rw [e1]
          _ = _ := by simp only [List.append_assoc]
      · intro c hc
        exact List.mem_takeWhile_imp hc
      · intro c hc
        exact List.mem_takeWhile_imp (List.mem_of_mem_take hc)
      · by_cases h6 : 6 ≤ T.length
        · left
          rw [List.length_take]
          omega
        · right
          have : T.drop 6 = [] := List.drop_of_length_le (by omega)
          rw [this, List.nil_append]
          exact noDigitAhead_dropWhile X
      · simp only [List.append_assoc]

theorem firstMatch_digitRun_inner (pre ds : Str) (hpre : ∀ c ∈ pre, isDigit c = false)
    (hds : ∀ c ∈ ds, isDigit c = true) (h4 : 4 ≤ ds.length) (h6 : ds.length ≤ 6) :
    firstMatch digitRun (pre ++ ds) = some ds := by
  have h1 : matchNodes false [digits46] (lastOr none pre) ds = some ds := by
    rw [matchNodes_digits46]
    have e : ds.takeWhile isDigit = ds := List.takeWhile_eq_self_iff.2 hds
    rw [e, List.take_of_length_le h6, if_pos h4]
  unfold firstMatch RegExp.exec
  show Option.map Prod.snd (scanFrom (matchNodes false [digits46]) 0 none (pre ++ ds)) = some ds
  rw [scanFrom_skip (matchNodes false [digits46]) isDigit
    (fun prev c cs hc => matchNodes_digits46_nondigit false prev c cs hc) pre ds 0 none hpre,
    scanFrom_here _ _ _ _ _ h1]
  rfl

/-- What a match of a phrase-anchored pattern looks like. -/
theorem firstMatch_anchored_sound (ph : String) (p : Char → Bool)
    (hp : ∀ c, p c = true → isDigit c = false)
    (hph : ∀ c ∈ ph.toList.map Char.toUpper, isDigit c = false) (body m : Str)
    (h : firstMatch ⟨lit ph ++ [.cls p 0 none true, digits46], true⟩ body = some m) :
    ∃ pre w gap ds post, Anchored [ph] p body pre w gap ds post ∧
      (ds.length = 6 ∨ NoDigitAhead post) ∧ m = w ++ gap ++ ds ∧
      firstMatch digitRun m = some ds := by
  unfold firstMatch RegExp.exec at h
  simp only [Option.map_eq_some'] at h
  obtain ⟨⟨j, r⟩, hs, hr⟩ := h
  cases hr
  obtain ⟨pre, rest, e1, -, e3⟩ := scanFrom_sound _ _ _ _ _ _ hs
  rw [matchNodes_anchored ph p hp] at e3
  obtain ⟨w, gap, ds, post, r1, r2, r3, r4, r5, r6, r7, r8, r9⟩ :=
    anchoredAt_sound ph.toList p hph rest _ e3
  refine ⟨pre, w, gap, ds, post, ⟨?_, ⟨ph, by simp, r2⟩, r3, r4, r5, r6⟩, r7, r8, ?_⟩
  · rw [e1, r1]; simp only [List.append_assoc]
  · rw [r8]
    apply firstMatch_digitRun_inner (w ++ gap) ds _ r4 r5 r6
    intro c hc
    rcases List.mem_append.1 hc with hc | hc
    · exact r9 c hc
    · exact hp c (r3 c hc)

/-- A phrase-anchored pattern matches every text that has an anchored digit group. -/
theorem firstMatch_anchored_complete (ph : String) (p : Char → Bool)
    (hp : ∀ c, p c = true → isDigit c = false) (body pre w gap ds post : Str)
    (h : Anchored [ph] p body pre w gap ds post) :
    (firstMatch ⟨lit ph ++ [.cls p 0 none true, digits46], true⟩ body).isSome = true := by
  obtain ⟨e, ⟨ph', hph', hw⟩, hgap, hds, h4, h6⟩ := h
  simp only [List.mem_singleton] at hph'
  subst hph'
  have hlen : w.length = ph'.toList.length := by
    have := congrArg List.length hw
    simpa using this
  have hne : ds ≠ [] := by
    intro h0; rw [h0] at h4; simp at h4
  obtain ⟨d, ds', rfl⟩ := List.exists_cons_of_ne_nil hne
  have hd : isDigit d = true := hds d (by simp)
  have hpd : ¬ p d = true := fun hc => by rw [hp d hc] at hd; cases hd
  have key : (anchoredAt ph'.toList p (w ++ (gap ++ ((d :: ds') ++ post)))).isSome = true := by
    unfold anchoredAt
    rw [← hlen, List.take_left, List.drop_left, if_pos hw,
      List.dropWhile_append_of_pos hgap]
    have e1 : List.dropWhile p (d :: ds' ++ post) = d :: ds' ++ post := by
      rw [List.cons_append, List.dropWhile_cons_of_neg hpd]
    rw [e1, List.takeWhile_append_of_pos hds]
    have : 4 ≤ (List.take 6 (d :: ds' ++ List.takeWhile isDigit post)).length := by
      rw [List.length_take, List.length_append]
      omega
    rw [if_pos this]
    rfl
  unfold firstMatch RegExp.exec
  rw [Option.isSome_map']
  rw [e]
  cases hk : anchoredAt ph'.toList p (w ++ (gap ++ ((d :: ds') ++ post))) with
  | none => rw [hk] at key; cases key
  | some r =>
    have := scanFrom_complete (matchNodes true (lit ph' ++ [.cls p 0 none true, digits46])) pre
      (w ++ (gap ++ ((d :: ds') ++ post))) 0 none r
      (by rw [matchNodes_anchored ph' p hp]; exact hk)
    simpa only [List.append_assoc] using this

theorem priorityPatterns_eq : priorityPatterns = priorityPhrases.map phraseSep := rfl

theorem specificPatterns_eq : specificPatterns = specificPhrases.map phraseGap := rfl

theorem priorityPhrases_no_digit :
    ∀ ph ∈ priorityPhrases, ∀ c ∈ ph.toList.map Char.toUpper, isDigit c = false := by
  decide

theorem specificPhrases_no_digit :
    ∀ ph ∈ specificPhrases, ∀ c ∈ ph.toList.map Char.toUpper, isDigit c = false := by
  decide

/-- Every match of `/\d{4,6}/` is 4 to 6 digits. -/
theorem firstMatch_digitRun_isCode (m code : Str) (h : firstMatch digitRun m = some code) :
    IsCode code := by
  unfold firstMatch RegExp.exec at h
  simp only [Option.map_eq_some'] at h
  obtain ⟨⟨j, r⟩, hs, hr⟩ := h
  cases hr
  obtain ⟨pre, rest, -, -, e3⟩ := scanFrom_sound _ _ _ _ _ _ hs
  have e4 : matchNodes false [digits46] (lastOr none pre) rest = some r := e3
  rw [matchNodes_digits46] at e4
  split at e4
  case isFalse => cases e4
  case isTrue h4 =>
    cases e4
    exact ⟨h4, List.length_take_le _ _, fun c hc => List.mem_takeWhile_imp (List.mem_of_mem_take hc)⟩

theorem validCode_of_isCode (code : Str) (h : IsCode code) : validCode code = true := by
  obtain ⟨h4, h6, -⟩ := h
  cases code with
  | nil => simp at h4
  | cons c cs => simp only [validCode, List.isEmpty_cons, Bool.not_false, Bool.true_and,
      Bool.and_eq_true, decide_eq_true_eq]; exact ⟨h4, h6⟩

theorem anchoredLoop_cons_none (mk : Str → CandidateCode) (text : Str) (p : RegExp)
    (ps : List RegExp) (h : firstMatch p text = none) :
    anchoredLoop mk text (p :: ps) = anchoredLoop mk text ps := by
  simp [anchoredLoop, h]

theorem anchoredLoop_cons_some (mk : Str → CandidateCode) (text : Str) (p : RegExp)
    (ps : List RegExp) (m code : Str) (h : firstMatch p text = some m)
    (hc : firstMatch digitRun m = some code) :
    anchoredLoop mk text (p :: ps) = .ok (some (mk code)) := by
  simp [anchoredLoop, h, hc, validCode_of_isCode code (firstMatch_digitRun_isCode m code hc)]

/-- The loop falls through only when no pattern of the list matches. -/
theorem anchoredLoop_none (mk : Str → CandidateCode) (text : Str) :
    ∀ ps : List RegExp, anchoredLoop mk text ps = .ok none →
      ∀ p ∈ ps, firstMatch p text = none := by
  intro ps
  induction ps with
  | nil => intro _ p hp; cases hp
  | cons q qs ih =>
    intro h p hp
    cases hq : firstMatch q text with
    | none =>
      rw [anchoredLoop_cons_none mk text q qs hq] at h
      rcases List.mem_cons.1 hp with rfl | hp
      · exact hq
      · exact ih h p hp
    | some m =>
      cases hc : firstMatch digitRun m with
      | none => simp [anchoredLoop, hq, hc] at h
      | some code => rw [anchoredLoop_cons_some mk text q qs m code hq hc] at h; cases h

/-- Every candidate of the loop carries a code that is 4 to 6 digits. -/
theorem anchoredLoop_some (mk : Str → CandidateCode) (text : Str) :
    ∀ (ps : List RegExp) (c : CandidateCode), anchoredLoop mk text ps = .ok (some c) →
      ∃ code, IsCode code ∧ c = mk code := by
  intro ps
  induction ps with
  | nil => intro c h; cases h
  | cons q qs ih =>
    intro c h
    cases hq : firstMatch q text with
    | none =>
      rw [anchoredLoop_cons_none mk text q qs hq] at h
      exact ih c h
    | some m =>
      cases hc : firstMatch digitRun m with
      | none => simp [anchoredLoop, hq, hc] at h
      | some code =>
        rw [anchoredLoop_cons_some mk text q qs m code hq hc] at h
        cases h
        exact ⟨code, firstMatch_digitRun_isCode m code hc, rfl⟩

/-- The loop over phrase-anchored patterns: either no pattern matches, or the result is
the digit group of an anchored occurrence of the first phrase that matches. -/
theorem anchoredLoop_phrases (p : Char → Bool) (hp : ∀ c, p c = true → isDigit c = false)
    (mk : Str → CandidateCode) (text : Str) :
    ∀ phs : List String, (∀ ph ∈ phs, ∀ c ∈ ph.toList.map Char.toUpper, isDigit c = false) →
      ((∀ ph ∈ phs, firstMatch ⟨lit ph ++ [.cls p 0 none true, digits46], true⟩ text = none) ∧
        anchoredLoop mk text
          (phs.map fun ph => ⟨lit ph ++ [.cls p 0 none true, digits46], true⟩) = .ok none) ∨
      ∃ pre w gap ds post, Anchored phs p text pre w gap ds post ∧
        (ds.length = 6 ∨ NoDigitAhead post) ∧
        anchoredLoop mk text
          (phs.map fun ph => ⟨lit ph ++ [.cls p 0 none true, digits46], true⟩) =
            .ok (some (mk ds)) := by
  intro phs
  induction phs with
  | nil => intro _; left; exact ⟨fun _ h => (by cases h), rfl⟩
  | cons ph phs ih =>
    intro hno
    cases hq : firstMatch ⟨lit ph ++ [.cls p 0 none true, digits46], true⟩ text with
    | none =>
      rcases ih (fun x hx => hno x (List.mem_cons_of_mem _ hx)) with ⟨h1, h2⟩ | h
      · left
        refine ⟨?_, ?_⟩
        · intro x hx
          rcases List.mem_cons.1 hx with rfl | hx
          · exact hq
          · exact h1 x hx
        · rw [List.map_cons, anchoredLoop_cons_none mk text _ _ hq]; exact h2
      · right
        obtain ⟨pre, w, gap, ds, post, ⟨a1, ⟨x, hx, a2⟩, a3⟩, hmax, hres⟩ := h
        refine ⟨pre, w, gap, ds, post, ⟨a1, ⟨x, List.mem_cons_of_mem _ hx, a2⟩, a3⟩, hmax, ?_⟩
        rw [List.map_cons, anchoredLoop_cons_none mk text _ _ hq]; exact hres
    | some m =>
      right
      obtain ⟨pre, w, gap, ds, post, ⟨a1, ⟨x, hx, a2⟩, a3⟩, hmax, -, hin⟩ :=
        firstMatch_anchored_sound ph p hp (hno ph (by simp)) text m hq
      simp only [List.mem_singleton] at hx
      subst hx
      refine ⟨pre, w, gap, ds, post, ⟨a1, ⟨x, by simp, a2⟩, a3⟩, hmax, ?_⟩
      rw [List.map_cons, anchoredLoop_cons_some mk text _ _ m ds hq hin]

/-- A match of `/\b\d{n}\b/` is exactly `n` digits. -/
theorem firstMatch_bareDigits (n : Nat) (text m : Str)
    (h : firstMatch (bareDigits n) text = some m) :
    m.length = n ∧ ∀ c ∈ m, isDigit c = true := by
  unfold firstMatch RegExp.exec at h
  simp only [Option.map_eq_some'] at h
  obtain ⟨⟨j, r⟩, hs, hr⟩ := h
  cases hr
  obtain ⟨pre, rest, -, -, e3⟩ := scanFrom_sound _ _ _ _ _ _ hs
  have e4 : (if isWordAt (lastOr none pre) != isWordAt rest.head? then
      quantMatch isDigit true (matchNodes false [.wordBoundary]) n (some n) (lastOr none pre) rest
      else none) = some r := e3
  split at e4
  case isFalse => cases e4
  case isTrue =>
    obtain ⟨xs, rest', r', -, h2, h3, h4, h5, h6⟩ := quantMatch_sound _ _ _ _ _ _ _ _ e4
    have h7 : r' = [] := by
      have : (if isWordAt (lastOr (lastOr none pre) xs) != isWordAt rest'.head? then
          (some [] : Option Str) else none) = some r' := h5
      split at this
      · cases this; rfl
      · cases this
    subst h7
    have h8 := h4 n rfl
    subst h6
    simp only [List.append_nil]
    exact ⟨by omega, h2⟩

theorem generalPatterns_digits (text m : Str) :
    ∀ p ∈ generalPatterns, firstMatch p text = some m → ∀ c ∈ m, isDigit c = true := by
  intro p hp h
  simp only [generalPatterns, List.mem_cons, List.mem_singleton, List.not_mem_nil, or_false] at hp
  rcases hp with rfl | rfl
  · exact (firstMatch_bareDigits 4 text m h).2
  · exact (firstMatch_bareDigits 6 text m h).2

theorem generalLoop_some (mk : Str → CandidateCode) (text : Str) :
    ∀ (ps : List RegExp) (c : CandidateCode),
      (∀ p ∈ ps, ∀ m, firstMatch p text = some m → ∀ x ∈ m, isDigit x = true) →
      generalLoop mk text ps = some c → ∃ code, IsCode code ∧ c = mk code := by
  intro ps
  induction ps with
  | nil => intro c _ h; cases h
  | cons q qs ih =>
    intro c hd h
    simp only [generalLoop] at h
    cases hq : firstMatch q text with
    | none =>
      rw [hq] at h
      exact ih c (fun p hp => hd p (List.mem_cons_of_mem _ hp)) h
    | some m =>
      rw [hq] at h
      simp only at h
      split at h
      case isTrue hlen =>
        cases h
        simp only [Bool.and_eq_true, decide_eq_true_eq] at hlen
        exact ⟨m, ⟨hlen.1, hlen.2, hd q (by simp) m hq⟩, rfl⟩
      case isFalse => exact ih c (fun p hp => hd p (List.mem_cons_of_mem _ hp)) h

/-- A match of the lazy pattern of `index.js` ends in 4 to 6 digits, so the inner
`/\d{4,6}/` finds a match in it. -/
theorem firstMatch_phraseLazy_inner (ph : String) (text m : Str)
    (h : firstMatch (phraseLazy ph) text = some m) :
    (firstMatch digitRun m).isSome = true := by
  unfold firstMatch RegExp.exec at h
  simp only [Option.map_eq_some'] at h
  obtain ⟨⟨j, r⟩, hs, hr⟩ := h
  cases hr
  obtain ⟨pre, rest, -, -, e3⟩ := scanFrom_sound _ _ _ _ _ _ hs
  have e4 : matchNodes true (ph.toList.map Node.char ++ [.cls isAny 0 none false, digits46])
      (lastOr none pre) rest = some r := e3
  rw [matchNodes_chars] at e4
  split at e4
  case isFalse => cases e4
  case isTrue =>
    simp only [Option.map_eq_some'] at e4
    obtain ⟨r1, h1, rfl⟩ := e4
    have h1' : quantMatch isAny false (matchNodes true [digits46]) 0 none
        (lastOr (lastOr none pre) (List.take ph.toList.length rest))
        (List.drop ph.toList.length rest) = some r1 := h1
    obtain ⟨xs, rest', r', -, -, -, -, h5, rfl⟩ := quantMatch_sound _ _ _ _ _ _ _ _ h1'
    rw [matchNodes_digits46] at h5
    split at h5
    case isFalse => cases h5
    case isTrue h4 =>
      cases h5
      set ds := List.take 6 (List.takeWhile isDigit rest') with hds
      have hdig : ∀ c ∈ ds, isDigit c = true :=
        fun c hc => List.mem_takeWhile_imp (List.mem_of_mem_take hc)
      have h6 : ds.length ≤ 6 := List.length_take_le _ _
      have hm : matchNodes false [digits46]
          (lastOr none (List.take ph.toList.length rest ++ xs)) ds = some ds := by
        rw [matchNodes_digits46, List.takeWhile_eq_self_iff.2 hdig, List.take_of_length_le h6,
          if_pos h4]
      have := scanFrom_complete (matchNodes false [digits46])
        (List.take ph.toList.length rest ++ xs) ds 0 none ds hm
      unfold firstMatch RegExp.exec
      rw [Option.isSome_map']
      simpa only [List.append_assoc] using this

theorem firstMatch_phraseSep_inner (ph : String)
    (hph : ∀ c ∈ ph.toList.map Char.toUpper, isDigit c = false) (text m : Str)
    (h : firstMatch (phraseSep ph) text = some m) :
    (firstMatch digitRun m).isSome = true := by
  obtain ⟨_, _, _, ds, _, -, -, -, hin⟩ :=
    firstMatch_anchored_sound ph isSep isSep_not_digit hph text m h
  simp [hin]

theorem priorityPatternsV1_inner (text m : Str) :
    ∀ p ∈ priorityPatternsV1, firstMatch p text = some m →
      (firstMatch digitRun m).isSome = true := by
  intro p hp h
  simp only [priorityPatternsV1, List.mem_cons, List.mem_singleton, List.not_mem_nil,
    or_false] at hp
  rcases hp with rfl | rfl | rfl | rfl | rfl
  · exact firstMatch_phraseSep_inner _ (by decide) text m h
  · exact firstMatch_phraseSep_inner _ (by decide) text m h
  · exact firstMatch_phraseSep_inner _ (by decide) text m h
  · exact firstMatch_phraseSep_inner _ (by decide) text m h
  · exact firstMatch_phraseLazy_inner _ text m h

/-- The priority loop of `index.js` never raises and returns at most one candidate, whose
code is 4 to 6 digits. -/
theorem priorityLoopV1_ok (mk : Str → CandidateCode) (text : Str) :
    ∀ ps : List RegExp,
      (∀ p ∈ ps, ∀ m, firstMatch p text = some m → (firstMatch digitRun m).isSome = true) →
      priorityLoopV1 mk text ps = .ok none ∨
        ∃ code, IsCode code ∧ priorityLoopV1 mk text ps = .ok (some [mk code]) := by
  intro ps
  induction ps with
  | nil => intro _; left; rfl
  | cons q qs ih =>
    intro hin
    simp only [priorityLoopV1]
    cases hq : firstMatch q text with
    | none => exact ih (fun p hp => hin p (List.mem_cons_of_mem _ hp))
    | some m =>
      have h1 := hin q (by simp) m hq
      cases hc : firstMatch digitRun m with
      | none => rw [hc] at h1; cases h1
      | some code =>
        right
        have hcode := firstMatch_digitRun_isCode m code hc
        exact ⟨code, hcode, by simp [hc, validCode_of_isCode code hcode]⟩

theorem generalLoopV1_spec (mk : Str → CandidateCode) (text : Str) :
    ∀ ps : List RegExp,
      (∀ p ∈ ps, ∀ m, firstMatch p text = some m → ∀ x ∈ m, isDigit x = true) →
      generalLoopV1 mk text ps = [] ∨
        ∃ code, IsCode code ∧ generalLoopV1 mk text ps = [mk code] := by
  intro ps
  induction ps with
  | nil => intro _; left; rfl
  | cons q qs ih =>
    intro hd
    simp only [generalLoopV1]
    cases hq : firstMatch q text with
    | none => exact ih (fun p hp => hd p (List.mem_cons_of_mem _ hp))
    | some m =>
      simp only
      split
      case isTrue hlen =>
        right
        simp only [Bool.and_eq_true, decide_eq_true_eq] at hlen
        exact ⟨m, ⟨hlen.1, hlen.2, hd q (by simp) m hq⟩, rfl⟩
      case isFalse => left; rfl

theorem extract_eligible (toLowerCase : Str → Str) (e : EmailContent) (targetEmail : Option Str)
    (body : Str) (hel : eligible toLowerCase e targetEmail = true) (ht : e.text = some body) :
    extractVerificationCodes toLowerCase e targetEmail = tierCascade e targetEmail body := by
  unfold eligible at hel
  unfold extractVerificationCodes
  cases hs : e.subject with
  | none => rw [hs] at hel; cases hel
  | some s =>
    rw [hs] at hel
    simp only at hel ⊢
    rw [if_pos hel, ht]
    rfl

theorem extract_ineligible (toLowerCase : Str → Str) (e : EmailContent)
    (targetEmail : Option Str) (s : Str) (hs : e.subject = some s)
    (hel : eligible toLowerCase e targetEmail = false) :
    extractVerificationCodes toLowerCase e targetEmail = .ok [] := by
  unfold eligible at hel
  unfold extractVerificationCodes
  rw [hs] at hel ⊢
  simp only at hel ⊢
  rw [if_neg (by rw [hel]; simp)]

theorem extract_nonempty (toLowerCase : Str → Str) (e : EmailContent)
    (targetEmail : Option Str) (c : CandidateCode) (l : List CandidateCode)
    (h : extractVerificationCodes toLowerCase e targetEmail = .ok (c :: l)) :
    eligible toLowerCase e targetEmail = true ∧
      ∃ body, e.text = some body ∧ tierCascade e targetEmail body = .ok (c :: l) := by
  cases hel : eligible toLowerCase e targetEmail with
  | false =>
    cases hs : e.subject with
    | none => unfold extractVerificationCodes at h; rw [hs] at h; cases h
    | some s => rw [extract_ineligible toLowerCase e targetEmail s hs hel] at h; cases h
  | true =>
    refine ⟨rfl, ?_⟩
    cases ht : e.text with
    | none =>
      unfold eligible at hel
      unfold extractVerificationCodes at h
      cases hs : e.subject with
      | none => rw [hs] at h; cases h
      | some s =>
        rw [hs] at h hel
        simp only at h hel
        rw [if_pos hel, ht] at h
        cases h
    | some body =>
      rw [extract_eligible toLowerCase e targetEmail body hel ht] at h
      exact ⟨body, rfl, h⟩

/-- The outcome of the three tiers on a body text. -/
theorem tierCascade_cases (e : EmailContent) (targetEmail : Option Str) (body : Str) :
    (∃ pre w gap ds post, Anchored priorityPhrases isSep body pre w gap ds post ∧
        (ds.length = 6 ∨ NoDigitAhead post) ∧
        tierCascade e targetEmail body = .ok [mkCandidate e targetEmail .priority ds]) ∨
    ((∀ p ∈ priorityPatterns, firstMatch p body = none) ∧
      ∃ pre w gap ds post, Anchored specificPhrases isNonDigit body pre w gap ds post ∧
        (ds.length = 6 ∨ NoDigitAhead post) ∧
        tierCascade e targetEmail body = .ok [mkCandidate e targetEmail .specific ds]) ∨
    ((∀ p ∈ priorityPatterns, firstMatch p body = none) ∧
      (∀ p ∈ specificPatterns, firstMatch p body = none) ∧
      ((∃ code, IsCode code ∧
          tierCascade e targetEmail body = .ok [mkCandidate e targetEmail .general code]) ∨
        tierCascade e targetEmail body = .ok [])) := by
  have hP : priorityPatterns =
      priorityPhrases.map fun ph => ⟨lit ph ++ [.cls isSep 0 none true, digits46], true⟩ := rfl
  have hS : specificPatterns =
      specificPhrases.map fun ph => ⟨lit ph ++ [.cls isNonDigit 0 none true, digits46], true⟩ :=
    rfl
  rcases anchoredLoop_phrases isSep isSep_not_digit (mkCandidate e targetEmail .priority) body
    priorityPhrases priorityPhrases_no_digit with ⟨-, h2⟩ | ⟨pre, w, gap, ds, post, a, b, h⟩
  · rw [← hP] at h2
    have n1 := anchoredLoop_none _ _ _ h2
    rcases anchoredLoop_phrases isNonDigit isNonDigit_not_digit
      (mkCandidate e targetEmail .specific) body specificPhrases specificPhrases_no_digit with
      ⟨-, h4⟩ | ⟨pre, w, gap, ds, post, a, b, h⟩
    · rw [← hS] at h4
      have n2 := anchoredLoop_none _ _ _ h4
      right; right
      refine ⟨n1, n2, ?_⟩
      cases hg : generalLoop (mkCandidate e targetEmail .general) body generalPatterns with
      | none => right; simp [tierCascade, h2, h4, hg]
      | some c =>
        left
        obtain ⟨code, hcode, rfl⟩ := generalLoop_some _ _ _ c
          (fun p hp m hm => generalPatterns_digits body m p hp hm) hg
        exact ⟨code, hcode, by simp [tierCascade, h2, h4, hg]⟩
    · rw [← hS] at h
      right; left
      exact ⟨n1, pre, w, gap, ds, post, a, b, by simp [tierCascade, h2, h]⟩
  · rw [← hP] at h
    left
    exact ⟨pre, w, gap, ds, post, a, b, by simp [tierCascade, h]⟩

/-- A returned list is empty or one candidate whose code is 4 to 6 digits. -/
theorem extract_ok (toLowerCase : Str → Str) (e : EmailContent) (targetEmail : Option Str)
    (l : List CandidateCode) (h : extractVerificationCodes toLowerCase e targetEmail = .ok l) :
    l = [] ∨ ∃ code tier, IsCode code ∧ l = [mkCandidate e targetEmail tier code] := by
  cases l with
  | nil => left; rfl
  | cons c l =>
    right
    obtain ⟨-, body, -, hb⟩ := extract_nonempty toLowerCase e targetEmail c l h
    rcases tierCascade_cases e targetEmail body with
      ⟨_, _, _, ds, _, a, -, r⟩ | ⟨-, _, _, _, ds, _, a, -, r⟩ | ⟨-, -, ⟨code, hc, r⟩ | r⟩
    · rw [r] at hb
      exact ⟨ds, .priority, ⟨a.2.2.2.2.1, a.2.2.2.2.2, a.2.2.2.1⟩, by cases hb; rfl⟩
    · rw [r] at hb
      exact ⟨ds, .specific, ⟨a.2.2.2.2.1, a.2.2.2.2.2, a.2.2.2.1⟩, by cases hb; rfl⟩
    · rw [r] at hb
      exact ⟨code, .general, hc, by cases hb; rfl⟩
    · rw [r] at hb; cases hb

/-- With a subject and a body text present the function returns a list. -/
theorem extract_total (toLowerCase : Str → Str) (e : EmailContent) (targetEmail : Option Str)
    (s body : Str) (hs : e.subject = some s) (ht : e.text = some body) :
    ∃ l, extractVerificationCodes toLowerCase e targetEmail = .ok l := by
  cases hel : eligible toLowerCase e targetEmail with
  | false => exact ⟨[], extract_ineligible toLowerCase e targetEmail s hs hel⟩
  | true =>
    rw [extract_eligible toLowerCase e targetEmail body hel ht]
    rcases tierCascade_cases e targetEmail body with
      ⟨_, _, _, _, _, -, -, r⟩ | ⟨-, _, _, _, _, _, -, -, r⟩ | ⟨-, -, ⟨_, -, r⟩ | r⟩ <;>
    exact ⟨_, r⟩

/-- The outcome of `extractOTPCodes` when subject and body text are present. -/
theorem extractOTPCodes_cases (toLowerCase : Str → Str) (e : EmailContent)
    (targetEmail : Option Str) (s body : Str) (hs : e.subject = some s)
    (ht : e.text = some body) :
    extractOTPCodes toLowerCase e targetEmail = .ok [] ∨
      ∃ code tier, IsCode code ∧
        extractOTPCodes toLowerCase e targetEmail = .ok [mkCandidate e targetEmail tier code] := by
  unfold extractOTPCodes
  rw [hs]
  simp only
  split
  case isFalse => left; rfl
  case isTrue =>
    rw [ht]
    simp only
    rcases priorityLoopV1_ok (mkCandidate e targetEmail .priority) body priorityPatternsV1
      (fun p hp m hm => priorityPatternsV1_inner body m p hp hm) with h | ⟨code, hc, h⟩
    · rw [h]
      simp only
      rcases generalLoopV1_spec (mkCandidate e targetEmail .general) body generalPatterns
        (fun p hp m hm => generalPatterns_digits body m p hp hm) with g | ⟨code, hc, g⟩
      · left; rw [g]
      · right; exact ⟨code, .general, hc, by rw [g]⟩
    · rw [h]
      right
      exact ⟨code, .priority, hc, rfl⟩

theorem extractOTPCodes_ok (toLowerCase : Str → Str) (e : EmailContent)
    (targetEmail : Option Str) (l : List CandidateCode)
    (h : extractOTPCodes toLowerCase e targetEmail = .ok l) :
    l = [] ∨ ∃ code tier, IsCode code ∧ l = [mkCandidate e targetEmail tier code] := by
  cases hs : e.subject with
  | none => unfold extractOTPCodes at h; rw [hs] at h; cases h
  | some s =>
    cases ht : e.text with
    | none =>
      unfold extractOTPCodes at h
      rw [hs] at h
      simp only at h
      split at h
      · rw [ht] at h; cases h
      · cases h; left; rfl
    | some body =>
      rcases extractOTPCodes_cases toLowerCase e targetEmail s body hs ht with r | ⟨code, tier, hc, r⟩
      · rw [r] at h; cases h; left; rfl
      · rw [r] at h; cases h; right; exact ⟨code, tier, hc, rfl⟩

/-! ## Claims on the code extractor -/

/-- C1 (amended): for an eligible message whose body text contains a priority phrase
followed by colons or whitespace and 4 to 6 digits, `extractVerificationCodes` returns
exactly one candidate, of pattern `priority`, whose code is the digit group of some such
occurrence in the body (the whole number, or its first six digits); it is the given
number whenever every such occurrence in the body carries the same digits. -/
theorem priority_phrase_gives_priority_code (toLowerCase : Str → Str) (e : EmailContent)
    (targetEmail : Option Str) (body pre w gap ds post : Str)
    (hel : eligible toLowerCase e targetEmail = true) (htext : e.text = some body)
    (hocc : Anchored priorityPhrases isSep body pre w gap ds post) :
    (∃ pre1 w1 gap1 ds1 post1, Anchored priorityPhrases isSep body pre1 w1 gap1 ds1 post1 ∧
        (ds1.length = 6 ∨ NoDigitAhead post1) ∧
        extractVerificationCodes toLowerCase e targetEmail =
          .ok [mkCandidate e targetEmail .priority ds1]) ∧
      ((∀ pre1 w1 gap1 ds1 post1, Anchored priorityPhrases isSep body pre1 w1 gap1 ds1 post1 →
          (ds1.length = 6 ∨ NoDigitAhead post1) → ds1 = ds) →
        extractVerificationCodes toLowerCase e targetEmail =
          .ok [mkCandidate e targetEmail .priority ds]) := by
  rw [extract_eligible toLowerCase e targetEmail body hel htext]
  have key : ∃ pre1 w1 gap1 ds1 post1,
      Anchored priorityPhrases isSep body pre1 w1 gap1 ds1 post1 ∧
      (ds1.length = 6 ∨ NoDigitAhead post1) ∧
      tierCascade e targetEmail body = .ok [mkCandidate e targetEmail .priority ds1] := by
    rcases tierCascade_cases e targetEmail body with h | ⟨n1, -⟩ | ⟨n1, -⟩
    · exact h
    all_goals
      exfalso
      obtain ⟨e1, ⟨ph, hph, hw⟩, r⟩ := hocc
      have hsome := firstMatch_anchored_complete ph isSep isSep_not_digit body pre w gap ds post
        ⟨e1, ⟨ph, by simp, hw⟩, r⟩
      have hmem : phraseSep ph ∈ priorityPatterns := by
        rw [priorityPatterns_eq]; exact List.mem_map_of_mem _ hph
      have hnone := n1 _ hmem
      unfold phraseSep at hnone
      rw [hnone] at hsome
      cases hsome
  refine ⟨key, fun huniq => ?_⟩
  obtain ⟨pre1, w1, gap1, ds1, post1, a, b, r⟩ := key
  rw [r, huniq pre1 w1 gap1 ds1 post1 a b]

/-- C1, witness: the scenario of the specification, body `... Enter this verification
code: 9155 to continue.`, yields the single candidate `9155` of pattern `priority`. -/
theorem priority_phrase_gives_priority_code_witness :
    (∃ pre1 w1 gap1 ds1 post1,
        Anchored priorityPhrases isSep
          "Your ride is confirmed. Enter this verification code: 9155 to continue.".toList
          pre1 w1 gap1 ds1 post1 ∧
        (ds1.length = 6 ∨ NoDigitAhead post1) ∧
        extractVerificationCodes asciiLower
          (uberMessage "Your ride is confirmed. Enter this verification code: 9155 to continue.")
          alice =
          .ok [mkCandidate
            (uberMessage "Your ride is confirmed. Enter this verification code: 9155 to continue.")
            alice .priority ds1]) ∧
      extractVerificationCodes asciiLower
        (uberMessage "Your ride is confirmed. Enter this verification code: 9155 to continue.")
        alice =
        .ok [mkCandidate
          (uberMessage "Your ride is confirmed. Enter this verification code: 9155 to continue.")
          alice .priority "9155".toList] :=
  ⟨(priority_phrase_gives_priority_code asciiLower
      (uberMessage "Your ride is confirmed. Enter this verification code: 9155 to continue.")
      alice "Your ride is confirmed. Enter this verification code: 9155 to continue.".toList
      "Your ride is confirmed. ".toList "Enter this verification code".toList ": ".toList
      "9155".toList " to continue.".toList (by decide) rfl
      ⟨by decide, ⟨"enter this verification code", by decide, by decide⟩, by decide, by decide,
        by decide, by decide⟩).1,
    by decide⟩

/-- C1 as stated fails: in the body `code 1111 code 2222` the phrase `code` is followed by
a blank and the 4-digit number `2222`, yet the single candidate returned is `1111`. -/
theorem priority_phrase_counterexample :
    eligible asciiLower (uberMessage "code 1111 code 2222") alice = true ∧
      Anchored priorityPhrases isSep "code 1111 code 2222".toList "code 1111 ".toList
        "code".toList " ".toList "2222".toList [] ∧
      NoDigitAhead [] ∧
      extractVerificationCodes asciiLower (uberMessage "code 1111 code 2222") alice =
        .ok [mkCandidate (uberMessage "code 1111 code 2222") alice .priority "1111".toList] ∧
      extractVerificationCodes asciiLower (uberMessage "code 1111 code 2222") alice ≠
        .ok [mkCandidate (uberMessage "code 1111 code 2222") alice .priority "2222".toList] :=
  ⟨by decide,
    ⟨by decide, ⟨"code", by decide, by decide⟩, by decide, by decide, by decide, by decide⟩,
    (fun c h => by simp at h), by decide, by decide⟩

/-- C2: a message whose subject, lower-cased, contains neither `your uber verification
code` nor `your uber account verification code` yields the empty list from both
`extractVerificationCodes` and `extractOTPCodes`, whatever body, sender, recipient and
target. -/
theorem unrecognised_subject_yields_nothing (toLowerCase : Str → Str) (e : EmailContent)
    (targetEmail : Option Str) (s : Str) (hs : e.subject = some s)
    (h1 : includes (toLowerCase s) "your uber verification code".toList = false)
    (h2 : includes (toLowerCase s) "your uber account verification code".toList = false) :
    extractVerificationCodes toLowerCase e targetEmail = .ok [] ∧
      extractOTPCodes toLowerCase e targetEmail = .ok [] := by
  have hu : isUberVerificationEmail toLowerCase s = false := by
    unfold isUberVerificationEmail
    rw [h1, h2]
    rfl
  constructor
  · apply extract_ineligible toLowerCase e targetEmail s hs
    simp [eligible, hs, hu]
  · unfold extractOTPCodes
    rw [hs]
    simp [hu]

/-- C2, witness: subject `Your receipt`, body with a priority phrase and bare digits. -/
theorem unrecognised_subject_yields_nothing_witness :
    extractVerificationCodes asciiLower
        ⟨some "Your receipt".toList, "admin@uber.com".toList, "alice@catchall.test".toList,
          some "Your code: 1234 and 567890".toList, none, some 0⟩ alice = .ok [] ∧
      extractOTPCodes asciiLower
        ⟨some "Your receipt".toList, "admin@uber.com".toList, "alice@catchall.test".toList,
          some "Your code: 1234 and 567890".toList, none, some 0⟩ alice = .ok [] :=
  unrecognised_subject_yields_nothing asciiLower _ alice "Your receipt".toList rfl
    (by decide) (by decide)

/-- C3: when `extractVerificationCodes` returns a candidate of pattern `general`, the
message has a body text on which none of the six priority patterns and none of the
three specific patterns has a match. -/
theorem general_only_without_anchor (toLowerCase : Str → Str) (e : EmailContent)
    (targetEmail : Option Str) (l : List CandidateCode) (c : CandidateCode)
    (h : extractVerificationCodes toLowerCase e targetEmail = .ok l) (hc : c ∈ l)
    (hg : c.pattern = .general) :
    ∃ body, e.text = some body ∧ (∀ p ∈ priorityPatterns, firstMatch p body = none) ∧
      (∀ p ∈ specificPatterns, firstMatch p body = none) := by
  cases l with
  | nil => cases hc
  | cons c0 l0 =>
    obtain ⟨-, body, ht, hb⟩ := extract_nonempty toLowerCase e targetEmail c0 l0 h
    refine ⟨body, ht, ?_⟩
    rcases tierCascade_cases e targetEmail body with
      ⟨_, _, _, ds, _, -, -, r⟩ | ⟨-, _, _, _, ds, _, -, -, r⟩ | ⟨n1, n2, -⟩
    · rw [r] at hb
      cases hb
      simp only [List.mem_singleton] at hc
      subst hc
      cases hg
    · rw [r] at hb
      cases hb
      simp only [List.mem_singleton] at hc
      subst hc
      cases hg
    · exact ⟨n1, n2⟩

/-- C3, witness: body `Order #4821 confirmed. Total $18.32.` yields `4821` of pattern
`general`, and no priority or specific pattern matches that body. -/
theorem general_only_without_anchor_witness :
    extractVerificationCodes asciiLower (uberMessage "Order #4821 confirmed. Total $18.32.")
        alice =
        .ok [mkCandidate (uberMessage "Order #4821 confirmed. Total $18.32.") alice .general
          "4821".toList] ∧
      ∃ body, (uberMessage "Order #4821 confirmed. Total $18.32.").text = some body ∧
        (∀ p ∈ priorityPatterns, firstMatch p body = none) ∧
        (∀ p ∈ specificPatterns, firstMatch p body = none) :=
  ⟨by decide,
    general_only_without_anchor asciiLower (uberMessage "Order #4821 confirmed. Total $18.32.")
      alice
      [mkCandidate (uberMessage "Order #4821 confirmed. Total $18.32.") alice .general
        "4821".toList]
      (mkCandidate (uberMessage "Order #4821 confirmed. Total $18.32.") alice .general
        "4821".toList) (by decide) (by simp) rfl⟩

/-- The result of `extractVerificationCodes` is determined by the subject, sender,
recipient, body text and date of the message and by the target; the `html` field is not
read. -/
theorem extractVerificationCodes_congr (toLowerCase : Str → Str) (e1 e2 : EmailContent)
    (targetEmail : Option Str) (hsub : e1.subject = e2.subject) (hfrom : e1.sender = e2.sender)
    (hto : e1.recipient = e2.recipient) (htext : e1.text = e2.text)
    (hdate : e1.date = e2.date) :
    extractVerificationCodes toLowerCase e1 targetEmail =
      extractVerificationCodes toLowerCase e2 targetEmail := by
  cases e1
  cases e2
  simp only at hsub hfrom hto htext hdate
  subst hsub hfrom hto htext hdate
  rfl

/-- C8: the list returned by `extractVerificationCodes` and the list returned by
`extractOTPCodes` have length at most one; and with a subject and a body text present
both functions do return a list. -/
theorem at_most_one_candidate (toLowerCase : Str → Str) (e : EmailContent)
    (targetEmail : Option Str) :
    (∀ l, extractVerificationCodes toLowerCase e targetEmail = .ok l → l.length ≤ 1) ∧
      (∀ l, extractOTPCodes toLowerCase e targetEmail = .ok l → l.length ≤ 1) ∧
      (∀ s body, e.subject = some s → e.text = some body →
        (∃ l, extractVerificationCodes toLowerCase e targetEmail = .ok l) ∧
          ∃ l, extractOTPCodes toLowerCase e targetEmail = .ok l) := by
  refine ⟨fun l h => ?_, fun l h => ?_, fun s body hs ht => ⟨?_, ?_⟩⟩
  · rcases extract_ok toLowerCase e targetEmail l h with rfl | ⟨_, _, -, rfl⟩ <;> simp
  · rcases extractOTPCodes_ok toLowerCase e targetEmail l h with rfl | ⟨_, _, -, rfl⟩ <;> simp
  · exact extract_total toLowerCase e targetEmail s body hs ht
  · rcases extractOTPCodes_cases toLowerCase e targetEmail s body hs ht with r | ⟨_, _, -, r⟩ <;>
      exact ⟨_, r⟩

/-- C8, witness: a body matched by several patterns, several times. -/
theorem at_most_one_candidate_witness :
    (extractVerificationCodes asciiLower
        (uberMessage "Your code: 1234, verification code is 5678, also 9012 and 345678") alice =
        .ok [mkCandidate
          (uberMessage "Your code: 1234, verification code is 5678, also 9012 and 345678")
          alice .priority "5678".toList]) ∧
      ([mkCandidate
          (uberMessage "Your code: 1234, verification code is 5678, also 9012 and 345678")
          alice .priority "5678".toList].length ≤ 1) :=
  ⟨by decide,
    (at_most_one_candidate asciiLower
      (uberMessage "Your code: 1234, verification code is 5678, also 9012 and 345678") alice).1
      _ (by decide)⟩

/-- C9: every candidate returned by `extractVerificationCodes` or by `extractOTPCodes`
has a code of at least 4 and at most 6 code units, all of them ASCII decimal digits. -/
theorem candidate_code_is_4_to_6_digits (toLowerCase : Str → Str) (e : EmailContent)
    (targetEmail : Option Str) (l : List CandidateCode) (c : CandidateCode)
    (h : extractVerificationCodes toLowerCase e targetEmail = .ok l ∨
      extractOTPCodes toLowerCase e targetEmail = .ok l) (hc : c ∈ l) :
    4 ≤ c.code.length ∧ c.code.length ≤ 6 ∧ ∀ ch ∈ c.code, isDigit ch = true := by
  have key : l = [] ∨ ∃ code tier, IsCode code ∧ l = [mkCandidate e targetEmail tier code] := by
    rcases h with h | h
    · exact extract_ok toLowerCase e targetEmail l h
    · exact extractOTPCodes_ok toLowerCase e targetEmail l h
  rcases key with rfl | ⟨code, tier, hcode, rfl⟩
  · cases hc
  · simp only [List.mem_singleton] at hc
    subst hc
    exact hcode

/-- C9, witness: the code `123456` cut from the body `code 1234567`. -/
theorem candidate_code_is_4_to_6_digits_witness :
    extractVerificationCodes asciiLower (uberMessage "code 1234567") alice =
        .ok [mkCandidate (uberMessage "code 1234567") alice .priority "123456".toList] ∧
      (4 ≤ "123456".toList.length ∧ "123456".toList.length ≤ 6 ∧
        ∀ ch ∈ "123456".toList, isDigit ch = true) :=
  ⟨by decide,
    candidate_code_is_4_to_6_digits asciiLower (uberMessage "code 1234567") alice
      [mkCandidate (uberMessage "code 1234567") alice .priority "123456".toList]
      (mkCandidate (uberMessage "code 1234567") alice .priority "123456".toList)
      (Or.inl (by decide)) (by simp)⟩

/-- C10: whenever `extractVerificationCodes` returns a non-empty list, the lower-cased
sender contains `admin@uber.com` and, for a non-empty target, the lower-cased recipient
contains the lower-cased target; and a message with a subject whose lower-cased
recipient does not contain the lower-cased non-empty target yields the empty list
whatever its body. -/
theorem eligibility_gate (toLowerCase : Str → Str) (e : EmailContent)
    (targetEmail : Option Str) :
    (∀ c l, extractVerificationCodes toLowerCase e targetEmail = .ok (c :: l) →
        includes (toLowerCase e.sender) "admin@uber.com".toList = true ∧
          ∀ t, targetEmail = some t → t ≠ [] →
            includes (toLowerCase e.recipient) (toLowerCase t) = true) ∧
      (∀ s t, e.subject = some s → targetEmail = some t → t ≠ [] →
        includes (toLowerCase e.recipient) (toLowerCase t) = false →
        extractVerificationCodes toLowerCase e targetEmail = .ok []) := by
  constructor
  · intro c l h
    obtain ⟨hel, -⟩ := extract_nonempty toLowerCase e targetEmail c l h
    unfold eligible at hel
    cases hs : e.subject with
    | none => rw [hs] at hel; cases hel
    | some s =>
      rw [hs] at hel
      simp only [Bool.and_eq_true] at hel
      refine ⟨hel.1.2, fun t ht hne => ?_⟩
      have h3 := hel.2
      rw [ht] at h3
      cases t with
      | nil => exact absurd rfl hne
      | cons a as => simpa [isTargetEmail] using h3
  · intro s t hs ht hne hno
    apply extract_ineligible toLowerCase e targetEmail s hs
    cases t with
    | nil => exact absurd rfl hne
    | cons a as => simp [eligible, hs, ht, isTargetEmail, hno]

/-- C10, witness: the scenario message asked for `bob@catchall.test` yields nothing. -/
theorem eligibility_gate_witness :
    extractVerificationCodes asciiLower (uberMessage "Your code: 1234")
      (some "bob@catchall.test".toList) = .ok [] :=
  (eligibility_gate asciiLower (uberMessage "Your code: 1234")
    (some "bob@catchall.test".toList)).2 "Your Uber verification code".toList
    "bob@catchall.test".toList rfl rfl (by decide) (by decide)

/-! ## The cooldown of `checkEmailsForOTP` -/

theorem closeConn_opened (conns : List Conn) (i : Nat) :
    (closeConn conns i).map Conn.openedAt = conns.map Conn.openedAt := by
  induction conns generalizing i with
  | nil => rfl
  | cons c cs ih => cases i <;> simp [closeConn, ih]

theorem finishConn_opened (conns : List Conn) (i : Nat) :
    (finishConn conns i).map Conn.openedAt = conns.map Conn.openedAt := by
  induction conns generalizing i with
  | nil => rfl
  | cons c cs ih => cases i <;> simp [finishConn, ih]

theorem errorConn_opened (conns : List Conn) (i : Nat) :
    (errorConn conns i).map Conn.openedAt = conns.map Conn.openedAt := by
  induction conns generalizing i with
  | nil => rfl
  | cons c cs ih => cases i <;> simp [errorConn, ih]

theorem spacedBy_append (d : Int) (now : Int) :
    ∀ l : List Int, SpacedBy d l → (∀ t, l.getLast? = some t → now - t ≥ d) →
      SpacedBy d (l ++ [now]) := by
  intro l
  induction l with
  | nil => intro _ _; trivial
  | cons a l ih =>
    intro h hl
    cases l with
    | nil => exact ⟨hl a rfl, trivial⟩
    | cons b l =>
      refine ⟨h.1, ih h.2 (fun t ht => hl t ?_)⟩
      simpa [List.getLast?_cons_cons] using ht

/-- What a call of `checkEmailsForOTP` does to the connection log: nothing, or one
connection more, opened at `now`, which is at least the cooldown after the previous
establishment and becomes `lastConnectionTime`. -/
theorem checkEmailsForOTP_opened (s : ConnState) (now : Int) (r : Request) :
    ((checkEmailsForOTP s now r).opened = s.opened ∧
        (checkEmailsForOTP s now r).lastConnectionTime = s.lastConnectionTime) ∨
      (now - s.lastConnectionTime ≥ CONNECTION_COOLDOWN ∧
        (checkEmailsForOTP s now r).opened = s.opened ++ [now] ∧
        (checkEmailsForOTP s now r).lastConnectionTime = now) := by
  unfold checkEmailsForOTP
  by_cases h1 : now - s.lastConnectionTime < CONNECTION_COOLDOWN
  · left; simp [h1, ConnState.opened]
  · rw [if_neg h1]
    by_cases h2 : s.isConnecting = true
    · left; simp [h2, ConnState.opened]
    · right
      rw [if_neg h2]
      refine ⟨by omega, ?_, rfl⟩
      cases he : s.emailConnection with
      | none => simp [ConnState.opened]
      | some i => simp [ConnState.opened, closeConn_opened]

/-- One event either leaves the connection log and `lastConnectionTime` alone or is a
turn that reads the clock and opens one connection after the cooldown. -/
theorem step_opened (s : ConnState) (ev : Event) :
    ((step s ev).opened = s.opened ∧
        (step s ev).lastConnectionTime = s.lastConnectionTime) ∨
      ∃ now, ev.clock = some now ∧ now - s.lastConnectionTime ≥ CONNECTION_COOLDOWN ∧
        (step s ev).opened = s.opened ++ [now] ∧ (step s ev).lastConnectionTime = now := by
  cases ev with
  | call now r =>
    rcases checkEmailsForOTP_opened s now r with h | h
    · exact Or.inl h
    · exact Or.inr ⟨now, rfl, h⟩
  | timeout now i =>
    simp only [step]
    cases ht : s.timers.get? i with
    | none => left; exact ⟨rfl, rfl⟩
    | some t =>
      simp only
      split
      · rcases checkEmailsForOTP_opened { s with timers := s.timers.eraseIdx i } now t.request
          with h | h
        · exact Or.inl h
        · exact Or.inr ⟨now, rfl, h⟩
      · left; exact ⟨rfl, rfl⟩
  | openBoxError i msg =>
    left
    simp only [step]
    cases activeRequest s i <;> simp [ConnState.opened, finishConn_opened]
  | searchError i msg =>
    left
    simp only [step]
    cases activeRequest s i <;> simp [ConnState.opened, finishConn_opened]
  | searchEmpty i =>
    left
    simp only [step]
    cases activeRequest s i <;> simp [ConnState.opened, finishConn_opened, closeConn_opened]
  | fetchError i msg =>
    left
    simp only [step]
    cases activeRequest s i <;> simp [ConnState.opened, finishConn_opened]
  | fetchEnd now i emails =>
    left
    simp only [step]
    cases activeRequest s i with
    | none => exact ⟨rfl, rfl⟩
    | some r =>
      simp only
      cases s.connectionQueue <;> simp [ConnState.opened, finishConn_opened, closeConn_opened]
  | imapError now i limit msg =>
    left
    simp only [step]
    cases errorRequest s i with
    | none => exact ⟨rfl, rfl⟩
    | some r =>
      simp only
      cases limit <;> simp [ConnState.opened, errorConn_opened]

theorem run_append (events : List Event) (ev : Event) :
    run (events ++ [ev]) = step (run events) ev := by
  simp [run, List.foldl_append]

/-- In every reachable state the log is spaced by the cooldown and ends at
`lastConnectionTime`. -/
theorem run_invariant (events : List Event) :
    SpacedBy CONNECTION_COOLDOWN (run events).opened ∧
      ∀ t, (run events).opened.getLast? = some t → t = (run events).lastConnectionTime := by
  induction events using List.reverseRecOn with
  | nil => exact ⟨trivial, fun t h => by cases h⟩
  | append_singleton events ev ih =>
    rw [run_append]
    rcases step_opened (run events) ev with ⟨h1, h2⟩ | ⟨now, -, h1, h2, h3⟩
    · rw [h1, h2]; exact ih
    · rw [h2, h3]
      refine ⟨spacedBy_append _ now _ ih.1 (fun t ht => ?_), fun t ht => ?_⟩
      · rw [ih.2 t ht]; exact h1
      · simpa using ht.symm

/-! ## Claims on the session gatekeepers and the watch controller -/

/-- C4: in every state reachable by any sequence of calls of `checkEmailsForOTP`, timer
firings and callbacks, successive connection establishments are at least
`CONNECTION_COOLDOWN` apart; and an event adds a connection only if it is a turn that
read the clock at `now` with `now - lastConnectionTime >= CONNECTION_COOLDOWN`, after
which `lastConnectionTime` is `now`. -/
theorem cooldown_between_connections (events : List Event) :
    SpacedBy CONNECTION_COOLDOWN (run events).opened ∧
      ∀ ev, (run (events ++ [ev])).opened = (run events).opened ∨
        ∃ now, ev.clock = some now ∧
          now - (run events).lastConnectionTime ≥ CONNECTION_COOLDOWN ∧
          (run (events ++ [ev])).opened = (run events).opened ++ [now] ∧
          (run (events ++ [ev])).lastConnectionTime = now := by
  refine ⟨(run_invariant events).1, fun ev => ?_⟩
  rw [run_append]
  rcases step_opened (run events) ev with h | h
  · exact Or.inl h.1
  · exact Or.inr h

/-- A run of `checkEmailsForOTP` with three callers: the second call falls into the
cooldown and is retried by its timer, the third is queued and re-issued after the first
check ends; connections are opened at 5000 and 7200 only. -/
theorem cooldown_run_example :
    (run [.call 5000 ⟨none, 0⟩, .call 5100 ⟨none, 1⟩, .call 7100 ⟨none, 2⟩,
      .fetchEnd 7200 0 [], .timeout 7200 0, .timeout 9300 0]).opened = [5000, 7200] := by
  decide

/-- C5 (failing input): two calls of `checkForNewOTPs` one millisecond apart, each with its
own `EmailOTPChecker`, both establish a connection at once: the log of
`index-improved.js` is `[1000, 1001]`, which is not spaced by `CONNECTION_COOLDOWN`, and
neither call was suspended. -/
theorem improved_gatekeeper_no_cooldown :
    (runImproved [.newChecker, .newChecker, .connectImap 1000 0 0,
        .connectImap 1001 1 1]).opened = [1000, 1001] ∧
      ¬ SpacedBy CONNECTION_COOLDOWN
        (runImproved [.newChecker, .newChecker, .connectImap 1000 0 0,
          .connectImap 1001 1 1]).opened ∧
      (runImproved [.newChecker, .connectImap 1000 0 0, .ready 0, .disconnect 0,
        .connectImap 1001 0 1]).opened = [1000, 1001] := by
  refine ⟨by decide, ?_, by decide⟩
  have e : (runImproved [.newChecker, .newChecker, .connectImap 1000 0 0,
      .connectImap 1001 1 1]).opened = [1000, 1001] := by decide
  rw [e]
  intro h
  exact absurd h.1 (by decide)

theorem cycle_empty (toLowerCase : Str → Str) (store : MailStore) (targetEmail : Option Str)
    (k : Nat) (h : store.search k = .ok []) :
    cycle toLowerCase store targetEmail k = (.ok none, [.searchEmails k]) := by
  simp [cycle, h]

theorem poll_empty (toLowerCase : Str → Str) (store : MailStore) (targetEmail : Option Str)
    (checkInterval : Nat) (h : ∀ k, store.search k = .ok []) :
    ∀ fuel k, (poll toLowerCase store targetEmail checkInterval fuel k).1 = none := by
  intro fuel
  induction fuel with
  | zero => intro k; rfl
  | succ n ih =>
    intro k
    simp only [poll, cycle_empty toLowerCase store targetEmail k (h k)]
    exact ih (k + 1)

/-- C6 (amended): `waitForVerificationEmail` takes no deadline.  Whatever the options,
its first operation is `connectImap`; its result and its operations are those of the
same call without a deadline; and on a mail store that accepts the connection and finds
no message it is still polling after any number of cycles. -/
theorem watch_ignores_deadline (toLowerCase : Str → Str) (store : MailStore)
    (targetEmail : Option Str) (options : WatchOptions) (fuel : Nat) :
    (waitForVerificationEmail toLowerCase store targetEmail options fuel).2.head? =
        some .connectImap ∧
      waitForVerificationEmail toLowerCase store targetEmail options fuel =
        waitForVerificationEmail toLowerCase store targetEmail
          ⟨options.checkInterval, none⟩ fuel ∧
      (store.connect = .ok () → (∀ k, store.search k = .ok []) →
        (waitForVerificationEmail toLowerCase store targetEmail options fuel).1 = none) := by
  refine ⟨?_, rfl, fun hc hs => ?_⟩
  · unfold waitForVerificationEmail
    simp only
    cases store.connect with
    | error m => rfl
    | ok u =>
      simp only
      rcases hcy : cycle toLowerCase store targetEmail 0 with ⟨r, ops⟩
      cases r with
      | error e => rfl
      | ok hit =>
        cases hit with
        | none => rfl
        | some p => rfl
  · unfold waitForVerificationEmail
    simp only [hc, cycle_empty toLowerCase store targetEmail 0 (hs 0)]
    exact poll_empty toLowerCase store targetEmail _ hs fuel 1

/-- C6, witness: with a deadline in the past and an empty mail store the call connects
and is still polling after three cycles. -/
theorem watch_ignores_deadline_witness :
    (waitForVerificationEmail asciiLower emptyStore alice ⟨none, some 0⟩ 3).2.head? =
        some .connectImap ∧
      (waitForVerificationEmail asciiLower emptyStore alice ⟨none, some 0⟩ 3).1 = none :=
  ⟨(watch_ignores_deadline asciiLower emptyStore alice ⟨none, some 0⟩ 3).1,
    (watch_ignores_deadline asciiLower emptyStore alice ⟨none, some 0⟩ 3).2.2 rfl
      (fun _ => rfl)⟩

/-- C6 as stated fails: a request whose deadline (time 0) is in the past calls
`connectImap`, searches and fetches, and returns the code found, not a timed-out result. -/
theorem watch_past_deadline_counterexample :
    waitForVerificationEmail asciiLower (storeWith (uberMessage "Your code: 1234")) alice
        ⟨none, some 0⟩ 0 =
      (some (.found [mkCandidate (uberMessage "Your code: 1234") alice .priority "1234".toList]
          (mkCandidate (uberMessage "Your code: 1234") alice .priority "1234".toList) 0),
        [.connectImap, .searchEmails 0, .fetchEmails [1]]) := by
  decide

/-! ## Leftmost matches -/

theorem lastOr_eq_getLast? (prev : Option Char) (xs : Str) :
    lastOr prev xs = match xs.getLast? with
      | some c => some c
      | none => prev := by
  induction xs generalizing prev with
  | nil => rfl
  | cons c cs ih =>
    rw [lastOr, ih]
    cases cs with
    | nil => rfl
    | cons d ds =>
      rw [List.getLast?_cons_cons]
      have h : (d :: ds).getLast? = some ((d :: ds).getLast (by simp)) :=
        List.getLast?_eq_getLast _ _
      rw [h]

theorem lastOr_none (xs : Str) : lastOr none xs = xs.getLast? := by
  rw [lastOr_eq_getLast?]
  cases xs.getLast? <;> rfl

/-- The scan returns the first position at which the matcher succeeds. -/
theorem scanFrom_leftmost (m : Cont) :
    ∀ (s : Str) (i : Nat) (prev : Option Char) (j : Nat) (r : Str),
      scanFrom m i prev s = some (j, r) →
      ∃ pre rest, s = pre ++ rest ∧ j = i + pre.length ∧ m (lastOr prev pre) rest = some r ∧
        ∀ pre1 rest1, s = pre1 ++ rest1 → pre1.length < pre.length →
          m (lastOr prev pre1) rest1 = none := by
  intro s
  induction s with
  | nil =>
    intro i prev j r h
    simp only [scanFrom, Option.map_eq_some'] at h
    obtain ⟨a, ha, he⟩ := h
    cases he
    exact ⟨[], [], rfl, rfl, ha, fun _ _ _ hl => absurd hl (Nat.not_lt_zero _)⟩
  | cons c cs ih =>
    intro i prev j r h
    simp only [scanFrom] at h
    cases hm : m prev (c :: cs) with
    | some r' =>
      rw [hm] at h
      cases h
      exact ⟨[], c :: cs, rfl, rfl, hm, fun _ _ _ hl => absurd hl (Nat.not_lt_zero _)⟩
    | none =>
      rw [hm] at h
      obtain ⟨pre, rest, e1, e2, e3, e4⟩ := ih _ _ _ _ h
      refine ⟨c :: pre, rest, by simp [e1], by simp [e2]; omega, by simpa [lastOr] using e3, ?_⟩
      intro pre1 rest1 hs hl
      cases pre1 with
      | nil =>
        simp only [List.nil_append] at hs
        subst hs
        exact hm
      | cons d pre1 =>
        simp only [List.cons_append, List.cons.injEq] at hs
        obtain ⟨rfl, hs⟩ := hs
        simp only [List.length_cons, Nat.add_lt_add_iff_right] at hl
        simpa [lastOr] using e4 pre1 rest1 hs hl

/-- The scan fails only when the matcher fails at every position. -/
theorem scanFrom_none (m : Cont) :
    ∀ (s : Str) (i : Nat) (prev : Option Char), scanFrom m i prev s = none →
      ∀ pre rest, s = pre ++ rest → m (lastOr prev pre) rest = none := by
  intro s i prev h pre rest hs
  cases hm : m (lastOr prev pre) rest with
  | none => rfl
  | some r =>
    have := scanFrom_complete m pre rest i prev r hm
    rw [← hs, h] at this
    cases this

/-- Where the scan succeeds, given a match at a position with none before it. -/
theorem scanFrom_of_leftmost (m : Cont) :
    ∀ (pre rest : Str) (i : Nat) (prev : Option Char) (r : Str),
      m (lastOr prev pre) rest = some r →
      (∀ pre1 rest1, pre ++ rest = pre1 ++ rest1 → pre1.length < pre.length →
        m (lastOr prev pre1) rest1 = none) →
      scanFrom m i prev (pre ++ rest) = some (i + pre.length, r) := by
  intro pre
  induction pre with
  | nil =>
    intro rest i prev r h _
    simpa [lastOr] using scanFrom_here m rest i prev r (by simpa [lastOr] using h)
  | cons c cs ih =>
    intro rest i prev r h hno
    have h0 : m prev (c :: (cs ++ rest)) = none := by
      have := hno [] (c :: (cs ++ rest)) rfl (by simp)
      simpa [lastOr] using this
    have e : scanFrom m i prev (c :: cs ++ rest) = scanFrom m (i + 1) (some c) (cs ++ rest) := by
      show (match m prev (c :: (cs ++ rest)) with
        | some r => some (i, r)
        | none => scanFrom m (i + 1) (some c) (cs ++ rest)) = _
      rw [h0]
    rw [e, ih rest (i + 1) (some c) r (by simpa [lastOr] using h)]
    · simp only [List.length_cons]
      congr 2
      omega
    · intro pre1 rest1 hs hl
      have := hno (c :: pre1) rest1 (by simp [hs]) (by simpa using hl)
      simpa [lastOr] using this

/-- The method `exec` returns the leftmost match. -/
theorem exec_some_iff (re : RegExp) (body : Str) (i : Nat) (m : Str) :
    re.exec body = some (i, m) ↔
      MatchAt re body i m ∧ ∀ j, j < i → ∀ m1, ¬ MatchAt re body j m1 := by
  constructor
  · intro h
    obtain ⟨pre, rest, e1, e2, e3, e4⟩ := scanFrom_leftmost _ _ _ _ _ _ h
    simp only [Nat.zero_add] at e2
    refine ⟨⟨pre, rest, e1, e2.symm, e3⟩, ?_⟩
    rintro j hj m1 ⟨pre1, rest1, f1, f2, f3⟩
    rw [e4 pre1 rest1 f1 (by omega)] at f3
    cases f3
  · rintro ⟨⟨pre, rest, e1, e2, e3⟩, hno⟩
    have := scanFrom_of_leftmost (matchNodes re.ignoreCase re.nodes) pre rest 0 none m e3
      (fun pre1 rest1 hs hl => by
        cases hm : matchNodes re.ignoreCase re.nodes (lastOr none pre1) rest1 with
        | none => rfl
        | some r =>
          exact absurd ⟨pre1, rest1, by rw [e1, hs], rfl, hm⟩ (hno pre1.length (by omega) r))
    unfold RegExp.exec
    rw [e1, this]
    simp [e2]

theorem exec_none_iff (re : RegExp) (body : Str) :
    re.exec body = none ↔ ∀ i m, ¬ MatchAt re body i m := by
  constructor
  · rintro h i m ⟨pre, rest, e1, -, e3⟩
    rw [scanFrom_none _ _ _ _ h pre rest e1] at e3
    cases e3
  · intro h
    cases hx : re.exec body with
    | none => rfl
    | some x =>
      obtain ⟨i, m⟩ := x
      exact absurd ((exec_some_iff re body i m).1 hx).1 (h i m)

theorem firstMatch_eq_none_iff (re : RegExp) (body : Str) :
    firstMatch re body = none ↔ re.exec body = none := by
  unfold firstMatch
  cases re.exec body <;> simp

theorem firstMatch_of_exec (re : RegExp) (body : Str) (i : Nat) (m : Str)
    (h : re.exec body = some (i, m)) : firstMatch re body = some m := by
  unfold firstMatch
  rw [h]
  rfl

/-- At one position a pattern has at most one match. -/
theorem MatchAt_unique (re : RegExp) (body : Str) (i : Nat) (m1 m2 : Str)
    (h1 : MatchAt re body i m1) (h2 : MatchAt re body i m2) : m1 = m2 := by
  obtain ⟨pre1, rest1, e1, l1, r1⟩ := h1
  obtain ⟨pre2, rest2, e2, l2, r2⟩ := h2
  have hp : pre1 = pre2 := by
    have := List.append_inj (e1.symm.trans e2) (by omega)
    exact this.1
  have hr : rest1 = rest2 := by
    subst hp
    exact List.append_cancel_left (e1.symm.trans e2)
  subst hp hr
  rw [r1] at r2
  exact Option.some.inj r2

/-! ## The general patterns, position by position -/

/-- A greedy class repeated exactly `n` times takes the next `n` code units or fails. -/
theorem quantMatch_exact (p : Char → Bool) (k : Cont) :
    ∀ (n : Nat) (input : Str) (prev : Option Char),
      quantMatch p true k n (some n) prev input =
        if (input.take n).length = n ∧ ∀ c ∈ input.take n, p c = true then
          (k (lastOr prev (input.take n)) (input.drop n)).map (input.take n ++ ·)
        else none := by
  intro n
  induction n with
  | zero =>
    intro input prev
    cases input with
    | nil => simp [quantMatch, lastOr]
    | cons d ds => simp [quantMatch, lastOr]
  | succ n ih =>
    intro input prev
    cases input with
    | nil => simp [quantMatch]
    | cons d ds =>
      by_cases hp : p d = true
      · have h1 : ((some (n + 1) : Option Nat) != some 0) = true := by simp
        simp only [quantMatch, hp, Bool.true_and, h1, if_true, Option.map_some',
          Nat.add_sub_cancel, ih, List.take_succ_cons, List.drop_succ_cons, List.length_cons,
          lastOr]
        by_cases hc : (List.take n ds).length = n ∧ ∀ c ∈ List.take n ds, p c = true
        · have hc2 : (List.take n ds).length + 1 = n + 1 ∧
              ∀ c ∈ d :: List.take n ds, p c = true := by
            refine ⟨by omega, fun c hcm => ?_⟩
            rcases List.mem_cons.1 hcm with rfl | hcm
            · exact hp
            · exact hc.2 c hcm
          rw [if_pos hc, if_pos hc2]
          cases k (lastOr (some d) (List.take n ds)) (List.drop n ds) <;> simp
        · have hc2 : ¬ ((List.take n ds).length + 1 = n + 1 ∧
              ∀ c ∈ d :: List.take n ds, p c = true) := by
            rintro ⟨a, b⟩
            exact hc ⟨by omega, fun c hcm => b c (List.mem_cons_of_mem _ hcm)⟩
          rw [if_neg hc, if_neg hc2]
          simp
      · have hc2 : ¬ ((List.take (n + 1) (d :: ds)).length = n + 1 ∧
            ∀ c ∈ List.take (n + 1) (d :: ds), p c = true) := by
          rintro ⟨-, b⟩
          exact hp (b d (by simp))
        rw [if_neg hc2]
        simp [quantMatch, hp]

/-- The match of `/\b\d{n}\b/` at a position. -/
theorem matchNodes_bareDigits (n : Nat) (prev : Option Char) (input : Str) :
    matchNodes false (bareDigits n).nodes prev input =
      if (isWordAt prev != isWordAt input.head?) = true ∧
          ((input.take n).length = n ∧ ∀ c ∈ input.take n, isDigit c = true) ∧
          (isWordAt (lastOr prev (input.take n)) != isWordAt (input.drop n).head?) = true then
        some (input.take n)
      else none := by
  have e : matchNodes false (bareDigits n).nodes prev input =
      if (isWordAt prev != isWordAt input.head?) = true then
        quantMatch isDigit true (matchNodes false [.wordBoundary]) n (some n) prev input
      else none := rfl
  have k : ∀ pv rest, matchNodes false [.wordBoundary] pv rest =
      if (isWordAt pv != isWordAt rest.head?) = true then some [] else none := fun _ _ => rfl
  rw [e, quantMatch_exact, k]
  by_cases h1 : (isWordAt prev != isWordAt input.head?) = true
  · by_cases h2 : (input.take n).length = n ∧ ∀ c ∈ input.take n, isDigit c = true
    · by_cases h3 : (isWordAt (lastOr prev (input.take n)) !=
          isWordAt (input.drop n).head?) = true
      · rw [if_pos h1, if_pos h2, if_pos h3, if_pos ⟨h1, h2, h3⟩]; simp
      · rw [if_pos h1, if_pos h2, if_neg h3, if_neg (fun h => h3 h.2.2)]; rfl
    · rw [if_pos h1, if_neg h2, if_neg (fun h => h2 h.2.1)]
  · rw [if_neg h1, if_neg (fun h => h1 h.1)]

theorem isWordChar_of_isDigit (c : Char) (h : isDigit c = true) : isWordChar c = true := by
  simp [isWordChar, h]

/-- A match of `/\b\d{n}\b/` at an index is a bare `n`-digit token there, and conversely. -/
theorem matchAt_bareDigits_iff (n : Nat) (hn : 0 < n) (body : Str) (i : Nat) (m : Str) :
    MatchAt (bareDigits n) body i m ↔ BareTokenAt n body i m := by
  constructor
  · rintro ⟨pre, rest, e1, e2, e3⟩
    have e3' : matchNodes false (bareDigits n).nodes (lastOr none pre) rest = some m := e3
    rw [matchNodes_bareDigits] at e3'
    split at e3'
    case isFalse => cases e3'
    case isTrue h =>
      cases e3'
      obtain ⟨h1, ⟨h2, h3⟩, h4⟩ := h
      have hne : rest.take n ≠ [] := by
        intro h0; rw [h0] at h2; simp at h2; omega
      obtain ⟨d, ds, hd⟩ := List.exists_cons_of_ne_nil hne
      have hrest : rest.head? = some d := by
        cases rest with
        | nil => simp at hd
        | cons a as =>
          cases n with
          | zero => omega
          | succ n => simp only [List.take_succ_cons, List.cons.injEq] at hd; simp [hd.1]
      have hdw : isWordChar d = true :=
        isWordChar_of_isDigit d (h3 d (by rw [hd]; simp))
      have hlastw : isWordAt (lastOr (lastOr none pre) (rest.take n)) = true := by
        rw [lastOr_eq_getLast?, hd]
        have hl : (d :: ds).getLast? = some ((d :: ds).getLast (by simp)) :=
          List.getLast?_eq_getLast _ _
        rw [hl]
        simp only [isWordAt]
        apply isWordChar_of_isDigit
        apply h3
        rw [hd]
        exact List.getLast_mem _
      refine ⟨pre, rest.drop n, ?_, e2, h2, h3, ?_, ?_⟩
      · rw [e1, List.append_assoc, List.take_append_drop]
      · rw [hrest] at h1
        rw [← lastOr_none]
        simpa [isWordAt, hdw] using h1
      · rw [hlastw] at h4
        simpa using h4
  · rintro ⟨pre, post, e1, e2, e3, e4, e5, e6⟩
    refine ⟨pre, m ++ post, by rw [e1, List.append_assoc], e2, ?_⟩
    show matchNodes false (bareDigits n).nodes (lastOr none pre) (m ++ post) = some m
    rw [matchNodes_bareDigits]
    have hne : m ≠ [] := by
      intro h0; rw [h0] at e3; simp at e3; omega
    obtain ⟨d, ds, rfl⟩ := List.exists_cons_of_ne_nil hne
    have htake : List.take n (d :: ds ++ post) = d :: ds := by
      rw [← e3]; exact List.take_left _ _
    have hdrop : List.drop n (d :: ds ++ post) = post := by
      rw [← e3]; exact List.drop_left _ _
    have hdw : isWordChar d = true := isWordChar_of_isDigit d (e4 d (by simp))
    have hlastw : isWordAt (lastOr (lastOr none pre) (d :: ds)) = true := by
      rw [lastOr_eq_getLast?]
      have hl : (d :: ds).getLast? = some ((d :: ds).getLast (by simp)) :=
        List.getLast?_eq_getLast _ _
      rw [hl]
      simp only [isWordAt]
      exact isWordChar_of_isDigit _ (e4 _ (List.getLast_mem _))
    rw [htake, hdrop, hlastw, e6, lastOr_none, e5]
    rw [if_pos]
    refine ⟨by simp [isWordAt, hdw], ⟨e3, e4⟩, by simp⟩

/-- The leftmost bare `n`-digit token is what `/\b\d{n}\b/` returns. -/
theorem exec_bareDigits_iff (n : Nat) (hn : 0 < n) (body : Str) (i : Nat) (ds : Str) :
    (bareDigits n).exec body = some (i, ds) ↔
      BareTokenAt n body i ds ∧ ∀ j, j < i → ∀ ds1, ¬ BareTokenAt n body j ds1 := by
  rw [exec_some_iff, matchAt_bareDigits_iff n hn]
  constructor
  · rintro ⟨h1, h2⟩
    exact ⟨h1, fun j hj ds1 hb => h2 j hj ds1 ((matchAt_bareDigits_iff n hn body j ds1).2 hb)⟩
  · rintro ⟨h1, h2⟩
    exact ⟨h1, fun j hj ds1 hb => h2 j hj ds1 ((matchAt_bareDigits_iff n hn body j ds1).1 hb)⟩

theorem firstMatch_bareDigits_none_iff (n : Nat) (hn : 0 < n) (body : Str) :
    firstMatch (bareDigits n) body = none ↔ ∀ i ds, ¬ BareTokenAt n body i ds := by
  rw [firstMatch_eq_none_iff, exec_none_iff]
  constructor
  · intro h i ds hb
    exact h i ds ((matchAt_bareDigits_iff n hn body i ds).2 hb)
  · intro h i ds hb
    exact h i ds ((matchAt_bareDigits_iff n hn body i ds).1 hb)

theorem anchoredLoop_of_none (mk : Str → CandidateCode) (text : Str) :
    ∀ ps : List RegExp, (∀ p ∈ ps, firstMatch p text = none) →
      anchoredLoop mk text ps = .ok none := by
  intro ps
  induction ps with
  | nil => intro _; rfl
  | cons q qs ih =>
    intro h
    rw [anchoredLoop_cons_none mk text q qs (h q (by simp))]
    exact ih (fun p hp => h p (List.mem_cons_of_mem _ hp))

/-- The general tier, reached when no phrase-anchored pattern matches: the leftmost match
of `/\b\d{4}\b/` if there is one, else the leftmost match of `/\b\d{6}\b/`. -/
theorem tierCascade_general (e : EmailContent) (targetEmail : Option Str) (body : Str)
    (hp : ∀ p ∈ priorityPatterns, firstMatch p body = none)
    (hs : ∀ p ∈ specificPatterns, firstMatch p body = none) :
    tierCascade e targetEmail body =
      match firstMatch (bareDigits 4) body with
      | some m => .ok [mkCandidate e targetEmail .general m]
      | none =>
        match firstMatch (bareDigits 6) body with
        | some m => .ok [mkCandidate e targetEmail .general m]
        | none => .ok [] := by
  unfold tierCascade
  rw [anchoredLoop_of_none _ _ _ hp, anchoredLoop_of_none _ _ _ hs]
  simp only [generalPatterns, generalLoop]
  cases h4 : firstMatch (bareDigits 4) body with
  | some m =>
    have hl := (firstMatch_bareDigits 4 body m h4).1
    simp [hl]
  | none =>
    cases h6 : firstMatch (bareDigits 6) body with
    | some m =>
      have hl := (firstMatch_bareDigits 6 body m h6).1
      simp [hl]
    | none => simp

/-! ## Claims on pattern order and positions -/

/-- C11 (amended): on an eligible message whose body no priority or specific pattern
matches, the general tier goes by pattern order, then by position: the code returned is
the leftmost bare 4-digit token when the body has a bare 4-digit token; it is the
leftmost bare 6-digit token only when the body has no bare 4-digit token; and nothing is
returned when the body has neither. -/
theorem general_tier_pattern_order (toLowerCase : Str → Str) (e : EmailContent)
    (targetEmail : Option Str) (body : Str)
    (hel : eligible toLowerCase e targetEmail = true) (htext : e.text = some body)
    (hp : ∀ p ∈ priorityPatterns, firstMatch p body = none)
    (hs : ∀ p ∈ specificPatterns, firstMatch p body = none) :
    (∀ i ds, BareTokenAt 4 body i ds → (∀ j, j < i → ∀ ds1, ¬ BareTokenAt 4 body j ds1) →
        extractVerificationCodes toLowerCase e targetEmail =
          .ok [mkCandidate e targetEmail .general ds]) ∧
      ((∀ i ds, ¬ BareTokenAt 4 body i ds) →
        ∀ i ds, BareTokenAt 6 body i ds → (∀ j, j < i → ∀ ds1, ¬ BareTokenAt 6 body j ds1) →
          extractVerificationCodes toLowerCase e targetEmail =
            .ok [mkCandidate e targetEmail .general ds]) ∧
      ((∀ i ds, ¬ BareTokenAt 4 body i ds) → (∀ i ds, ¬ BareTokenAt 6 body i ds) →
        extractVerificationCodes toLowerCase e targetEmail = .ok []) := by
  rw [extract_eligible toLowerCase e targetEmail body hel htext,
    tierCascade_general e targetEmail body hp hs]
  refine ⟨fun i ds hb hl => ?_, fun h4 i ds hb hl => ?_, fun h4 h6 => ?_⟩
  · rw [firstMatch_of_exec _ _ i ds ((exec_bareDigits_iff 4 (by decide) body i ds).2 ⟨hb, hl⟩)]
  · rw [(firstMatch_bareDigits_none_iff 4 (by decide) body).2 h4,
      firstMatch_of_exec _ _ i ds ((exec_bareDigits_iff 6 (by decide) body i ds).2 ⟨hb, hl⟩)]
  · rw [(firstMatch_bareDigits_none_iff 4 (by decide) body).2 h4,
      (firstMatch_bareDigits_none_iff 6 (by decide) body).2 h6]

/-- C11, witness: body `ref 7890 or 123456`, whose leftmost bare 4-digit token `7890`
stands at index 4. -/
theorem general_tier_pattern_order_witness :
    extractVerificationCodes asciiLower (uberMessage "ref 7890 or 123456") alice =
      .ok [mkCandidate (uberMessage "ref 7890 or 123456") alice .general "7890".toList] :=
  (general_tier_pattern_order asciiLower (uberMessage "ref 7890 or 123456") alice
    "ref 7890 or 123456".toList (by decide) rfl (by decide) (by decide)).1 4 "7890".toList
    ⟨"ref ".toList, " or 123456".toList, by decide, by decide, by decide, by decide, by decide,
      by decide⟩
    (fun j hj ds1 hb =>
      have hx := ((exec_bareDigits_iff 4 (by decide) "ref 7890 or 123456".toList 4
        "7890".toList).1 (by decide)).2 j hj ds1
      hx hb)

/-- C11 as stated fails: in the body `123456 then 7890` no priority or specific pattern
matches and the bare 6-digit token `123456` at index 0 precedes every bare 4-digit
token, yet the code returned is `7890`. -/
theorem general_tier_counterexample :
    eligible asciiLower (uberMessage "123456 then 7890") alice = true ∧
      (∀ p ∈ priorityPatterns, firstMatch p "123456 then 7890".toList = none) ∧
      (∀ p ∈ specificPatterns, firstMatch p "123456 then 7890".toList = none) ∧
      BareTokenAt 6 "123456 then 7890".toList 0 "123456".toList ∧
      (bareDigits 4).exec "123456 then 7890".toList = some (12, "7890".toList) ∧
      extractVerificationCodes asciiLower (uberMessage "123456 then 7890") alice =
        .ok [mkCandidate (uberMessage "123456 then 7890") alice .general "7890".toList] ∧
      extractVerificationCodes asciiLower (uberMessage "123456 then 7890") alice ≠
        .ok [mkCandidate (uberMessage "123456 then 7890") alice .general "123456".toList] :=
  ⟨by decide, by decide, by decide,
    ⟨[], " then 7890".toList, by decide, by decide, by decide, by decide, by decide, by decide⟩,
    by decide, by decide, by decide⟩

/-! ## The first pattern that matches -/

/-- The leftmost match of a phrase-anchored pattern, with its position. -/
theorem exec_anchored_sound (ph : String) (p : Char → Bool)
    (hp : ∀ c, p c = true → isDigit c = false)
    (hph : ∀ c ∈ ph.toList.map Char.toUpper, isDigit c = false) (body : Str) (i : Nat)
    (m : Str)
    (h : RegExp.exec ⟨lit ph ++ [.cls p 0 none true, digits46], true⟩ body = some (i, m)) :
    ∃ pre w gap ds post, Anchored [ph] p body pre w gap ds post ∧ pre.length = i ∧
      (ds.length = 6 ∨ NoDigitAhead post) ∧ m = w ++ gap ++ ds ∧
      firstMatch digitRun m = some ds := by
  obtain ⟨⟨pre, rest, e1, e2, e3⟩, -⟩ := (exec_some_iff _ _ _ _).1 h
  have e3' : matchNodes true (lit ph ++ [.cls p 0 none true, digits46]) (lastOr none pre) rest =
      some m := e3
  rw [matchNodes_anchored ph p hp] at e3'
  obtain ⟨w, gap, ds, post, r1, r2, r3, r4, r5, r6, r7, r8, r9⟩ :=
    anchoredAt_sound ph.toList p hph rest _ e3'
  refine ⟨pre, w, gap, ds, post, ⟨?_, ⟨ph, by simp, r2⟩, r3, r4, r5, r6⟩, e2, r7, r8, ?_⟩
  · rw [e1, r1]; simp only [List.append_assoc]
  · rw [r8]
    apply firstMatch_digitRun_inner (w ++ gap) ds _ r4 r5 r6
    intro c hc
    rcases List.mem_append.1 hc with hc | hc
    · exact r9 c hc
    · exact hp c (r3 c hc)

theorem anchoredLoop_append_none (mk : Str → CandidateCode) (text : Str) :
    ∀ before rest : List RegExp, (∀ q ∈ before, firstMatch q text = none) →
      anchoredLoop mk text (before ++ rest) = anchoredLoop mk text rest := by
  intro before
  induction before with
  | nil => intro rest _; rfl
  | cons q qs ih =>
    intro rest h
    rw [List.cons_append, anchoredLoop_cons_none mk text q _ (h q (by simp))]
    exact ih rest (fun x hx => h x (List.mem_cons_of_mem _ hx))

/-- A candidate of the loop comes from the first pattern of the list that matches, through
the inner `/\d{4,6}/` on its leftmost match. -/
theorem anchoredLoop_split (mk : Str → CandidateCode) (text : Str) :
    ∀ (ps : List RegExp) (c : CandidateCode), anchoredLoop mk text ps = .ok (some c) →
      ∃ before pk after i m code, ps = before ++ pk :: after ∧
        (∀ q ∈ before, firstMatch q text = none) ∧ pk.exec text = some (i, m) ∧
        firstMatch digitRun m = some code ∧ c = mk code := by
  intro ps
  induction ps with
  | nil => intro c h; cases h
  | cons q qs ih =>
    intro c h
    cases hx : q.exec text with
    | none =>
      have hq : firstMatch q text = none := (firstMatch_eq_none_iff q text).2 hx
      rw [anchoredLoop_cons_none mk text q qs hq] at h
      obtain ⟨before, pk, after, i, m, code, e1, e2, e3, e4, e5⟩ := ih c h
      refine ⟨q :: before, pk, after, i, m, code, by simp [e1], ?_, e3, e4, e5⟩
      intro x hx'
      rcases List.mem_cons.1 hx' with rfl | hx'
      · exact hq
      · exact e2 x hx'
    | some x =>
      obtain ⟨i, m⟩ := x
      have hq := firstMatch_of_exec q text i m hx
      cases hc : firstMatch digitRun m with
      | none => simp [anchoredLoop, hq, hc] at h
      | some code =>
        rw [anchoredLoop_cons_some mk text q qs m code hq hc] at h
        cases h
        exact ⟨[], q, qs, i, m, code, rfl, fun _ hm => (by cases hm), hx, hc, rfl⟩

theorem mem_priorityPatterns (pk : RegExp) (h : pk ∈ priorityPatterns) :
    ∃ ph ∈ priorityPhrases, pk = phraseSep ph := by
  rw [priorityPatterns_eq] at h
  obtain ⟨ph, h1, h2⟩ := List.mem_map.1 h
  exact ⟨ph, h1, h2.symm⟩

theorem mem_specificPatterns (pk : RegExp) (h : pk ∈ specificPatterns) :
    ∃ ph ∈ specificPhrases, pk = phraseGap ph := by
  rw [specificPatterns_eq] at h
  obtain ⟨ph, h1, h2⟩ := List.mem_map.1 h
  exact ⟨ph, h1, h2.symm⟩

theorem specificPhrases_end_in_code :
    ∀ ph ∈ specificPhrases, 4 ≤ ph.toList.length ∧
      ph.toList.drop (ph.toList.length - 4) = "code".toList := by
  decide

/-- C12: on an eligible message, when `pk` is the first pattern of `priorityPatterns` with
a match in the body and `(i, m)` is its leftmost match (no match of `pk` starts before
index `i`), the result is exactly one candidate of pattern `priority` whose code is the
4 to 6 digit group that ends `m`, after the phrase and the colons or whitespace;
patterns listed after `pk` and the other tiers have no influence. -/
theorem priority_pattern_order (toLowerCase : Str → Str) (e : EmailContent)
    (targetEmail : Option Str) (body : Str) (before after : List RegExp) (pk : RegExp)
    (i : Nat) (m : Str)
    (hel : eligible toLowerCase e targetEmail = true) (htext : e.text = some body)
    (hlist : priorityPatterns = before ++ pk :: after)
    (hfirst : ∀ q ∈ before, firstMatch q body = none)
    (hexec : pk.exec body = some (i, m)) :
    (∀ j, j < i → ∀ m1, ¬ MatchAt pk body j m1) ∧
      ∃ w gap ds, m = w ++ gap ++ ds ∧ (∀ c ∈ w, isDigit c = false) ∧
        (∀ c ∈ gap, isSep c = true) ∧ IsCode ds ∧
        extractVerificationCodes toLowerCase e targetEmail =
          .ok [mkCandidate e targetEmail .priority ds] := by
  refine ⟨((exec_some_iff pk body i m).1 hexec).2, ?_⟩
  have hmem : pk ∈ priorityPatterns := by rw [hlist]; simp
  obtain ⟨ph, hph, rfl⟩ := mem_priorityPatterns pk hmem
  obtain ⟨pre, w, gap, ds, post, ⟨a1, ⟨x, hx, a2⟩, a3, a4, a5, a6⟩, -, -, hm, hin⟩ :=
    exec_anchored_sound ph isSep isSep_not_digit (priorityPhrases_no_digit ph hph) body i m hexec
  simp only [List.mem_singleton] at hx
  subst hx
  refine ⟨w, gap, ds, hm, not_digit_of_upper_eq _ _ a2 (priorityPhrases_no_digit x hph), a3,
    ⟨a5, a6, a4⟩, ?_⟩
  rw [extract_eligible toLowerCase e targetEmail body hel htext]
  unfold tierCascade
  rw [hlist, anchoredLoop_append_none _ _ _ _ hfirst,
    anchoredLoop_cons_some _ _ _ _ m ds (firstMatch_of_exec _ _ i m hexec) hin]

/-- C12, witness: body `code: 1111 then enter this verification code: 2222`; the first
listed pattern matches at index 16 and decides, although `/code[:\s]*(\d{4,6})/` matches
at index 0. -/
theorem priority_pattern_order_witness :
    (phraseSep "code").exec "code: 1111 then enter this verification code: 2222".toList =
        some (0, "code: 1111".toList) ∧
      extractVerificationCodes asciiLower
          (uberMessage "code: 1111 then enter this verification code: 2222") alice =
        .ok [mkCandidate (uberMessage "code: 1111 then enter this verification code: 2222")
          alice .priority "2222".toList] ∧
      ((∀ j, j < 16 → ∀ m1, ¬ MatchAt (phraseSep "enter this verification code")
          "code: 1111 then enter this verification code: 2222".toList j m1) ∧
        ∃ w gap ds, "enter this verification code: 2222".toList = w ++ gap ++ ds ∧
          (∀ c ∈ w, isDigit c = false) ∧ (∀ c ∈ gap, isSep c = true) ∧ IsCode ds ∧
          extractVerificationCodes asciiLower
              (uberMessage "code: 1111 then enter this verification code: 2222") alice =
            .ok [mkCandidate (uberMessage "code: 1111 then enter this verification code: 2222")
              alice .priority ds]) :=
  ⟨by decide, by decide,
    priority_pattern_order asciiLower
      (uberMessage "code: 1111 then enter this verification code: 2222") alice
      "code: 1111 then enter this verification code: 2222".toList []
      [phraseSep "verification code is", phraseSep "verification code", phraseSep "your code",
        phraseSep "code is", phraseSep "code"]
      (phraseSep "enter this verification code") 16 "enter this verification code: 2222".toList
      (by decide) rfl rfl (fun _ h => by cases h) (by decide)⟩

/-- C13: when `extractVerificationCodes` returns a candidate of pattern `specific`, it
comes from the leftmost match `w ++ gap ++ ds` of the first specific pattern that
matches, where `w` is the keyword, `ds` the code, and the span `gap` between them is
free of digits and contains a character that is neither a colon nor whitespace (so it is
not empty). -/
theorem specific_keyword_not_adjacent (toLowerCase : Str → Str) (e : EmailContent)
    (targetEmail : Option Str) (l : List CandidateCode) (c : CandidateCode)
    (h : extractVerificationCodes toLowerCase e targetEmail = .ok l) (hc : c ∈ l)
    (hsp : c.pattern = .specific) :
    ∃ body before pk after i w gap ds, e.text = some body ∧
      specificPatterns = before ++ pk :: after ∧ (∀ q ∈ before, firstMatch q body = none) ∧
      pk.exec body = some (i, w ++ gap ++ ds) ∧
      (∃ ph ∈ specificPhrases, pk = phraseGap ph ∧
        w.map Char.toUpper = ph.toList.map Char.toUpper) ∧
      (∀ x ∈ gap, isDigit x = false) ∧ (∃ x ∈ gap, isSep x = false) ∧ IsCode ds ∧
      c.code = ds := by
  cases l with
  | nil => cases hc
  | cons c0 l0 =>
    obtain ⟨-, body, ht, hb⟩ := extract_nonempty toLowerCase e targetEmail c0 l0 h
    unfold tierCascade at hb
    cases hP : anchoredLoop (mkCandidate e targetEmail .priority) body priorityPatterns with
    | error err => rw [hP] at hb; cases hb
    | ok r =>
      cases r with
      | some c1 =>
        rw [hP] at hb
        obtain ⟨code, -, rfl⟩ := anchoredLoop_some _ _ _ _ hP
        cases hb
        simp only [List.mem_singleton] at hc
        subst hc
        cases hsp
      | none =>
        rw [hP] at hb
        have nP := anchoredLoop_none _ _ _ hP
        cases hS : anchoredLoop (mkCandidate e targetEmail .specific) body specificPatterns with
        | error err => rw [hS] at hb; cases hb
        | ok r =>
          cases r with
          | none =>
            rw [hS] at hb
            simp only at hb
            cases hG : generalLoop (mkCandidate e targetEmail .general) body generalPatterns with
            | none => rw [hG] at hb; cases hb
            | some c1 =>
              rw [hG] at hb
              obtain ⟨code, -, rfl⟩ := generalLoop_some _ _ _ c1
                (fun p hp m hm => generalPatterns_digits body m p hp hm) hG
              cases hb
              simp only [List.mem_singleton] at hc
              subst hc
              cases hsp
          | some c1 =>
            rw [hS] at hb
            cases hb
            simp only [List.mem_singleton] at hc
            subst hc
            obtain ⟨before, pk, after, i, m, code, e1, e2, e3, e4, e5⟩ :=
              anchoredLoop_split _ _ _ _ hS
            have hmem : pk ∈ specificPatterns := by rw [e1]; simp
            obtain ⟨ph, hph, rfl⟩ := mem_specificPatterns pk hmem
            obtain ⟨pre, w, gap, ds, post, ⟨a1, ⟨x, hx, a2⟩, a3, a4, a5, a6⟩, -, -, hm, hin⟩ :=
              exec_anchored_sound ph isNonDigit isNonDigit_not_digit
                (specificPhrases_no_digit ph hph) body i m e3
            simp only [List.mem_singleton] at hx
            subst hx
            rw [hin] at e4
            cases e4
            subst hm
            refine ⟨body, before, phraseGap x, after, i, w, gap, code, ht, e1, e2, e3,
              ⟨x, hph, rfl, a2⟩, fun y hy => isNonDigit_not_digit y (a3 y hy), ?_,
              ⟨a5, a6, a4⟩, by rw [e5]; rfl⟩
            by_contra hall
            have hsep : ∀ y ∈ gap, isSep y = true := by
              intro y hy
              cases hy' : isSep y with
              | true => rfl
              | false => exact absurd ⟨y, hy, hy'⟩ hall
            obtain ⟨hlen4, hdrop⟩ := specificPhrases_end_in_code x hph
            have hwlen : w.length = x.toList.length := by
              have := congrArg List.length a2
              simpa using this
            have hw2 : (w.drop (w.length - 4)).map Char.toUpper =
                "code".toList.map Char.toUpper := by
              rw [List.map_drop, a2, ← List.map_drop, hwlen, hdrop]
            have hocc : Anchored ["code"] isSep body (pre ++ w.take (w.length - 4))
                (w.drop (w.length - 4)) gap code post := by
              refine ⟨?_, ⟨"code", by simp, hw2⟩, hsep, a4, a5, a6⟩
              rw [a1]
              simp only [List.append_assoc]
              rw [← List.append_assoc (w.take (w.length - 4)), List.take_append_drop]
            have hsome := firstMatch_anchored_complete "code" isSep isSep_not_digit body _ _ _ _ _
              hocc
            have hnone := nP (phraseSep "code")
              (by rw [priorityPatterns_eq]; exact List.mem_map_of_mem _ (by decide))
            unfold phraseSep at hnone
            rw [hnone] at hsome
            cases hsome

/-- C13, witness: body `Verification code for you - 6584`; the span ` for you - ` lies
between the keyword and the code. -/
theorem specific_keyword_not_adjacent_witness :
    extractVerificationCodes asciiLower (uberMessage "Verification code for you - 6584") alice =
        .ok [mkCandidate (uberMessage "Verification code for you - 6584") alice .specific
          "6584".toList] ∧
      ∃ body before pk after i w gap ds,
        (uberMessage "Verification code for you - 6584").text = some body ∧
        specificPatterns = before ++ pk :: after ∧ (∀ q ∈ before, firstMatch q body = none) ∧
        pk.exec body = some (i, w ++ gap ++ ds) ∧
        (∃ ph ∈ specificPhrases, pk = phraseGap ph ∧
          w.map Char.toUpper = ph.toList.map Char.toUpper) ∧
        (∀ x ∈ gap, isDigit x = false) ∧ (∃ x ∈ gap, isSep x = false) ∧ IsCode ds ∧
        (mkCandidate (uberMessage "Verification code for you - 6584") alice .specific
          "6584".toList).code = ds :=
  ⟨by decide,
    specific_keyword_not_adjacent asciiLower (uberMessage "Verification code for you - 6584")
      alice _ _ (by decide) (List.mem_singleton.2 rfl) rfl⟩

/-! ## The queue of `connectImap` -/

theorem setAt_length {α : Type} (l : List α) (i : Nat) (a : α) :
    (setAt l i a).length = l.length := by
  induction l generalizing i with
  | nil => rfl
  | cons x xs ih => cases i <;> simp [setAt, ih]

theorem setAt_get?_self {α : Type} (l : List α) (i : Nat) (a : α) (h : i < l.length) :
    (setAt l i a).get? i = some a := by
  induction l generalizing i with
  | nil => simp at h
  | cons x xs ih =>
    cases i with
    | zero => simp [setAt]
    | succ i => simpa [setAt] using ih i (by simpa using h)

theorem setAt_get?_ne {α : Type} (l : List α) (i j : Nat) (a : α) (h : j ≠ i) :
    (setAt l i a).get? j = l.get? j := by
  induction l generalizing i j with
  | nil => rfl
  | cons x xs ih =>
    cases i with
    | zero =>
      cases j with
      | zero => exact absurd rfl h
      | succ j => simp [setAt]
    | succ i =>
      cases j with
      | zero => simp [setAt]
      | succ j => simpa [setAt] using ih i j (by omega)

theorem get?_lt_length {α : Type} (l : List α) (i : Nat) (a : α) (h : l.get? i = some a) :
    i < l.length := by
  by_contra hn
  rw [List.get?_eq_none.2 (by omega)] at h
  cases h

/-- Replacing a checker by one with the same `isConnecting` and `connection` does not
change which checker awaits a session. -/
theorem awaitingChecker_setAt (w : Improved) (k i : Nat) (c c1 : Checker)
    (sessions : List Session) (results : List (Nat × ConnectResult))
    (hk : w.checkers.get? k = some c) (h1 : c1.isConnecting = c.isConnecting)
    (h2 : c1.connection = c.connection) :
    awaitingChecker ⟨setAt w.checkers k c1, sessions, results⟩ i = awaitingChecker w i := by
  unfold awaitingChecker
  simp only [setAt_length]
  congr 1
  funext j
  by_cases hj : j = k
  · subst hj
    rw [setAt_get?_self _ _ _ (get?_lt_length _ _ _ hk), hk]
    simp [h1, h2]
  · rw [setAt_get?_ne _ _ _ _ hj]

/-- A call of `connectImap` while an attempt is in progress joins the end of the queue
and opens nothing. -/
theorem connectImap_queues (w : Improved) (now : Int) (k q : Nat) (c : Checker)
    (hk : w.checkers.get? k = some c) (hconn : c.isConnecting = true) :
    stepImproved w (.connectImap now k q) =
      { w with
        checkers :=
          setAt w.checkers k { c with connectionQueue := c.connectionQueue ++ [q] } } := by
  simp only [stepImproved, hk, hconn, if_true]

theorem queueCalls_spec (k i : Nat) :
    ∀ (callers : List (Int × Nat)) (w : Improved) (c : Checker),
      w.checkers.get? k = some c → c.isConnecting = true → awaitingChecker w i = some k →
      (queueCalls k callers w).sessions = w.sessions ∧
        (queueCalls k callers w).results = w.results ∧
        (queueCalls k callers w).checkers.get? k =
          some { c with connectionQueue := c.connectionQueue ++ callers.map Prod.snd } ∧
        awaitingChecker (queueCalls k callers w) i = some k := by
  intro callers
  induction callers with
  | nil => intro w c hk _ ha; exact ⟨rfl, rfl, by simpa [queueCalls] using hk, ha⟩
  | cons q qs ih =>
    intro w c hk hconn ha
    have hstep := connectImap_queues w q.1 k q.2 c hk hconn
    have e : queueCalls k (q :: qs) w =
        queueCalls k qs (stepImproved w (.connectImap q.1 k q.2)) := rfl
    rw [e, hstep]
    have hk1 : (setAt w.checkers k
        ({ c with connectionQueue := c.connectionQueue ++ [q.2] } : Checker)).get? k =
        some { c with connectionQueue := c.connectionQueue ++ [q.2] } :=
      setAt_get?_self _ _ _ (get?_lt_length _ _ _ hk)
    have ha1 := awaitingChecker_setAt w k i c
      { c with connectionQueue := c.connectionQueue ++ [q.2] } w.sessions w.results hk rfl rfl
    obtain ⟨r1, r2, r3, r4⟩ := ih
      { w with
        checkers :=
          setAt w.checkers k { c with connectionQueue := c.connectionQueue ++ [q.2] } }
      { c with connectionQueue := c.connectionQueue ++ [q.2] } hk1 hconn (by rw [ha1]; exact ha)
    refine ⟨r1, r2, ?_, r4⟩
    rw [r3]
    simp [List.append_assoc]

/-! ## Claims on the queues and on open connections -/

/-- C14 (counterexample): on one `EmailOTPChecker`, caller 0 starts the connection
attempt, callers 1 and 2 call `connectImap` while it is in progress, and the attempt fails.
Only caller 0 receives the rejection; callers 1 and 2 receive nothing and are still in
`connectionQueue` afterwards, with `isConnecting` false. -/
theorem queued_callers_left_pending_counterexample :
    (runImproved [.newChecker, .connectImap 1000 0 0, .connectImap 1001 0 1,
        .connectImap 1002 0 2, .error 0 "connect failed".toList]).results =
        [(0, .rejected "connect failed".toList)] ∧
      (runImproved [.newChecker, .connectImap 1000 0 0, .connectImap 1001 0 1,
        .connectImap 1002 0 2, .error 0 "connect failed".toList]).checkers =
        [⟨some 0, false, [1, 2], none⟩] := by
  constructor <;> decide

/-- C15: while a connection attempt of a checker is in progress (the checker awaits
`connect()` of session `i`, started by caller `a`), further callers of `connectImap` are
queued and open no session; when the attempt succeeds, the callers in the queue are
resolved in arrival order with session `i`, then the initiating caller is resolved with
the same session, no session was added, and the checker ends with an empty queue and
`isConnecting` false. -/
theorem queued_callers_share_connection (w : Improved) (k i a : Nat) (c : Checker)
    (s : Session) (callers : List (Int × Nat))
    (hk : w.checkers.get? k = some c) (hconn : c.isConnecting = true)
    (hc : c.connection = some i) (hinit : c.initiator = some a)
    (hs : w.sessions.get? i = some s) (haw : awaitingChecker w i = some k) :
    (queueCalls k callers w).sessions = w.sessions ∧
      (stepImproved (queueCalls k callers w) (.ready i)).results =
        w.results ++
          (c.connectionQueue ++ callers.map Prod.snd).map (fun q => (q, .resolved i)) ++
          [(a, .resolved i)] ∧
      (stepImproved (queueCalls k callers w) (.ready i)).sessions.length = w.sessions.length ∧
      (stepImproved (queueCalls k callers w) (.ready i)).sessions.get? i =
        some { s with isConnected := true } ∧
      (stepImproved (queueCalls k callers w) (.ready i)).checkers.get? k =
        some ⟨some i, false, [], none⟩ := by
  obtain ⟨r1, r2, r3, r4⟩ := queueCalls_spec k i callers w c hk hconn haw
  have hlt : i < w.sessions.length := get?_lt_length _ _ _ hs
  have hklt : k < (queueCalls k callers w).checkers.length := get?_lt_length _ _ _ r3
  have hstep : stepImproved (queueCalls k callers w) (.ready i) =
      ⟨setAt (queueCalls k callers w).checkers k ⟨some i, false, [], none⟩,
        setAt w.sessions i { s with isConnected := true },
        w.results ++
          ((c.connectionQueue ++ callers.map Prod.snd).map (fun q => (q, .resolved i)) ++
            [(a, .resolved i)])⟩ := by
    simp only [stepImproved, r1, hs, r4, r3, r2, hc, hinit, Option.toList, List.map_cons,
      List.map_nil]
  rw [hstep]
  refine ⟨r1, by simp only [List.append_assoc], by simp only [setAt_length], ?_, ?_⟩
  · exact setAt_get?_self _ _ _ hlt
  · exact setAt_get?_self _ _ _ hklt

/-- C15, witness: callers 1 and 2 arrive while caller 0 connects; all three receive
session 0, in the order 1, 2, 0, and one session exists. -/
theorem queued_callers_share_connection_witness :
    (stepImproved (queueCalls 0 [(1001, 1), (1002, 2)]
        (runImproved [.newChecker, .connectImap 1000 0 0])) (.ready 0)).results =
        [(1, .resolved 0), (2, .resolved 0), (0, .resolved 0)] ∧
      (stepImproved (queueCalls 0 [(1001, 1), (1002, 2)]
        (runImproved [.newChecker, .connectImap 1000 0 0])) (.ready 0)).sessions.length = 1 ∧
      (stepImproved (queueCalls 0 [(1001, 1), (1002, 2)]
        (runImproved [.newChecker, .connectImap 1000 0 0])) (.ready 0)).checkers.get? 0 =
        some ⟨some 0, false, [], none⟩ :=
  have h := queued_callers_share_connection (runImproved [.newChecker, .connectImap 1000 0 0])
    0 0 0 ⟨some 0, true, [], some 0⟩ ⟨1000, false, false⟩ [(1001, 1), (1002, 2)] rfl rfl rfl rfl
    rfl (by decide)
  ⟨h.2.1, h.2.2.1, h.2.2.2.2⟩

/-- C16 (failing input): a check is started at 5000, its `openBox` (or `search`, or
`fetch`) reports an error, and a second check is started at 8000.  The error callback
clears `emailConnection` without `imap.end()`, so the second call opens a connection
while the first is still open: two connections are open at once. -/
theorem two_connections_open_after_error (message : Str) :
    (run [.call 5000 ⟨none, 0⟩, .openBoxError 0 message]).openCount = 1 ∧
      (run [.call 5000 ⟨none, 0⟩, .openBoxError 0 message]).emailConnection = none ∧
      (run [.call 5000 ⟨none, 0⟩, .openBoxError 0 message, .call 8000 ⟨none, 1⟩]).openCount
        = 2 ∧
      (run [.call 5000 ⟨none, 0⟩, .searchError 0 message, .call 8000 ⟨none, 1⟩]).openCount
        = 2 ∧
      (run [.call 5000 ⟨none, 0⟩, .fetchError 0 message, .call 8000 ⟨none, 1⟩]).openCount
        = 2 ∧
      (run [.call 5000 ⟨none, 0⟩, .fetchEnd 6000 0 [], .call 8000 ⟨none, 1⟩]).openCount = 1 :=
  ⟨rfl, rfl, rfl, rfl, rfl, rfl⟩

/-! ## The ids requested by `fetchEmails` and the failures of the watch loop -/

theorem sortedIds_spec (ids : List Nat) :
    (sortedIds ids).length = min 3 ids.length ∧
      List.Sorted (fun a b => b ≤ a) (sortedIds ids) ∧
      ∃ rest, List.Perm (sortedIds ids ++ rest) ids ∧
        ∀ x ∈ sortedIds ids, ∀ y ∈ rest, y ≤ x := by
  haveI : IsTotal Nat (fun a b => b ≤ a) := ⟨fun a b => Nat.le_total b a⟩
  haveI : IsTrans Nat (fun a b => b ≤ a) := ⟨fun _ _ _ h1 h2 => Nat.le_trans h2 h1⟩
  have hs : List.Sorted (fun a b => b ≤ a) (ids.insertionSort (fun a b => b ≤ a)) :=
    List.sorted_insertionSort _ ids
  have hp : List.Perm (ids.insertionSort (fun a b => b ≤ a)) ids := List.perm_insertionSort _ ids
  have hsplit : (ids.insertionSort (fun a b => b ≤ a)).take 3 ++
      (ids.insertionSort (fun a b => b ≤ a)).drop 3 = ids.insertionSort (fun a b => b ≤ a) :=
    List.take_append_drop _ _
  refine ⟨?_, ?_, (ids.insertionSort (fun a b => b ≤ a)).drop 3, ?_, ?_⟩
  · unfold sortedIds
    rw [List.length_take, hp.length_eq]
  · unfold sortedIds
    exact List.Pairwise.sublist (List.take_sublist _ _) hs
  · unfold sortedIds
    rw [hsplit]
    exact hp
  · unfold sortedIds
    have h := hs
    unfold List.Sorted at h
    rw [← hsplit, List.pairwise_append] at h
    exact h.2.2

theorem poll_failure (toLowerCase : Str → Str) (store : MailStore) (targetEmail : Option Str)
    (checkInterval : Nat) (k : Nat) (e : Thrown) (ops : List Op)
    (hk : cycle toLowerCase store targetEmail k = (.error e, ops)) :
    ∀ fuel k0, k0 ≤ k → k < k0 + fuel →
      (∀ j, k0 ≤ j → j < k → (cycle toLowerCase store targetEmail j).1 = .ok none) →
      ∃ before, poll toLowerCase store targetEmail checkInterval fuel k0 =
        (some (.failed e), before ++ ops) := by
  intro fuel
  induction fuel with
  | zero => intro k0 h1 h2 _; omega
  | succ n ih =>
    intro k0 h1 h2 hno
    by_cases hkk : k0 = k
    · subst hkk
      exact ⟨[], by simp [poll, hk]⟩
    · have hc := hno k0 (Nat.le_refl _) (by omega)
      obtain ⟨before, hb⟩ := ih (k0 + 1) (by omega) (by omega)
        (fun j hj1 hj2 => hno j (by omega) hj2)
      rcases hcy : cycle toLowerCase store targetEmail k0 with ⟨r, ops0⟩
      rw [hcy] at hc
      simp only at hc
      subst hc
      refine ⟨ops0 ++ [.sleep checkInterval] ++ before, ?_⟩
      simp only [poll, hcy, hb, List.append_assoc]

/-- A failure in cycle `k`, after cycles without code and without error, is what
`waitForVerificationEmail` returns, and the operations of cycle `k` are its last. -/
theorem wait_failure (toLowerCase : Str → Str) (store : MailStore) (targetEmail : Option Str)
    (options : WatchOptions) (fuel : Nat) (k : Nat) (e : Thrown) (ops : List Op) (u : Unit)
    (hconn : store.connect = .ok u)
    (hk : cycle toLowerCase store targetEmail k = (.error e, ops)) (hfuel : k ≤ fuel)
    (hno : ∀ j, j < k → (cycle toLowerCase store targetEmail j).1 = .ok none) :
    ∃ before, waitForVerificationEmail toLowerCase store targetEmail options fuel =
      (some (.failed e), before ++ ops) := by
  unfold waitForVerificationEmail
  simp only [hconn]
  by_cases h0 : k = 0
  · subst h0
    exact ⟨[.connectImap], by simp [hk]⟩
  · have hc := hno 0 (by omega)
    have key : ∀ ci, ∃ before, poll toLowerCase store targetEmail ci fuel 1 =
        (some (.failed e), before ++ ops) := fun ci =>
      poll_failure toLowerCase store targetEmail ci k e ops hk fuel 1 (by omega) (by omega)
        (fun j _ hj2 => hno j hj2)
    rcases hcy : cycle toLowerCase store targetEmail 0 with ⟨r, ops0⟩
    rw [hcy] at hc
    simp only at hc
    subst hc
    simp only
    exact (key _).elim fun before hb =>
      ⟨.connectImap :: ops0 ++ before, by rw [hb]; simp only [List.cons_append, List.append_assoc]⟩

theorem cycle_search_error (toLowerCase : Str → Str) (store : MailStore)
    (targetEmail : Option Str) (k : Nat) (m : Str) (h : store.search k = .error m) :
    cycle toLowerCase store targetEmail k = (.error (.store m), [.searchEmails k]) := by
  simp [cycle, h]

theorem cycle_fetch_error (toLowerCase : Str → Str) (store : MailStore)
    (targetEmail : Option Str) (k : Nat) (ids : List Nat) (m : Str)
    (h : store.search k = .ok ids) (hne : ids ≠ [])
    (hf : store.imapFetch k (sortedIds ids) = .error m) :
    cycle toLowerCase store targetEmail k =
      (.error (.store m), [.searchEmails k, .fetchEmails (sortedIds ids)]) := by
  have hlen : ids.length > 0 := List.length_pos.2 hne
  have hlen0 : ¬ ids.length = 0 := by omega
  simp only [cycle, h, hlen, if_true, fetchEmails, hlen0, if_false, hf]

/-! ## Claims on fetching, the watch loop and `checkForNewOTPs` -/

/-- C17: the ids `fetchEmails` passes to `imap.fetch` are `min 3 n` of the `n` ids given,
in descending order, all members of the input, and no id left out is larger than one
passed; for the empty list `fetchEmails` resolves to the empty list whatever `imap.fetch`
would do, and for a non-empty list its result is that of `imap.fetch` on those ids. -/
theorem fetchEmails_requests_newest_three
    (imapFetch : List Nat → Except Str (List EmailContent)) (ids : List Nat) :
    (sortedIds ids).length = min 3 ids.length ∧
      List.Sorted (fun a b => b ≤ a) (sortedIds ids) ∧
      (∀ x ∈ sortedIds ids, x ∈ ids) ∧
      (∃ rest, List.Perm (sortedIds ids ++ rest) ids ∧
        ∀ x ∈ sortedIds ids, ∀ y ∈ rest, y ≤ x) ∧
      fetchEmails imapFetch [] = .ok [] ∧
      (ids ≠ [] → fetchEmails imapFetch ids = imapFetch (sortedIds ids)) := by
  obtain ⟨h1, h2, rest, h3, h4⟩ := sortedIds_spec ids
  refine ⟨h1, h2, fun x hx => ?_, ⟨rest, h3, h4⟩, rfl, fun hne => ?_⟩
  · exact h3.mem_iff.1 (List.mem_append_left _ hx)
  · have hlen : ¬ ids.length = 0 := by
      intro h0
      exact hne (List.length_eq_zero.1 h0)
    simp only [fetchEmails, hlen, if_false]

/-- C17, witness: of the ids `5, 9, 2, 7, 7` the ids `9, 7, 7` are requested. -/
theorem fetchEmails_requests_newest_three_witness :
    sortedIds [5, 9, 2, 7, 7] = [9, 7, 7] ∧
      fetchEmails (fun _ => .error "no fetch".toList) [] = .ok [] ∧
      fetchEmails (fun requested => .ok (requested.map twoCodes)) [5, 9, 2, 7, 7] =
        .ok ([9, 7, 7].map twoCodes) :=
  ⟨by decide,
    (fetchEmails_requests_newest_three (fun _ => .error "no fetch".toList) []).2.2.2.2.1,
    (fetchEmails_requests_newest_three (fun requested => .ok (requested.map twoCodes))
      [5, 9, 2, 7, 7]).2.2.2.2.2 (by decide)⟩

/-- C18 (failing input): the search returns ids 1 and 2, `fetchEmails` requests `[2, 1]`
and the two messages are delivered in that order, newest first; both yield a code.  The
loop `for (i = emails.length - 1; i >= 0; i--)` starts at the last delivered message, so
the code returned is `1111`, that of the older message (id 1), in the draining phase and
in the polling phase alike. -/
theorem oldest_of_batch_is_returned :
    waitForVerificationEmail asciiLower (storeOf 0 [1, 2] twoCodes) alice ⟨none, none⟩ 0 =
        (some (.found
            [mkCandidate (uberMessage "Your code: 1111") alice .priority "1111".toList]
            (mkCandidate (uberMessage "Your code: 1111") alice .priority "1111".toList) 0),
          [.connectImap, .searchEmails 0, .fetchEmails [2, 1]]) ∧
      waitForVerificationEmail asciiLower (storeOf 1 [1, 2] twoCodes) alice ⟨none, none⟩ 1 =
        (some (.found
            [mkCandidate (uberMessage "Your code: 1111") alice .priority "1111".toList]
            (mkCandidate (uberMessage "Your code: 1111") alice .priority "1111".toList) 0),
          [.connectImap, .searchEmails 0, .searchEmails 1, .fetchEmails [2, 1]]) := by
  constructor <;> decide

/-- C19: `waitForVerificationEmail` returns the failure as its result.  When
`connectImap` fails with message `m` the result is the failure record of `m` and nothing
else was done; when, after cycles without code and without error, the search or the
fetch of cycle `k` fails with message `m`, the result is the failure record of `m` and
the failed operation is the last operation performed; and so for anything raised in
cycle `k`. -/
theorem watch_returns_failure (toLowerCase : Str → Str) (store : MailStore)
    (targetEmail : Option Str) (options : WatchOptions) (fuel : Nat) :
    (∀ m, store.connect = .error m →
        waitForVerificationEmail toLowerCase store targetEmail options fuel =
          (some (.failed (.store m)), [.connectImap])) ∧
      (∀ k m u, store.connect = .ok u → k ≤ fuel →
        (∀ j, j < k → (cycle toLowerCase store targetEmail j).1 = .ok none) →
        store.search k = .error m →
        ∃ before, waitForVerificationEmail toLowerCase store targetEmail options fuel =
          (some (.failed (.store m)), before ++ [.searchEmails k])) ∧
      (∀ k m u ids, store.connect = .ok u → k ≤ fuel →
        (∀ j, j < k → (cycle toLowerCase store targetEmail j).1 = .ok none) →
        store.search k = .ok ids → ids ≠ [] →
        store.imapFetch k (sortedIds ids) = .error m →
        ∃ before, waitForVerificationEmail toLowerCase store targetEmail options fuel =
          (some (.failed (.store m)),
            before ++ [.searchEmails k, .fetchEmails (sortedIds ids)])) ∧
      (∀ k e ops u, store.connect = .ok u → k ≤ fuel →
        (∀ j, j < k → (cycle toLowerCase store targetEmail j).1 = .ok none) →
        cycle toLowerCase store targetEmail k = (.error e, ops) →
        ∃ before, waitForVerificationEmail toLowerCase store targetEmail options fuel =
          (some (.failed e), before ++ ops)) := by
  refine ⟨fun m hm => ?_, fun k m u hc hk hno hs => ?_,
    fun k m u ids hc hk hno hs hne hf => ?_, fun k e ops u hc hk hno hcy => ?_⟩
  · unfold waitForVerificationEmail
    simp only [hm]
  · exact wait_failure toLowerCase store targetEmail options fuel k _ _ u hc
      (cycle_search_error toLowerCase store targetEmail k m hs) hk hno
  · exact wait_failure toLowerCase store targetEmail options fuel k _ _ u hc
      (cycle_fetch_error toLowerCase store targetEmail k ids m hs hne hf) hk hno
  · exact wait_failure toLowerCase store targetEmail options fuel k e ops u hc hcy hk hno

/-- C19, witness: the searches of cycles 0 and 1 find nothing and the search of cycle 2
fails with `ETIMEDOUT`. -/
theorem watch_returns_failure_witness :
    waitForVerificationEmail asciiLower
        ⟨.ok (), fun k => if k = 2 then .error "ETIMEDOUT".toList else .ok [],
          fun _ _ => .ok [], fun _ => 0⟩ alice ⟨none, none⟩ 5 =
        (some (.failed (.store "ETIMEDOUT".toList)),
          [.connectImap, .searchEmails 0, .searchEmails 1, .sleep 100, .searchEmails 2]) ∧
      ∃ before, waitForVerificationEmail asciiLower
        ⟨.ok (), fun k => if k = 2 then .error "ETIMEDOUT".toList else .ok [],
          fun _ _ => .ok [], fun _ => 0⟩ alice ⟨none, none⟩ 5 =
        (some (.failed (.store "ETIMEDOUT".toList)), before ++ [.searchEmails 2]) :=
  ⟨by decide,
    (watch_returns_failure asciiLower
      ⟨.ok (), fun k => if k = 2 then .error "ETIMEDOUT".toList else .ok [],
        fun _ _ => .ok [], fun _ => 0⟩ alice ⟨none, none⟩ 5).2.1 2 "ETIMEDOUT".toList ()
      rfl (by decide) (by decide) rfl⟩

theorem disconnect_not_mail (ops : List Op) : Action.disconnect ∉ ops.map Action.mail := by
  simp

/-- The shape the claim asks of a finished call: the actions end with the only
`disconnect` and the connection is left with `isConnected` false. -/
theorem released_of (o : Option CheckOutcome) (before : List Action) (s0 : Session)
    (hb : Action.disconnect ∉ before) :
    ∃ before1 s,
      (o, before ++ [Action.disconnect], EmailOTPChecker.disconnect (some s0)).2.1 =
        before1 ++ [.disconnect] ∧
      Action.disconnect ∉ before1 ∧
      (o, before ++ [Action.disconnect], EmailOTPChecker.disconnect (some s0)).2.2 = some s ∧
      s.isConnected = false := by
  refine ⟨before, EmailConnection.disconnect s0, rfl, hb, rfl, ?_⟩
  unfold EmailConnection.disconnect
  cases hs : s0.isConnected <;> simp [hs]

theorem released_catch (n : Notifier) (acts : List Action) (s0 : Session)
    (hb : Action.disconnect ∉ acts) :
    ∃ before1 s,
      (catchAndFinally n acts (some s0)).2.1 = before1 ++ [.disconnect] ∧
      Action.disconnect ∉ before1 ∧
      (catchAndFinally n acts (some s0)).2.2 = some s ∧ s.isConnected = false := by
  have hb2 : Action.disconnect ∉ acts ++ [Action.followUp] := by simp [hb]
  have e : acts ++ [Action.followUp, Action.disconnect] =
      (acts ++ [Action.followUp]) ++ [Action.disconnect] := by simp
  unfold catchAndFinally
  split
  · split
    · rw [e]; exact released_of _ _ s0 hb2
    · rw [e]; exact released_of _ _ s0 hb2
  · exact released_of _ _ s0 hb

/-- C20: on every path on which `checkForNewOTPs` returns or raises, its actions end
with `emailChecker.disconnect()`, which occurs nowhere before (so exactly once and after
every mail-store operation), and afterwards the `isConnected` flag of the checker's
connection is false. -/
theorem checkForNewOTPs_disconnects_once (toLowerCase : Str → Str) (store : MailStore)
    (targetEmail : Option Str) (n : Notifier) (now : Int) (fuel : Nat)
    (outcome : CheckOutcome)
    (h : (checkForNewOTPs toLowerCase store targetEmail n now fuel).1 = some outcome) :
    ∃ before s,
      (checkForNewOTPs toLowerCase store targetEmail n now fuel).2.1 =
        before ++ [.disconnect] ∧
      Action.disconnect ∉ before ∧
      (checkForNewOTPs toLowerCase store targetEmail n now fuel).2.2 = some s ∧
      s.isConnected = false := by
  have hm := disconnect_not_mail
    (waitForVerificationEmail toLowerCase store targetEmail ⟨some 100, none⟩ fuel).2
  have hm1 : ∀ x, x ≠ Action.disconnect → Action.disconnect ∉
      (waitForVerificationEmail toLowerCase store targetEmail ⟨some 100, none⟩ fuel).2.map
        Action.mail ++ [x] := by
    intro x hx
    simp only [List.mem_append, List.mem_singleton, not_or]
    exact ⟨hm, fun h0 => hx h0.symm⟩
  have e : ∀ (acts : List Action) x, acts ++ [x, Action.disconnect] =
      (acts ++ [x]) ++ [Action.disconnect] := by
    intro acts x; simp
  unfold checkForNewOTPs at h ⊢
  simp only at h ⊢
  cases hw : (waitForVerificationEmail toLowerCase store targetEmail ⟨some 100, none⟩ fuel).1 with
  | none => rw [hw] at h; cases h
  | some r =>
    clear h
    cases hc : store.connect with
    | error m =>
      cases r with
      | found codes primary waitTime =>
        simp only
        split
        · exact released_catch n _ _ (hm1 _ (by simp))
        · rw [e]; exact released_of _ _ _ (hm1 _ (by simp))
      | failed err =>
        simp only
        split
        · split
          · exact released_catch n _ _ (hm1 _ (by simp))
          · rw [e]; exact released_of _ _ _ (hm1 _ (by simp))
        · exact released_of _ _ _ hm
    | ok u =>
      cases r with
      | found codes primary waitTime =>
        simp only
        split
        · exact released_catch n _ _ (hm1 _ (by simp))
        · rw [e]; exact released_of _ _ _ (hm1 _ (by simp))
      | failed err =>
        simp only
        split
        · split
          · exact released_catch n _ _ (hm1 _ (by simp))
          · rw [e]; exact released_of _ _ _ (hm1 _ (by simp))
        · exact released_of _ _ _ hm

/-- C20, witness: a code is found and `sendOTPToDiscord` raises; the `catch` block
replies and `disconnect` still runs, once and last. -/
theorem checkForNewOTPs_disconnects_once_witness :
    checkForNewOTPs asciiLower (storeWith (uberMessage "Your code: 1234")) alice
        ⟨true, true, false, false⟩ 1000 0 =
        (some (.returned [] none),
          [.mail .connectImap, .mail (.searchEmails 0), .mail (.fetchEmails [1]),
            .sendOTPToDiscord, .followUp, .disconnect],
          some ⟨1000, false, true⟩) ∧
      ∃ before s,
        (checkForNewOTPs asciiLower (storeWith (uberMessage "Your code: 1234")) alice
          ⟨true, true, false, false⟩ 1000 0).2.1 = before ++ [.disconnect] ∧
        Action.disconnect ∉ before ∧
        (checkForNewOTPs asciiLower (storeWith (uberMessage "Your code: 1234")) alice
          ⟨true, true, false, false⟩ 1000 0).2.2 = some s ∧
        s.isConnected = false :=
  ⟨by decide,
    checkForNewOTPs_disconnects_once asciiLower (storeWith (uberMessage "Your code: 1234"))
      alice ⟨true, true, false, false⟩ 1000 0 (.returned [] none) (by decide)⟩

/-! ## Claims on the extractor variants and on failures of extraction -/

/-- C29: the second pass over `generalPatterns` never produces a code: for every message
and target, `extractVerificationCodes` returns what the variant without that loop
returns. -/
theorem second_general_pass_is_dead (toLowerCase : Str → Str) (e : EmailContent)
    (targetEmail : Option Str) :
    extractVerificationCodes toLowerCase e targetEmail =
      extractVerificationCodesOnePass toLowerCase e targetEmail := by
  unfold extractVerificationCodes extractVerificationCodesOnePass
  cases e.subject with
  | none => rfl
  | some subject =>
    simp only
    split
    · cases e.text with
      | none => rfl
      | some text =>
        simp only
        cases anchoredLoop (mkCandidate e targetEmail .priority) text priorityPatterns with
        | error err => rfl
        | ok r =>
          cases r with
          | some c => rfl
          | none =>
            simp only
            cases anchoredLoop (mkCandidate e targetEmail .specific) text specificPatterns with
            | error err => rfl
            | ok r =>
              cases r with
              | some c => rfl
              | none =>
                simp only
                cases hg : generalLoop (mkCandidate e targetEmail .general) text
                  generalPatterns with
                | some c => rfl
                | none => rfl
    · rfl

/-- C24 (failing input): a fetched message without a `Subject` header makes
`extractVerificationCodes` raise `TypeError` at `emailContent.subject.toLowerCase()`, and
an eligible message without a plain-text body makes it raise at
`emailContent.text.substring`; neither returns a list. -/
theorem extraction_raises_on_absent_field :
    extractVerificationCodes asciiLower
        ⟨none, "admin@uber.com".toList, "alice@catchall.test".toList,
          some "Your code: 1234".toList, none, some 0⟩ alice = .error .typeError ∧
      extractVerificationCodes asciiLower
        ⟨some "Your Uber verification code".toList, "admin@uber.com".toList,
          "alice@catchall.test".toList, none, some "<b>1234</b>".toList, some 0⟩ alice =
        .error .typeError := by
  constructor <;> decide

/-- C27 (failing input): a message with the recognised subject addressed to
`bob@catchall.test`, asked for target `alice@catchall.test`.  `extractOTPCodes` of
`index.js` returns nothing (the recipient does not contain the target), the copy in
`test-otp-fix.js` returns the code `1234`. -/
theorem test_copy_differs_from_main_bot :
    extractOTPCodes asciiLower (messageToBob "Your code: 1234") alice = .ok [] ∧
      extractOTPCodesTest asciiLower (messageToBob "Your code: 1234") alice =
        .ok [mkCandidate (messageToBob "Your code: 1234") alice .priority "1234".toList] := by
  constructor <;> decide

/-- The two copies of `extractOTPCodes` agree whenever the recipient test of `index.js`
holds. -/
theorem test_copy_agrees_on_target (toLowerCase : Str → Str) (e : EmailContent)
    (targetEmail : Option Str)
    (h : isTargetEmail toLowerCase e.recipient targetEmail = true) :
    extractOTPCodesTest toLowerCase e targetEmail = extractOTPCodes toLowerCase e targetEmail := by
  unfold extractOTPCodesTest extractOTPCodes
  cases e.subject with
  | none => rfl
  | some subject =>
    simp only [h, Bool.and_true]

/-! ## What stands around a returned code -/

theorem not_digit_of_not_word (o : Option Char) (h : isWordAt o = false) (c : Char)
    (hc : o = some c) : isDigit c = false := by
  subst hc
  cases hd : isDigit c with
  | false => rfl
  | true =>
    have hw : isWordAt (some c) = true := isWordChar_of_isDigit c hd
    rw [h] at hw
    cases hw

theorem bareToken_maximal (n : Nat) (body : Str) (i : Nat) (ds : Str)
    (h : BareTokenAt n body i ds) :
    ∃ pre post, body = pre ++ ds ++ post ∧ NoDigitBehind pre ∧ NoDigitAhead post := by
  obtain ⟨pre, post, hb, _, _, _, hl, hr⟩ := h
  exact ⟨pre, post, hb, not_digit_of_not_word _ hl, not_digit_of_not_word _ hr⟩

theorem firstMatch_bareDigits_maximal (n : Nat) (hn : 0 < n) (body m : Str)
    (h : firstMatch (bareDigits n) body = some m) :
    ∃ pre post, body = pre ++ m ++ post ∧ NoDigitBehind pre ∧ NoDigitAhead post := by
  unfold firstMatch at h
  cases hx : (bareDigits n).exec body with
  | none => rw [hx] at h; cases h
  | some r =>
    obtain ⟨i, m1⟩ := r
    rw [hx] at h
    have hm : m1 = m := by simpa using h
    subst hm
    exact bareToken_maximal n body i m1 ((exec_bareDigits_iff n hn body i m1).1 hx).1

theorem anchored_noDigitBehind (phrases : List String) (p : Char → Bool)
    (hp : ∀ c, p c = true → isDigit c = false)
    (hph : ∀ ph ∈ phrases, ∀ c ∈ ph.toList.map Char.toUpper, isDigit c = false)
    (hne : ∀ ph ∈ phrases, 0 < ph.toList.length)
    (body pre w gap ds post : Str) (h : Anchored phrases p body pre w gap ds post) :
    NoDigitBehind (pre ++ w ++ gap) := by
  obtain ⟨_, ⟨ph, hmem, hw⟩, hgap, _⟩ := h
  intro c hc
  have hwd : ∀ c ∈ w, isDigit c = false := not_digit_of_upper_eq w ph.toList hw (hph ph hmem)
  have hlen : w.length = ph.toList.length := by
    have := congrArg List.length hw
    simpa using this
  have hwne : w ≠ [] := by
    intro h0
    have := hne ph hmem
    rw [← hlen, h0] at this
    cases this
  rw [List.append_assoc, List.getLast?_append] at hc
  have hwg : (w ++ gap).getLast? ≠ none := by
    intro h0
    rw [List.getLast?_eq_none_iff] at h0
    exact hwne (List.append_eq_nil.1 h0).1
  cases hx : (w ++ gap).getLast? with
  | none => exact absurd hx hwg
  | some d =>
    rw [hx] at hc
    have hcd : d = c := by simpa using hc
    subst hcd
    rcases List.mem_append.1 (List.mem_of_getLast?_eq_some hx) with hm | hm
    · exact hwd d hm
    · exact hp d (hgap d hm)

theorem priorityPhrases_nonempty : ∀ ph ∈ priorityPhrases, 0 < ph.toList.length := by decide

theorem specificPhrases_nonempty : ∀ ph ∈ specificPhrases, 0 < ph.toList.length := by decide

/-- Where the code of the cascade stands in the body. -/
theorem tierCascade_position (e : EmailContent) (targetEmail : Option Str) (body : Str)
    (c : CandidateCode) (l : List CandidateCode)
    (h : tierCascade e targetEmail body = .ok (c :: l)) :
    ∃ pre post, body = pre ++ c.code ++ post ∧ NoDigitBehind pre ∧
      (c.code.length = 6 ∨ NoDigitAhead post) ∧ (c.pattern = .general → NoDigitAhead post) := by
  rcases tierCascade_cases e targetEmail body with
    ⟨pre, w, gap, ds, post, ha, hd, hr⟩ | ⟨_, pre, w, gap, ds, post, ha, hd, hr⟩ | ⟨hp, hs, _⟩
  · rw [hr] at h
    have hc : c = mkCandidate e targetEmail .priority ds := by
      injection h with h1
      injection h1 with h2 h3
      exact h2.symm
    subst hc
    refine ⟨pre ++ w ++ gap, post, ha.1, ?_, hd, fun hg => by cases hg⟩
    exact anchored_noDigitBehind priorityPhrases isSep isSep_not_digit priorityPhrases_no_digit
      priorityPhrases_nonempty body pre w gap ds post ha
  · rw [hr] at h
    have hc : c = mkCandidate e targetEmail .specific ds := by
      injection h with h1
      injection h1 with h2 h3
      exact h2.symm
    subst hc
    refine ⟨pre ++ w ++ gap, post, ha.1, ?_, hd, fun hg => by cases hg⟩
    exact anchored_noDigitBehind specificPhrases isNonDigit isNonDigit_not_digit
      specificPhrases_no_digit specificPhrases_nonempty body pre w gap ds post ha
  · have hg := tierCascade_general e targetEmail body hp hs
    rw [h] at hg
    cases h4 : firstMatch (bareDigits 4) body with
    | some m =>
      rw [h4] at hg
      have hc : c = mkCandidate e targetEmail .general m := by
        injection hg with h1
        injection h1 with h2 h3
      subst hc
      obtain ⟨pre, post, hb, h1, h2⟩ := firstMatch_bareDigits_maximal 4 (by decide) body m h4
      exact ⟨pre, post, hb, h1, Or.inr h2, fun _ => h2⟩
    | none =>
      rw [h4] at hg
      cases h6 : firstMatch (bareDigits 6) body with
      | some m =>
        rw [h6] at hg
        have hc : c = mkCandidate e targetEmail .general m := by
          injection hg with h1
          injection h1 with h2 h3
        subst hc
        obtain ⟨pre, post, hb, h1, h2⟩ := firstMatch_bareDigits_maximal 6 (by decide) body m h6
        exact ⟨pre, post, hb, h1, Or.inr h2, fun _ => h2⟩
      | none =>
        rw [h6] at hg
        injection hg with h1
        cases h1

/-- C28 (amended): every code returned by `extractVerificationCodes` occurs in the body
right after a code unit that is not a digit (or at the start); in the general tier no
digit follows it either; in the priority and specific tiers a digit can follow it only
when the code has six digits. -/
theorem code_starts_a_digit_run (toLowerCase : Str → Str) (e : EmailContent)
    (targetEmail : Option Str) (body : Str) (l : List CandidateCode) (c : CandidateCode)
    (ht : e.text = some body)
    (h : extractVerificationCodes toLowerCase e targetEmail = .ok l) (hc : c ∈ l) :
    ∃ pre post, body = pre ++ c.code ++ post ∧ NoDigitBehind pre ∧
      (c.code.length = 6 ∨ NoDigitAhead post) ∧ (c.pattern = .general → NoDigitAhead post) := by
  cases l with
  | nil => cases hc
  | cons d l1 =>
    obtain ⟨_, body1, hb1, hcas⟩ := extract_nonempty toLowerCase e targetEmail d l1 h
    rw [ht] at hb1
    injection hb1 with hb2
    subst hb2
    have hone : l1 = [] := by
      rcases extract_ok toLowerCase e targetEmail (d :: l1) h with h0 | ⟨code, tier, _, h1⟩
      · cases h0
      · injection h1 with _ h2
    subst hone
    have hcd : c = d := by simpa using hc
    subst hcd
    exact tierCascade_position e targetEmail body c [] hcas

theorem code_starts_a_digit_run_witness :
    ∃ pre post, "Your code: 1234".toList =
        pre ++ (mkCandidate (uberMessage "Your code: 1234") alice .priority "1234".toList).code ++
          post ∧ NoDigitBehind pre ∧
      ((mkCandidate (uberMessage "Your code: 1234") alice .priority "1234".toList).code.length = 6 ∨
        NoDigitAhead post) ∧
      ((mkCandidate (uberMessage "Your code: 1234") alice .priority "1234".toList).pattern =
        .general → NoDigitAhead post) :=
  code_starts_a_digit_run asciiLower (uberMessage "Your code: 1234") alice
    "Your code: 1234".toList
    [mkCandidate (uberMessage "Your code: 1234") alice .priority "1234".toList]
    (mkCandidate (uberMessage "Your code: 1234") alice .priority "1234".toList)
    rfl (by decide) (List.mem_singleton.2 rfl)

/-- C28 (counterexample): for the body `code 1234567` the returned code is `123456`, and
at no place of the body does `123456` stand as a complete number: its only occurrence is
followed by the digit `7`. -/
theorem code_cut_from_longer_run_counterexample :
    extractVerificationCodes asciiLower (uberMessage "code 1234567") alice =
        .ok [mkCandidate (uberMessage "code 1234567") alice .priority "123456".toList] ∧
      ¬ ∃ pre post, "code 1234567".toList = pre ++ "123456".toList ++ post ∧
          NoDigitBehind pre ∧ NoDigitAhead post := by
  refine ⟨by decide, ?_⟩
  rintro ⟨pre, post, hb, _, ha⟩
  have hlen : pre.length + 6 + post.length = 12 := by
    have := congrArg List.length hb
    simp only [List.length_append] at this
    exact this.symm
  have hdrop : ("code 1234567".toList).drop pre.length = "123456".toList ++ post := by
    rw [hb, List.append_assoc, List.drop_left]
  have key : ∀ n, n ≤ 6 → ∀ k, k < 6 →
      (("code 1234567".toList).drop n).get? k = ("123456".toList).get? k → n = 5 := by
    decide
  have h0 : (("code 1234567".toList).drop pre.length).get? 0 = ("123456".toList).get? 0 := by
    rw [hdrop]
    rfl
  have h5 : pre.length = 5 := key pre.length (by omega) 0 (by decide) h0
  rw [h5] at hdrop
  have hpost : post = ['7'] := by
    have h1 : (("code 1234567".toList).drop 5).drop 6 = post := by
      rw [hdrop]
      exact List.drop_left' rfl
    rw [← h1]
    decide
  subst hpost
  have h7 := ha '7' rfl
  revert h7
  decide

/-! ## The address pattern -/

/-- Completeness of the repeat matcher: any admissible number of class members after
which the continuation succeeds makes the matcher succeed. -/
theorem quantMatch_complete (p : Char → Bool) (g : Bool) (k : Cont) :
    ∀ (xs rest : Str) (min : Nat) (max : Option Nat) (prev : Option Char),
      (∀ c ∈ xs, p c = true) → min ≤ xs.length → (∀ M, max = some M → xs.length ≤ M) →
      (k (lastOr prev xs) rest).isSome = true →
      (quantMatch p g k min max prev (xs ++ rest)).isSome = true := by
  intro xs
  induction xs with
  | nil =>
    intro rest min max prev _ hmin _ hk
    have h0 : min = 0 := by simpa using hmin
    subst h0
    simp only [lastOr] at hk
    cases rest with
    | nil => simpa [quantMatch] using hk
    | cons d ds =>
      simp only [List.nil_append, quantMatch]
      split
      · cases g with
        | true =>
          simp only [if_true]
          cases quantMatch p true k (0 - 1) (max.map (· - 1)) (some d) ds with
          | some r => rfl
          | none => simpa using hk
        | false =>
          simp only [Bool.false_eq_true, if_false, if_true]
          cases hk1 : k prev (d :: ds) with
          | some r => rfl
          | none => rw [hk1] at hk; cases hk
      · simpa using hk
  | cons x xs ih =>
    intro rest min max prev hp hmin hmax hk
    have hx : p x = true := hp x (List.mem_cons_self _ _)
    have hmax0 : (max != some 0) = true := by
      cases max with
      | none => rfl
      | some M =>
        have := hmax M rfl
        simp only [List.length_cons] at this
        have hM : M ≠ 0 := by omega
        simpa using hM
    have hrec : (quantMatch p g k (min - 1) (max.map (· - 1)) (some x) (xs ++ rest)).isSome =
        true := by
      apply ih rest (min - 1) (max.map (· - 1)) (some x)
      · exact fun c hc => hp c (List.mem_cons_of_mem _ hc)
      · simp only [List.length_cons] at hmin
        omega
      · intro M hM
        cases max with
        | none => cases hM
        | some M1 =>
          have := hmax M1 rfl
          simp only [List.length_cons] at this
          simp only [Option.map_some', Option.some.injEq] at hM
          omega
      · exact hk
    simp only [List.cons_append, quantMatch, hx, hmax0, Bool.and_self, if_true]
    cases hq : quantMatch p g k (min - 1) (max.map (· - 1)) (some x) (xs ++ rest) with
    | none => rw [hq] at hrec; cases hrec
    | some r =>
      cases g with
      | true => rfl
      | false =>
        simp only [Bool.false_eq_true, if_false]
        cases (if min = 0 then k prev (x :: (xs ++ rest)) else none) with
        | some r1 => rfl
        | none => rfl

theorem lastOr_none_eq_none (pre : Str) (h : lastOr none pre = none) : pre = [] := by
  cases pre with
  | nil => rfl
  | cons c cs =>
    exfalso
    have key : ∀ (l : Str) (d : Char), lastOr (some d) l ≠ none := by
      intro l
      induction l with
      | nil => intro d hd; cases hd
      | cons e es ih => intro d; exact ih e
    exact key cs c h

theorem isAddrChar_iff (c : Char) : isAddrChar c = true ↔ isSpace c = false ∧ c ≠ '@' := by
  unfold isAddrChar
  cases isSpace c <;> simp

theorem matchNodes_cls (ic : Bool) (p : Char → Bool) (min : Nat) (max : Option Nat)
    (g : Bool) (ns : List Node) :
    matchNodes ic (.cls p min max g :: ns) = quantMatch p g (matchNodes ic ns) min max := rfl

theorem matchNodes_lineStart (ic : Bool) (ns : List Node) (prev : Option Char) (input : Str) :
    matchNodes ic (.lineStart :: ns) prev input =
      if prev.isNone then matchNodes ic ns prev input else none := rfl

theorem matchNodes_lineEnd (ic : Bool) (ns : List Node) (prev : Option Char) (input : Str) :
    matchNodes ic (.lineEnd :: ns) prev input =
      if input.isEmpty then matchNodes ic ns prev input else none := rfl

theorem matchNodes_char_some (ic : Bool) (c : Char) (ns : List Node) (prev : Option Char)
    (input m : Str) (h : matchNodes ic (.char c :: ns) prev input = some m) :
    ∃ d ds r, input = d :: ds ∧ canonicalize ic d = canonicalize ic c ∧
      matchNodes ic ns (some d) ds = some r ∧ m = d :: r := by
  cases input with
  | nil => simp [matchNodes] at h
  | cons d ds =>
    simp only [matchNodes] at h
    split at h
    · rename_i hc
      cases hr : matchNodes ic ns (some d) ds with
      | none => rw [hr] at h; cases h
      | some r =>
        rw [hr] at h
        exact ⟨d, ds, r, rfl, hc, hr, by simpa using h.symm⟩
    · cases h

theorem matchNodes_char_isSome (ic : Bool) (c : Char) (ns : List Node) (prev : Option Char)
    (ds : Str) (h : (matchNodes ic ns (some c) ds).isSome = true) :
    (matchNodes ic (.char c :: ns) prev (c :: ds)).isSome = true := by
  simp only [matchNodes, if_true]
  cases hr : matchNodes ic ns (some c) ds with
  | none => rw [hr] at h; cases h
  | some r => rfl

theorem split_append_sep (sep : Char) (r : Str) :
    ∀ l : Str, (∀ c ∈ l, c ≠ sep) → split sep (l ++ sep :: r) = l :: split sep r := by
  intro l
  induction l with
  | nil => intro _; simp [split]
  | cons c l ih =>
    intro h
    have hc : c ≠ sep := h c (List.mem_cons_self _ _)
    have := ih fun d hd => h d (List.mem_cons_of_mem _ hd)
    simp only [List.cons_append, split, if_neg hc, List.append_eq, this]

theorem split_no_sep (sep : Char) :
    ∀ r : Str, (∀ c ∈ r, c ≠ sep) → split sep r = [r] := by
  intro r
  induction r with
  | nil => intro _; rfl
  | cons c r ih =>
    intro h
    have hc : c ≠ sep := h c (List.mem_cons_self _ _)
    have := ih fun d hd => h d (List.mem_cons_of_mem _ hd)
    simp only [split, if_neg hc, this]

/-- The text after the `@` is what `split('@')[1]` returns for a well-formed address. -/
theorem split_wellFormed (email l dom : Str) (h : WellFormedAddress email l dom) :
    (split '@' email).get? 1 = some dom := by
  obtain ⟨he, _, hl, hd, _⟩ := h
  rw [he, split_append_sep '@' dom l (fun c hc => (hl c hc).2),
    split_no_sep '@' dom (fun c hc => (hd c hc).2)]
  rfl

/-- The pattern `/^[^\s@]+@[^\s@]+\.[^\s@]+$/` accepts exactly the well-formed
addresses. -/
theorem emailRegex_test_iff (email : Str) :
    emailRegex.test email = true ↔ ∃ l dom, WellFormedAddress email l dom := by
  constructor
  · intro h
    unfold RegExp.test at h
    cases hx : emailRegex.exec email with
    | none => rw [hx] at h; cases h
    | some r =>
      obtain ⟨i, m⟩ := r
      obtain ⟨pre, rest, hb, _, hm⟩ := ((exec_some_iff emailRegex email i m).1 hx).1
      simp only [emailRegex] at hm
      rw [matchNodes_lineStart] at hm
      split at hm
      swap
      · cases hm
      rename_i hprev
      have hpre : pre = [] := by
        apply lastOr_none_eq_none
        cases hlo : lastOr none pre with
        | none => rfl
        | some d => rw [hlo] at hprev; cases hprev
      subst hpre
      simp only [List.nil_append] at hb
      subst hb
      rw [matchNodes_cls] at hm
      obtain ⟨l, rest1, r1, h1, hl, hlen, _, hk1, _⟩ := quantMatch_sound _ _ _ _ _ _ _ _ hm
      obtain ⟨d, ds, r2, h2, hc2, hk2, _⟩ := matchNodes_char_some _ _ _ _ _ _ hk1
      simp only [canonicalize, Bool.false_eq_true, if_false] at hc2
      subst hc2
      rw [matchNodes_cls] at hk2
      obtain ⟨d1, rest3, r3, h3, hd1, hlen1, _, hk3, _⟩ := quantMatch_sound _ _ _ _ _ _ _ _ hk2
      obtain ⟨e, es, r4, h4, hc4, hk4, _⟩ := matchNodes_char_some _ _ _ _ _ _ hk3
      simp only [canonicalize, Bool.false_eq_true, if_false] at hc4
      subst hc4
      rw [matchNodes_cls] at hk4
      obtain ⟨d2, rest5, r5, h5, hd2, hlen2, _, hk5, _⟩ := quantMatch_sound _ _ _ _ _ _ _ _ hk4
      have hrest5 : rest5 = [] := by
        cases rest5 with
        | nil => rfl
        | cons a as => simp [matchNodes_lineEnd] at hk5
      subst hrest5
      rw [List.append_nil] at h5
      subst h5 h4 h3 h2
      refine ⟨l, d1 ++ '.' :: es, h1, ?_, ?_, ?_, d1, es, rfl, ?_, ?_⟩
      · intro h0; subst h0; simp at hlen
      · exact fun c hc => (isAddrChar_iff c).1 (hl c hc)
      · intro c hc
        rcases List.mem_append.1 hc with hc1 | hc1
        · exact (isAddrChar_iff c).1 (hd1 c hc1)
        · rcases List.mem_cons.1 hc1 with hc2 | hc2
          · subst hc2; decide
          · exact (isAddrChar_iff c).1 (hd2 c hc2)
      · intro h0; subst h0; simp at hlen1
      · intro h0; subst h0; simp at hlen2
  · rintro ⟨l, dom, he, hl0, hl, hd, d1, d2, hdom, hd1, hd2⟩
    subst hdom
    have pos : ∀ xs : Str, xs ≠ [] → 1 ≤ xs.length := by
      intro xs hxs
      cases xs with
      | nil => exact absurd rfl hxs
      | cons a as => simp
    have a3 : ∀ prev, (quantMatch isAddrChar true (matchNodes false [.lineEnd]) 1 none prev
        (d2 ++ [])).isSome = true := by
      intro prev
      apply quantMatch_complete
      · exact fun c hc => (isAddrChar_iff c).2
          (hd c (List.mem_append_right _ (List.mem_cons_of_mem _ hc)))
      · exact pos d2 hd2
      · intro M hM; cases hM
      · simp [matchNodes]
    rw [List.append_nil] at a3
    have a2 : ∀ prev, (quantMatch isAddrChar true
        (matchNodes false [.char '.', .cls isAddrChar 1 none true, .lineEnd]) 1 none prev
        (d1 ++ '.' :: d2)).isSome = true := by
      intro prev
      apply quantMatch_complete
      · exact fun c hc => (isAddrChar_iff c).2 (hd c (List.mem_append_left _ hc))
      · exact pos d1 hd1
      · intro M hM; cases hM
      · apply matchNodes_char_isSome
        rw [matchNodes_cls]
        exact a3 _
    have a1 : (quantMatch isAddrChar true
        (matchNodes false [.char '@', .cls isAddrChar 1 none true, .char '.',
          .cls isAddrChar 1 none true, .lineEnd]) 1 none none
        (l ++ '@' :: (d1 ++ '.' :: d2))).isSome = true := by
      apply quantMatch_complete
      · exact fun c hc => (isAddrChar_iff c).2 (hl c hc)
      · exact pos l hl0
      · intro M hM; cases hM
      · apply matchNodes_char_isSome
        rw [matchNodes_cls]
        exact a2 _
    unfold RegExp.test
    cases hx : emailRegex.exec email with
    | some r => rfl
    | none =>
      exfalso
      cases hm : quantMatch isAddrChar true
        (matchNodes false [.char '@', .cls isAddrChar 1 none true, .char '.',
          .cls isAddrChar 1 none true, .lineEnd]) 1 none none
        (l ++ '@' :: (d1 ++ '.' :: d2)) with
      | none => rw [hm] at a1; cases a1
      | some m =>
        refine (exec_none_iff emailRegex email).1 hx 0 m ⟨[], email, rfl, rfl, ?_⟩
        rw [he]
        simp only [emailRegex]
        rw [matchNodes_lineStart, matchNodes_cls]
        exact hm

/-! ## Claims on address validation -/

theorem validateV1_wellFormed (supportedDomains : List Str) (email l dom : Str)
    (h : WellFormedAddress email l dom) :
    validateCatchAllEmailV1 supportedDomains email =
      if dom ∈ supportedDomains then ⟨true, none, some dom⟩
      else ⟨false,
        some ("Only supported domains: ".toList ++ join ", ".toList supportedDomains), none⟩ := by
  have ht : emailRegex.test email = true := (emailRegex_test_iff email).2 ⟨l, dom, h⟩
  unfold validateCatchAllEmailV1
  rw [ht, split_wellFormed email l dom h]
  by_cases hd : dom ∈ supportedDomains
  · simp [hd]
  · simp [hd]

theorem validateV1_illFormed (supportedDomains : List Str) (email : Str)
    (h : ¬ ∃ l dom, WellFormedAddress email l dom) :
    validateCatchAllEmailV1 supportedDomains email =
      ⟨false, some "Invalid email format".toList, none⟩ := by
  have ht : emailRegex.test email = false := by
    cases hx : emailRegex.test email with
    | false => rfl
    | true => exact absurd ((emailRegex_test_iff email).1 hx) h
  unfold validateCatchAllEmailV1
  rw [ht]
  rfl

/-- C22: `validateCatchAllEmail` of `index.js` answers `valid: true` exactly for the
addresses `local@domain` with a non-empty local part, one `@`, no white space, a domain
with a `.` between two non-empty texts, and the domain an element of `SUPPORTED_DOMAINS`;
the `domain` field is then the text after the `@`.  An address that is not of that shape
gets `Invalid email format`, and one of that shape with another domain gets the `Only
supported domains` message. -/
theorem validateCatchAllEmailV1_spec (supportedDomains : List Str) (email : Str) :
    ((validateCatchAllEmailV1 supportedDomains email).valid = true ↔
        ∃ l dom, WellFormedAddress email l dom ∧ dom ∈ supportedDomains) ∧
      (∀ l dom, WellFormedAddress email l dom → dom ∈ supportedDomains →
        validateCatchAllEmailV1 supportedDomains email = ⟨true, none, some dom⟩) ∧
      ((¬ ∃ l dom, WellFormedAddress email l dom) →
        validateCatchAllEmailV1 supportedDomains email =
          ⟨false, some "Invalid email format".toList, none⟩) ∧
      (∀ l dom, WellFormedAddress email l dom → dom ∉ supportedDomains →
        validateCatchAllEmailV1 supportedDomains email =
          ⟨false, some ("Only supported domains: ".toList ++
            join ", ".toList supportedDomains), none⟩) := by
  refine ⟨⟨?_, ?_⟩, ?_, validateV1_illFormed supportedDomains email, ?_⟩
  · intro hv
    by_cases hw : ∃ l dom, WellFormedAddress email l dom
    · obtain ⟨l, dom, h⟩ := hw
      refine ⟨l, dom, h, ?_⟩
      rw [validateV1_wellFormed supportedDomains email l dom h] at hv
      by_cases hd : dom ∈ supportedDomains
      · exact hd
      · rw [if_neg hd] at hv
        cases hv
    · rw [validateV1_illFormed supportedDomains email hw] at hv
      cases hv
  · rintro ⟨l, dom, h, hd⟩
    rw [validateV1_wellFormed supportedDomains email l dom h, if_pos hd]
  · intro l dom h hd
    rw [validateV1_wellFormed supportedDomains email l dom h, if_pos hd]
  · intro l dom h hd
    rw [validateV1_wellFormed supportedDomains email l dom h, if_neg hd]

theorem validateCatchAllEmailV1_spec_witness :
    validateCatchAllEmailV1 SUPPORTED_DOMAINS "alice@bigboyent.xyz".toList =
        ⟨true, none, some "bigboyent.xyz".toList⟩ ∧
      validateCatchAllEmailV1 SUPPORTED_DOMAINS "alice@example.com".toList =
        ⟨false, some "Only supported domains: familyfeastadmin.xyz, bigboyent.xyz".toList,
          none⟩ :=
  ⟨(validateCatchAllEmailV1_spec SUPPORTED_DOMAINS "alice@bigboyent.xyz".toList).2.1
      "alice".toList "bigboyent.xyz".toList
      ⟨rfl, by decide, by decide, by decide, "bigboyent".toList, "xyz".toList, rfl, by decide,
        by decide⟩ (by decide),
    (validateCatchAllEmailV1_spec SUPPORTED_DOMAINS "alice@example.com".toList).2.2.2
      "alice".toList "example.com".toList
      ⟨rfl, by decide, by decide, by decide, "example".toList, "com".toList, rfl, by decide,
        by decide⟩ (by decide)⟩

/-- C21 (failing input): `validateCatchAllEmail` of `index-improved.js` reports
`a@bigboyent.xyz@evil.com` as valid, because `split('@')[1]` is the text between the
first and the second `@`; the text after the last `@` is `evil.com`, which no entry of
`SUPPORTED_DOMAINS` equals, also ignoring case. -/
theorem improved_validator_accepts_foreign_domain :
    validateCatchAllEmail asciiLower SUPPORTED_DOMAINS (some "a@bigboyent.xyz@evil.com".toList) =
        ⟨true, some "Email is valid".toList, none⟩ ∧
      textAfterLastAt "a@bigboyent.xyz@evil.com".toList = "evil.com".toList ∧
      (∀ d ∈ SUPPORTED_DOMAINS,
        asciiLower (textAfterLastAt "a@bigboyent.xyz@evil.com".toList) ≠ asciiLower d) ∧
      validateCatchAllEmailV1 SUPPORTED_DOMAINS "a@bigboyent.xyz@evil.com".toList =
        ⟨false, some "Invalid email format".toList, none⟩ := by
  refine ⟨by decide, by decide, by decide, by decide⟩

/-! ## `checkForNewOTPs` of `index.js`: the most recent code -/

theorem collectOTPs_mem (toLowerCase : Str → Str) (targetEmail : Option Str) :
    ∀ (emails : List EmailContent) (all : List CandidateCode),
      collectOTPs toLowerCase targetEmail emails = .ok all →
      ∀ c ∈ all, ∃ e ∈ emails, ∃ l, extractOTPCodes toLowerCase e targetEmail = .ok l ∧ c ∈ l := by
  intro emails
  induction emails with
  | nil =>
    intro all h c hc
    simp only [collectOTPs] at h
    injection h with h1
    subst h1
    cases hc
  | cons e rest ih =>
    intro all h c hc
    simp only [collectOTPs] at h
    cases he : extractOTPCodes toLowerCase e targetEmail with
    | error err => rw [he] at h; cases h
    | ok otps =>
      rw [he] at h
      cases hr : collectOTPs toLowerCase targetEmail rest with
      | error err => rw [hr] at h; cases h
      | ok more =>
        rw [hr] at h
        simp only at h
        injection h with h1
        subst h1
        rcases List.mem_append.1 hc with h2 | h2
        · exact ⟨e, List.mem_cons_self _ _, otps, he, h2⟩
        · obtain ⟨e1, hm, l, hl, hcl⟩ := ih more hr c h2
          exact ⟨e1, List.mem_cons_of_mem _ hm, l, hl, hcl⟩

theorem collectOTPs_ok (toLowerCase : Str → Str) (targetEmail : Option Str) :
    ∀ emails : List EmailContent,
      (∀ e ∈ emails, extractOTPCodes toLowerCase e targetEmail ≠ .error .typeError) →
      ∃ all, collectOTPs toLowerCase targetEmail emails = .ok all ∧
        ∀ e ∈ emails, ∀ l, extractOTPCodes toLowerCase e targetEmail = .ok l → ∀ c ∈ l, c ∈ all := by
  intro emails
  induction emails with
  | nil => intro _; exact ⟨[], rfl, fun e he => by cases he⟩
  | cons e rest ih =>
    intro h
    obtain ⟨more, hmore, hin⟩ := ih fun x hx => h x (List.mem_cons_of_mem _ hx)
    cases he : extractOTPCodes toLowerCase e targetEmail with
    | error err =>
      cases err
      exact absurd he (h e (List.mem_cons_self _ _))
    | ok otps =>
      refine ⟨otps ++ more, by simp only [collectOTPs, he, hmore], ?_⟩
      intro x hx l hl c hc
      rcases List.mem_cons.1 hx with h1 | h1
      · subst h1
        rw [he] at hl
        injection hl with h2
        subst h2
        exact List.mem_append_left _ hc
      · exact List.mem_append_right _ (hin x h1 l hl c hc)

theorem sortByDate_head (all : List CandidateCode) (m : CandidateCode)
    (rest : List CandidateCode) (h : sortByDate all = m :: rest) :
    m ∈ all ∧ ∀ c ∈ all, dateValue c ≤ dateValue m := by
  haveI : IsTotal CandidateCode (fun a b => dateValue b ≤ dateValue a) :=
    ⟨fun a b => Nat.le_total (dateValue b) (dateValue a)⟩
  haveI : IsTrans CandidateCode (fun a b => dateValue b ≤ dateValue a) :=
    ⟨fun _ _ _ h1 h2 => Nat.le_trans h2 h1⟩
  have hs : List.Sorted (fun a b => dateValue b ≤ dateValue a) (sortByDate all) :=
    List.sorted_insertionSort _ all
  have hp : List.Perm (sortByDate all) all := List.perm_insertionSort _ all
  rw [h] at hs hp
  refine ⟨hp.subset (List.mem_cons_self _ _), fun c hc => ?_⟩
  rcases List.mem_cons.1 (hp.symm.subset hc) with h1 | h1
  · rw [h1]
  · exact List.rel_of_sorted_cons hs c h1

/-- When no extraction raises and the Discord calls succeed, `checkForNewOTPs` of
`index.js` returns nothing if no message yields a code, and otherwise one extracted code
whose date is the latest. -/
theorem checkForNewOTPsV1_most_recent (toLowerCase : Str → Str) (emails : List EmailContent)
    (targetEmail : Option Str) (n : Notifier) (all : List CandidateCode)
    (hall : collectOTPs toLowerCase targetEmail emails = .ok all)
    (hs : n.sendThrows = false) (hf : n.followUpThrows = false) :
    (all = [] ∧ checkForNewOTPsV1 toLowerCase (.ok emails) targetEmail n = .returned [] none) ∨
      ∃ m, checkForNewOTPsV1 toLowerCase (.ok emails) targetEmail n = .returned [m] none ∧
        m ∈ all ∧ ∀ c ∈ all, dateValue c ≤ dateValue m := by
  unfold checkForNewOTPsV1
  simp only [hall, hs, hf, Bool.and_false, Bool.false_eq_true, if_false]
  cases hsort : sortByDate all with
  | nil =>
    left
    have hp : List.Perm (sortByDate all) all := List.perm_insertionSort _ all
    rw [hsort] at hp
    exact ⟨hp.nil_eq.symm, rfl⟩
  | cons m rest =>
    right
    exact ⟨m, rfl, sortByDate_head all m rest hsort⟩

/-! ## Claims on `checkForNewOTPs`, the connection machine and the watch registry of
`index.js` -/

/-- When `extractOTPCodes` raises on no fetched message, every message has a valid date
and the Discord calls succeed, `checkForNewOTPs` of `index.js` returns the empty list if
fetching fails or no message yields a code, and otherwise a list of one code that was
extracted from one of the messages and whose date is at least the date of every extracted
code. -/
theorem most_recent_code_is_returned (toLowerCase : Str → Str) (emails : List EmailContent)
    (targetEmail : Option Str) (n : Notifier)
    (hall : ∀ e ∈ emails, extractOTPCodes toLowerCase e targetEmail ≠ .error .typeError)
    (hdate : ∀ e ∈ emails, e.date ≠ none)
    (hs : n.sendThrows = false) (hf : n.followUpThrows = false)
    (hcf : n.catchFollowUpThrows = false) :
    (∀ msg, checkForNewOTPsV1 toLowerCase (.error msg) targetEmail n = .returned [] none) ∧
      (((∀ e ∈ emails, extractOTPCodes toLowerCase e targetEmail = .ok []) ∧
          checkForNewOTPsV1 toLowerCase (.ok emails) targetEmail n = .returned [] none) ∨
        ∃ m dm, checkForNewOTPsV1 toLowerCase (.ok emails) targetEmail n = .returned [m] none ∧
          (∃ e ∈ emails, ∃ l, extractOTPCodes toLowerCase e targetEmail = .ok l ∧ m ∈ l) ∧
          m.date = some dm ∧
          ∀ e ∈ emails, ∀ l, extractOTPCodes toLowerCase e targetEmail = .ok l →
            ∀ c ∈ l, ∃ d, c.date = some d ∧ d ≤ dm) := by
  have hdateOf : ∀ e ∈ emails, ∀ l, extractOTPCodes toLowerCase e targetEmail = .ok l →
      ∀ c ∈ l, ∃ d, c.date = some d ∧ dateValue c = d := by
    intro e he l hl c hc
    rcases extractOTPCodes_ok toLowerCase e targetEmail l hl with h0 | ⟨code, tier, _, h1⟩
    · subst h0; cases hc
    · subst h1
      have hce : c = mkCandidate e targetEmail tier code := by simpa using hc
      subst hce
      cases hd : e.date with
      | none => exact absurd hd (hdate e he)
      | some d => exact ⟨d, by simp [mkCandidate, hd], by simp [dateValue, mkCandidate, hd]⟩
  refine ⟨fun msg => by simp [checkForNewOTPsV1, catchBlockV1, hcf], ?_⟩
  obtain ⟨all, hcollect, hin⟩ := collectOTPs_ok toLowerCase targetEmail emails hall
  rcases checkForNewOTPsV1_most_recent toLowerCase emails targetEmail n all hcollect hs hf with
    ⟨hnil, hres⟩ | ⟨m, hres, hm, hmax⟩
  · left
    refine ⟨fun e he => ?_, hres⟩
    cases hx : extractOTPCodes toLowerCase e targetEmail with
    | error err =>
      cases err
      exact absurd hx (hall e he)
    | ok l =>
      cases l with
      | nil => rfl
      | cons c cs =>
        have := hin e he (c :: cs) hx c (List.mem_cons_self _ _)
        rw [hnil] at this
        cases this
  · right
    obtain ⟨e, he, l, hl, hml⟩ := collectOTPs_mem toLowerCase targetEmail emails all hcollect m hm
    obtain ⟨dm, hdm, hvm⟩ := hdateOf e he l hl m hml
    refine ⟨m, dm, hres, ⟨e, he, l, hl, hml⟩, hdm, ?_⟩
    intro e1 he1 l1 hl1 c hc
    obtain ⟨d, hd, hvc⟩ := hdateOf e1 he1 l1 hl1 c hc
    refine ⟨d, hd, ?_⟩
    have := hmax c (hin e1 he1 l1 hl1 c hc)
    rw [hvc, hvm] at this
    exact this

/-- C23 (failing input): `checkEmailsForOTP` settles with two messages with valid dates,
one carrying the code `1111` and one without a `Subject` header.  Alone, the first
message makes `checkForNewOTPs` return its code; with the second one in the batch
`extractOTPCodes` raises at `emailContent.subject.toLowerCase()`, the `catch` block runs,
and `checkForNewOTPs` returns the empty list although a message yields a code. -/
theorem most_recent_code_lost_on_raise :
    checkForNewOTPsV1 asciiLower (.ok [datedMessage "Your code: 1111" 10]) alice quietNotifier =
        .returned [mkCandidate (datedMessage "Your code: 1111" 10) alice .priority
          "1111".toList] none ∧
      extractOTPCodes asciiLower (subjectlessMessage 5) alice = .error .typeError ∧
      checkForNewOTPsV1 asciiLower
        (.ok [datedMessage "Your code: 1111" 10, subjectlessMessage 5]) alice quietNotifier =
        .returned [] none := by
  refine ⟨by decide, by decide, by decide⟩

theorem eraseIdx_append_last {α : Type} (a : α) :
    ∀ l : List α, (l ++ [a]).eraseIdx l.length = l := by
  intro l
  induction l with
  | nil => rfl
  | cons x xs ih => simp only [List.cons_append, List.length_cons, List.eraseIdx_cons_succ, ih]

/-- C25: when the `error` handler of a connection runs with a connection-limit error
(`textCode` is `ALERT` and the message contains `Too many simultaneous connections`), the
promise of the request is not settled, no connection is opened, and one timer for the
same request is added, due 5000 ms later, which is more than `CONNECTION_COOLDOWN`; that
timer does nothing before it is due, and when due it runs `checkEmailsForOTP` for the same
request.  With any other error the promise is rejected with the error's message and no
timer is added. -/
theorem connection_limit_schedules_retry (s : ConnState) (now : Int) (i : Nat)
    (textCode : Option Str) (message : Str) (r : Request) (h : errorRequest s i = some r) :
    (isConnectionLimit textCode message = true →
      (step s (.imapError now i (isConnectionLimit textCode message) message)).timers =
          s.timers ++ [⟨now + 5000, r⟩] ∧
        (step s (.imapError now i (isConnectionLimit textCode message) message)).settled =
          s.settled ∧
        (step s (.imapError now i (isConnectionLimit textCode message) message)).opened =
          s.opened ∧
        (step s (.imapError now i (isConnectionLimit textCode message) message)).connectionQueue =
          s.connectionQueue ∧
        CONNECTION_COOLDOWN < 5000 ∧
        (∀ t, t < now + 5000 →
          step (step s (.imapError now i (isConnectionLimit textCode message) message))
              (.timeout t s.timers.length) =
            step s (.imapError now i (isConnectionLimit textCode message) message)) ∧
        (∀ t, now + 5000 ≤ t →
          step (step s (.imapError now i (isConnectionLimit textCode message) message))
              (.timeout t s.timers.length) =
            checkEmailsForOTP
              { s with isConnecting := false, emailConnection := none,
                       conns := errorConn s.conns i } t r)) ∧
      (isConnectionLimit textCode message = false →
        (step s (.imapError now i (isConnectionLimit textCode message) message)).settled =
            s.settled ++ [(r.promise, .rejected message)] ∧
          (step s (.imapError now i (isConnectionLimit textCode message) message)).timers =
            s.timers) := by
  constructor
  · intro hl
    rw [hl]
    have hstep : step s (.imapError now i true message) =
        { s with isConnecting := false, emailConnection := none,
                 conns := errorConn s.conns i,
                 timers := s.timers ++ [⟨now + 5000, r⟩] } := by
      simp only [step, h, if_true]
    have hget : (s.timers ++ [(⟨now + 5000, r⟩ : Timer)]).get? s.timers.length =
        some ⟨now + 5000, r⟩ := by
      simp
    rw [hstep]
    refine ⟨rfl, rfl, ?_, rfl, by decide, ?_, ?_⟩
    · simp only [ConnState.opened, errorConn_opened]
    · intro t ht
      simp only [step, hget]
      rw [if_neg (by omega)]
    · intro t ht
      simp only [step, hget]
      rw [if_pos ht]
      congr 1
      simp only [eraseIdx_append_last]
  · intro hl
    rw [hl]
    simp only [step, h, Bool.false_eq_true, if_false, and_self]

theorem connection_limit_schedules_retry_witness :
    (step (run [.call 5000 ⟨alice, 0⟩])
        (.imapError 5300 0 (isConnectionLimit (some "ALERT".toList)
          "Too many simultaneous connections. (Failure)".toList)
          "Too many simultaneous connections. (Failure)".toList)).timers =
      (run [.call 5000 ⟨alice, 0⟩]).timers ++ [⟨5300 + 5000, ⟨alice, 0⟩⟩] :=
  ((connection_limit_schedules_retry (run [.call 5000 ⟨alice, 0⟩]) 5300 0
    (some "ALERT".toList) "Too many simultaneous connections. (Failure)".toList ⟨alice, 0⟩
    (by decide)).1 (by decide)).1

/-- C26 (failing input): a request is queued while a check is in progress (`call` at
7100 after the connection opened at 5000).  When that check ends with an empty search
result, or with an `openBox`, search, fetch or connection error, the request stays in
`connectionQueue`, with `isConnecting` false, no timer pending and its promise (1) not
settled; only the `end` of a fetch takes it out and schedules it. -/
theorem queued_request_stranded :
    (run [.call 5000 ⟨alice, 0⟩, .call 7100 ⟨alice, 1⟩, .searchEmpty 0]).connectionQueue =
        [⟨alice, 1⟩] ∧
      (run [.call 5000 ⟨alice, 0⟩, .call 7100 ⟨alice, 1⟩, .searchEmpty 0]).isConnecting =
        false ∧
      (run [.call 5000 ⟨alice, 0⟩, .call 7100 ⟨alice, 1⟩, .searchEmpty 0]).timers = [] ∧
      (run [.call 5000 ⟨alice, 0⟩, .call 7100 ⟨alice, 1⟩, .searchEmpty 0]).settled =
        [(0, .resolved [])] ∧
      (∀ ev ∈ [Event.openBoxError 0 "x".toList, Event.searchError 0 "x".toList,
          Event.fetchError 0 "x".toList, Event.imapError 7200 0 false "x".toList],
        (run [.call 5000 ⟨alice, 0⟩, .call 7100 ⟨alice, 1⟩, ev]).connectionQueue =
            [⟨alice, 1⟩] ∧
          (run [.call 5000 ⟨alice, 0⟩, .call 7100 ⟨alice, 1⟩, ev]).isConnecting = false ∧
          (run [.call 5000 ⟨alice, 0⟩, .call 7100 ⟨alice, 1⟩, ev]).timers = [] ∧
          (run [.call 5000 ⟨alice, 0⟩, .call 7100 ⟨alice, 1⟩, ev]).settled =
            [(0, .rejected "x".toList)]) ∧
      (run [.call 5000 ⟨alice, 0⟩, .call 7100 ⟨alice, 1⟩, .fetchEnd 7200 0 []]).connectionQueue =
        [] ∧
      (run [.call 5000 ⟨alice, 0⟩, .call 7100 ⟨alice, 1⟩, .fetchEnd 7200 0 []]).timers =
        [⟨7200 + CONNECTION_COOLDOWN, ⟨alice, 1⟩⟩] := by
  refine ⟨by decide, by decide, by decide, by decide, by decide, by decide, by decide⟩

/-- C30 (failing input): user 7 gives `/watchotp` twice and then `/stopwatch`: the
registry is empty and the interval of the first watcher is still running.  And user 7
gives `/watchotp`, `/stopwatch`, `/watchotp` again, and then the timeout of the first
watcher fires: it removes the registry entry of the second watcher, whose interval keeps
running, so that a later `/stopwatch` and the second watcher's own timeout leave it
running. -/
theorem unrecorded_interval_keeps_running :
    (runWatch [.watchotp 7 "a@bigboyent.xyz".toList, .watchotp 7 "b@bigboyent.xyz".toList,
        .stopwatch 7]).activeWatchers = [] ∧
      runningOf (runWatch [.watchotp 7 "a@bigboyent.xyz".toList,
        .watchotp 7 "b@bigboyent.xyz".toList, .stopwatch 7]) 7 = [0] ∧
      (runWatch [.watchotp 7 "a@bigboyent.xyz".toList, .stopwatch 7,
        .watchotp 7 "b@bigboyent.xyz".toList]).activeWatchers = [(7, 1)] ∧
      (runWatch [.watchotp 7 "a@bigboyent.xyz".toList, .stopwatch 7,
        .watchotp 7 "b@bigboyent.xyz".toList, .timeout 0]).activeWatchers = [] ∧
      runningOf (runWatch [.watchotp 7 "a@bigboyent.xyz".toList, .stopwatch 7,
        .watchotp 7 "b@bigboyent.xyz".toList, .timeout 0]) 7 = [1] ∧
      runningOf (runWatch [.watchotp 7 "a@bigboyent.xyz".toList, .stopwatch 7,
        .watchotp 7 "b@bigboyent.xyz".toList, .timeout 0, .stopwatch 7, .timeout 1]) 7 = [1] := by
  refine ⟨by decide, by decide, by decide, by decide, by decide, by decide⟩

/-! ## `String.prototype.match` on RegExp objects -/

theorem exec_preserves (R : RegExpObject) (S : Str) :
    (R.exec S).2.pattern = R.pattern ∧ (R.exec S).2.global = R.global := by
  unfold RegExpObject.exec
  dsimp only
  constructor <;> (repeat' split) <;> rfl

/-- At `lastIndex` 0 the operation is `RegExp.prototype.exec` from index 0. -/
theorem exec_at_zero (R : RegExpObject) (S : Str) (h : R.lastIndex = 0) :
    (R.exec S).1 = R.pattern.exec S := by
  unfold RegExpObject.exec RegExp.exec
  simp only [h, ite_self, Nat.not_lt_zero, if_false, List.take_zero, List.drop_zero, lastOr]
  cases scanFrom (matchNodes R.pattern.ignoreCase R.pattern.nodes) 0 none S with
  | none => rfl
  | some r => rfl

/-- A successful `exec` of a global pattern leaves `lastIndex` at the end of a match that
starts at or after the old `lastIndex`. -/
theorem exec_advances (R : RegExpObject) (S : Str) (hg : R.global = true) (i : Nat) (m : Str)
    (h : (R.exec S).1 = some (i, m)) :
    R.lastIndex ≤ S.length ∧ R.lastIndex ≤ i ∧ (R.exec S).2.lastIndex = i + m.length := by
  unfold RegExpObject.exec at h ⊢
  simp only [hg, if_true] at h ⊢
  split at h
  · cases h
  · rename_i hlen
    split at h
    · cases h
    · rename_i j r hscan
      simp only [Option.some.injEq, Prod.mk.injEq] at h
      obtain ⟨h1, h2⟩ := h
      subst h1 h2
      obtain ⟨pre, rest, _, hj, _⟩ := scanFrom_sound _ _ _ _ _ _ hscan
      exact ⟨by omega, by omega, by rw [if_neg hlen]⟩

/-- The loop of `match` ends: with enough fuel it returns, and the object keeps its pattern
and flag. -/
theorem matchLoop_total (S : Str) :
    ∀ (fuel : Nat) (R : RegExpObject), R.global = true → S.length + 2 ≤ fuel + R.lastIndex →
      1 ≤ fuel →
      ∃ A R1, matchLoop S fuel R = some (A, R1) ∧ R1.pattern = R.pattern ∧ R1.global = true := by
  intro fuel
  induction fuel with
  | zero => intro R _ _ h; omega
  | succ fuel ih =>
    intro R hg hfuel _
    obtain ⟨hp, hgl⟩ := exec_preserves R S
    unfold matchLoop
    cases hx : R.exec S with
    | mk res R1 =>
      rw [hx] at hp hgl
      cases res with
      | none => exact ⟨[], R1, rfl, hp, by rw [hgl, hg]⟩
      | some r =>
        obtain ⟨i, m⟩ := r
        have hadv := exec_advances R S hg i m (by rw [hx])
        rw [hx] at hadv
        obtain ⟨hlen, hle, hlast⟩ := hadv
        simp only at hlast hp hgl ⊢
        have hR2 : ∃ R2 : RegExpObject,
            (if m.isEmpty then { R1 with lastIndex := R1.lastIndex + 1 } else R1) = R2 ∧
              R2.pattern = R.pattern ∧ R2.global = true ∧ R.lastIndex + 1 ≤ R2.lastIndex := by
          cases m with
          | nil =>
            refine ⟨_, rfl, ?_⟩
            simp only [List.isEmpty_nil, if_true]
            exact ⟨hp, by rw [hgl, hg], by simp only [hlast]; omega⟩
          | cons c cs =>
            refine ⟨_, rfl, ?_⟩
            simp only [List.isEmpty_cons, Bool.false_eq_true, if_false]
            exact ⟨hp, by rw [hgl, hg], by simp only [hlast, List.length_cons]; omega⟩
        obtain ⟨R2, hR2eq, hR2p, hR2g, hR2l⟩ := hR2
        rw [hR2eq]
        obtain ⟨A, R3, hloop, h3p, h3g⟩ := ih R2 hR2g (by omega) (by omega)
        exact ⟨m :: A, R3, by rw [hloop]; rfl, by rw [h3p, hR2p], h3g⟩

/-- Element 0 of `S.match(R)` for a global pattern is the leftmost match from index 0,
whatever `lastIndex` was before; the call returns. -/
theorem stringMatch_global (S : Str) (R : RegExpObject) (hg : R.global = true) :
    ∃ A R1, stringMatch S R = some (A, R1) ∧ A.head? = firstMatch R.pattern S ∧
      R1.pattern = R.pattern ∧ R1.global = true := by
  unfold stringMatch
  rw [if_pos hg]
  have hz := exec_at_zero { R with lastIndex := 0 } S rfl
  obtain ⟨hp, hgl⟩ := exec_preserves { R with lastIndex := 0 } S
  show ∃ A R1, matchLoop S (S.length + 1 + 1) { R with lastIndex := 0 } = some (A, R1) ∧ _
  unfold matchLoop
  cases hx : RegExpObject.exec { R with lastIndex := 0 } S with
  | mk res R1 =>
    rw [hx] at hz hp hgl
    simp only at hz hp hgl
    cases res with
    | none =>
      refine ⟨[], R1, rfl, ?_, hp, by rw [hgl, hg]⟩
      unfold firstMatch
      rw [← hz]
      rfl
    | some r =>
      obtain ⟨i, m⟩ := r
      have hadv := exec_advances { R with lastIndex := 0 } S hg i m (by rw [hx])
      rw [hx] at hadv
      obtain ⟨_, _, hlast⟩ := hadv
      simp only at hlast ⊢
      have hR2 : ∃ R2 : RegExpObject,
          (if m.isEmpty then { R1 with lastIndex := R1.lastIndex + 1 } else R1) = R2 ∧
            R2.pattern = R.pattern ∧ R2.global = true ∧ 1 ≤ R2.lastIndex := by
        cases m with
        | nil =>
          refine ⟨_, rfl, ?_⟩
          simp only [List.isEmpty_nil, if_true]
          exact ⟨hp, by rw [hgl, hg], by omega⟩
        | cons c cs =>
          refine ⟨_, rfl, ?_⟩
          simp only [List.isEmpty_cons, Bool.false_eq_true, if_false]
          exact ⟨hp, by rw [hgl, hg], by simp only [hlast, List.length_cons]; omega⟩
      obtain ⟨R2, hR2eq, hR2p, hR2g, hR2l⟩ := hR2
      rw [hR2eq]
      obtain ⟨A, R3, hloop, h3p, h3g⟩ :=
        matchLoop_total S (S.length + 1) R2 hR2g (by omega) (by omega)
      refine ⟨m :: A, R3, by rw [hloop]; rfl, ?_, by rw [h3p, hR2p], h3g⟩
      unfold firstMatch
      rw [← hz]
      rfl

/-- For a pattern without `g` the call `S.match(R)` is `exec` from index 0 and leaves the
object as it was. -/
theorem stringMatch_not_global (S : Str) (re : RegExp) (k : Nat) :
    ∃ A R1, stringMatch S ⟨re, false, k⟩ = some (A, R1) ∧ A.head? = firstMatch re S := by
  unfold stringMatch
  simp only [Bool.false_eq_true, if_false]
  have hz : (RegExpObject.exec ⟨re, false, k⟩ S).1 = re.exec S := by
    unfold RegExpObject.exec RegExp.exec
    simp only [Bool.false_eq_true, if_false, Nat.not_lt_zero, List.take_zero, List.drop_zero,
      lastOr]
    cases scanFrom (matchNodes re.ignoreCase re.nodes) 0 none S with
    | none => rfl
    | some r => rfl
  cases hx : RegExpObject.exec ⟨re, false, k⟩ S with
  | mk res R1 =>
    rw [hx] at hz
    simp only at hz
    unfold firstMatch
    rw [← hz]
    cases res with
    | none => exact ⟨[], R1, rfl, rfl⟩
    | some r => exact ⟨[r.2], R1, rfl, rfl⟩

/-- The loop over RegExp objects returns, computes what `anchoredLoop` computes from the
patterns alone, and leaves objects with the same patterns and flags. -/
theorem anchoredLoopWith_spec (mk : Str → CandidateCode) (text : Str) :
    ∀ objs : List RegExpObject, (∀ o ∈ objs, o.global = true) →
      ∃ objs1, anchoredLoopWith mk text objs =
          some (anchoredLoop mk text (objs.map RegExpObject.pattern), objs1) ∧
        objs1.map RegExpObject.pattern = objs.map RegExpObject.pattern ∧
        ∀ o ∈ objs1, o.global = true := by
  intro objs
  induction objs with
  | nil => intro _; exact ⟨[], rfl, rfl, fun o ho => by cases ho⟩
  | cons R rest ih =>
    intro h
    have hrest : ∀ o ∈ rest, o.global = true := fun o ho => h o (List.mem_cons_of_mem _ ho)
    obtain ⟨rest1, hih, hpat, hglob⟩ := ih hrest
    obtain ⟨A, R1, hsm, hhead, hp, hg1⟩ := stringMatch_global text R (h R (List.mem_cons_self _ _))
    have keep : (R1 :: rest).map RegExpObject.pattern = (R :: rest).map RegExpObject.pattern ∧
        ∀ o ∈ R1 :: rest, o.global = true :=
      ⟨by simp only [List.map_cons, hp], fun o ho => by
        rcases List.mem_cons.1 ho with h1 | h1
        · rw [h1]; exact hg1
        · exact hrest o h1⟩
    have next : (R1 :: rest1).map RegExpObject.pattern = (R :: rest).map RegExpObject.pattern ∧
        ∀ o ∈ R1 :: rest1, o.global = true :=
      ⟨by simp only [List.map_cons, hp, hpat], fun o ho => by
        rcases List.mem_cons.1 ho with h1 | h1
        · rw [h1]; exact hg1
        · exact hglob o h1⟩
    cases A with
    | nil =>
      refine ⟨R1 :: rest1, ?_, next⟩
      simp only [anchoredLoopWith, hsm, hih, Option.map_some', List.map_cons, anchoredLoop,
        ← hhead, List.head?_nil]
    | cons m A1 =>
      obtain ⟨B, R2, hsm2, hhead2⟩ := stringMatch_not_global m digitRun 0
      cases B with
      | nil =>
        refine ⟨R1 :: rest, ?_, keep⟩
        simp only [anchoredLoopWith, hsm, hsm2, List.map_cons, anchoredLoop, ← hhead, ← hhead2,
          List.head?_nil, List.head?_cons]
      | cons code B1 =>
        by_cases hv : validCode code = true
        · refine ⟨R1 :: rest, ?_, keep⟩
          simp only [anchoredLoopWith, hsm, hsm2, List.map_cons, anchoredLoop, ← hhead, ← hhead2,
            List.head?_cons, hv, if_true]
        · refine ⟨R1 :: rest1, ?_, next⟩
          simp only [anchoredLoopWith, hsm, hsm2, List.map_cons, anchoredLoop, ← hhead, ← hhead2,
            List.head?_cons, hv, Bool.false_eq_true, if_false, hih, Option.map_some']

theorem generalLoopWith_spec (mk : Str → CandidateCode) (text : Str) :
    ∀ objs : List RegExpObject, (∀ o ∈ objs, o.global = true) →
      ∃ objs1, generalLoopWith mk text objs =
          some (generalLoop mk text (objs.map RegExpObject.pattern), objs1) ∧
        objs1.map RegExpObject.pattern = objs.map RegExpObject.pattern ∧
        ∀ o ∈ objs1, o.global = true := by
  intro objs
  induction objs with
  | nil => intro _; exact ⟨[], rfl, rfl, fun o ho => by cases ho⟩
  | cons R rest ih =>
    intro h
    have hrest : ∀ o ∈ rest, o.global = true := fun o ho => h o (List.mem_cons_of_mem _ ho)
    obtain ⟨rest1, hih, hpat, hglob⟩ := ih hrest
    obtain ⟨A, R1, hsm, hhead, hp, hg1⟩ := stringMatch_global text R (h R (List.mem_cons_self _ _))
    have keep : (R1 :: rest).map RegExpObject.pattern = (R :: rest).map RegExpObject.pattern ∧
        ∀ o ∈ R1 :: rest, o.global = true :=
      ⟨by simp only [List.map_cons, hp], fun o ho => by
        rcases List.mem_cons.1 ho with h1 | h1
        · rw [h1]; exact hg1
        · exact hrest o h1⟩
    have next : (R1 :: rest1).map RegExpObject.pattern = (R :: rest).map RegExpObject.pattern ∧
        ∀ o ∈ R1 :: rest1, o.global = true :=
      ⟨by simp only [List.map_cons, hp, hpat], fun o ho => by
        rcases List.mem_cons.1 ho with h1 | h1
        · rw [h1]; exact hg1
        · exact hglob o h1⟩
    cases A with
    | nil =>
      refine ⟨R1 :: rest1, ?_, next⟩
      simp only [generalLoopWith, hsm, hih, Option.map_some', List.map_cons, generalLoop,
        ← hhead, List.head?_nil]
    | cons m A1 =>
      by_cases hv : (decide (4 ≤ m.length) && decide (m.length ≤ 6)) = true
      · refine ⟨R1 :: rest, ?_, keep⟩
        simp only [generalLoopWith, hsm, List.map_cons, generalLoop, ← hhead, List.head?_cons,
          hv, if_true]
      · refine ⟨R1 :: rest1, ?_, next⟩
        simp only [generalLoopWith, hsm, List.map_cons, generalLoop, ← hhead, List.head?_cons,
          hv, Bool.false_eq_true, if_false, hih, Option.map_some']

/-- On pattern objects at any `lastIndex` the body of `extractVerificationCodes` returns
what the function of the message and the target returns, and leaves pattern objects of the
same kind. -/
theorem extractVerificationCodesWith_spec (toLowerCase : Str → Str) (e : EmailContent)
    (targetEmail : Option Str) (r : Realm) (h : r.HasPatterns) :
    ∃ r1, extractVerificationCodesWith toLowerCase e targetEmail r =
        some (extractVerificationCodes toLowerCase e targetEmail, r1) ∧
      r1.HasPatterns ∧ r1.now = r.now := by
  obtain ⟨⟨hpp, hpg⟩, ⟨hsp, hsg⟩, ⟨hgp, hgg⟩⟩ := h
  unfold extractVerificationCodesWith extractVerificationCodes
  cases e.subject with
  | none => exact ⟨r, rfl, ⟨⟨hpp, hpg⟩, ⟨hsp, hsg⟩, ⟨hgp, hgg⟩⟩, rfl⟩
  | some subject =>
    simp only
    split
    swap
    · exact ⟨r, rfl, ⟨⟨hpp, hpg⟩, ⟨hsp, hsg⟩, ⟨hgp, hgg⟩⟩, rfl⟩
    cases e.text with
    | none => exact ⟨r, rfl, ⟨⟨hpp, hpg⟩, ⟨hsp, hsg⟩, ⟨hgp, hgg⟩⟩, rfl⟩
    | some text =>
      simp only
      obtain ⟨p1, hp1, hp1p, hp1g⟩ :=
        anchoredLoopWith_spec (mkCandidate e targetEmail .priority) text r.priorityPatterns hpg
      rw [hp1, hpp]
      rw [hpp] at hp1p
      cases hA : anchoredLoop (mkCandidate e targetEmail .priority) text priorityPatterns with
      | error err => exact ⟨_, rfl, ⟨⟨hp1p, hp1g⟩, ⟨hsp, hsg⟩, ⟨hgp, hgg⟩⟩, rfl⟩
      | ok res =>
        cases res with
        | some c => exact ⟨_, rfl, ⟨⟨hp1p, hp1g⟩, ⟨hsp, hsg⟩, ⟨hgp, hgg⟩⟩, rfl⟩
        | none =>
          simp only
          obtain ⟨s1, hs1, hs1p, hs1g⟩ :=
            anchoredLoopWith_spec (mkCandidate e targetEmail .specific) text r.specificPatterns
              hsg
          rw [hs1, hsp]
          rw [hsp] at hs1p
          cases hB : anchoredLoop (mkCandidate e targetEmail .specific) text specificPatterns with
          | error err => exact ⟨_, rfl, ⟨⟨hp1p, hp1g⟩, ⟨hs1p, hs1g⟩, ⟨hgp, hgg⟩⟩, rfl⟩
          | ok res =>
            cases res with
            | some c => exact ⟨_, rfl, ⟨⟨hp1p, hp1g⟩, ⟨hs1p, hs1g⟩, ⟨hgp, hgg⟩⟩, rfl⟩
            | none =>
              simp only
              obtain ⟨g1, hg1, hg1p, hg1g⟩ :=
                generalLoopWith_spec (mkCandidate e targetEmail .general) text r.generalPatterns
                  hgg
              rw [hg1, hgp]
              rw [hgp] at hg1p
              cases hC : generalLoop (mkCandidate e targetEmail .general) text generalPatterns with
              | some c => exact ⟨_, rfl, ⟨⟨hp1p, hp1g⟩, ⟨hs1p, hs1g⟩, ⟨hg1p, hg1g⟩⟩, rfl⟩
              | none =>
                simp only
                obtain ⟨g2, hg2, hg2p, hg2g⟩ :=
                  generalLoopWith_spec (mkCandidate e targetEmail .general) text g1 hg1g
                rw [hg2, hg1p, hC]
                rw [hg1p] at hg2p
                exact ⟨_, rfl, ⟨⟨hp1p, hp1g⟩, ⟨hs1p, hs1g⟩, ⟨hg2p, hg2g⟩⟩, rfl⟩

/-! ## The queue of a checker in the bot -/

theorem setAt_mem {α : Type} (a x : α) :
    ∀ (l : List α) (k : Nat), x ∈ setAt l k a → x = a ∨ x ∈ l := by
  intro l
  induction l with
  | nil => intro k h; cases h
  | cons y ys ih =>
    intro k h
    cases k with
    | zero =>
      rcases List.mem_cons.1 h with h1 | h1
      · exact Or.inl h1
      · exact Or.inr (List.mem_cons_of_mem _ h1)
    | succ k =>
      rcases List.mem_cons.1 h with h1 | h1
      · exact Or.inr (h1 ▸ List.mem_cons_self _ _)
      · rcases ih k h1 with h2 | h2
        · exact Or.inl h2
        · exact Or.inr (List.mem_cons_of_mem _ h2)

/-- The failure of a connection attempt: the session is marked, the checker that awaits it
gets `isConnecting = false`, its initiating caller is rejected, and its queue is not
touched. -/
theorem stepImproved_error (w : Improved) (k i : Nat) (c : Checker) (s : Session)
    (message : Str) (hk : w.checkers.get? k = some c) (hs : w.sessions.get? i = some s)
    (haw : awaitingChecker w i = some k) :
    stepImproved w (.error i message) =
      ⟨setAt w.checkers k { c with isConnecting := false, initiator := none },
        setAt w.sessions i { s with isConnected := false },
        w.results ++ c.initiator.toList.map fun q => (q, ConnectResult.rejected message)⟩ := by
  simp only [stepImproved, hs, haw, hk]

theorem stepBot_queues_empty (w : Improved) (ev : BotEvent)
    (h : ∀ c ∈ w.checkers, c.connectionQueue = []) :
    ∀ c ∈ (stepBot w ev).checkers, c.connectionQueue = [] := by
  have hset : ∀ (k : Nat) (c1 : Checker) (ss : List Session) (rs : List (Nat × ConnectResult)),
      c1.connectionQueue = [] →
      ∀ c ∈ (Improved.mk (setAt w.checkers k c1) ss rs).checkers, c.connectionQueue = [] := by
    intro k c1 ss rs h1 c hc
    rcases setAt_mem c1 c w.checkers k hc with h2 | h2
    · rw [h2]; exact h1
    · exact h c h2
  cases ev with
  | checkForNewOTPs now caller =>
    have hnew : ∀ c ∈ w.checkers ++ [(⟨none, false, [], none⟩ : Checker)],
        c.connectionQueue = [] := by
      intro c hc
      rcases List.mem_append.1 hc with h1 | h1
      · exact h c h1
      · rw [List.mem_singleton.1 h1]
    have hget : (w.checkers ++ [(⟨none, false, [], none⟩ : Checker)]).get? w.checkers.length =
        some ⟨none, false, [], none⟩ := by simp
    intro c hc
    simp only [stepBot, stepImproved, hget, hasLiveConnection, Bool.false_eq_true,
      if_false] at hc
    rcases setAt_mem _ c _ _ hc with h2 | h2
    · rw [h2]
    · exact hnew c h2
  | ready i =>
    simp only [stepBot, stepImproved]
    cases hs : w.sessions.get? i with
    | none => exact h
    | some s =>
      simp only
      cases haw : awaitingChecker w i with
      | none => exact h
      | some k =>
        simp only
        cases hk : w.checkers.get? k with
        | none => exact h
        | some c => exact hset k _ _ _ rfl
  | error i message =>
    simp only [stepBot, stepImproved]
    cases hs : w.sessions.get? i with
    | none => exact h
    | some s =>
      simp only
      cases haw : awaitingChecker w i with
      | none => exact h
      | some k =>
        simp only
        cases hk : w.checkers.get? k with
        | none => exact h
        | some c => exact hset k _ _ _ (h c (List.get?_mem hk))
  | disconnect k =>
    simp only [stepBot, stepImproved]
    cases hk : w.checkers.get? k with
    | none => exact h
    | some c =>
      simp only
      cases hl : hasLiveConnection w c with
      | none => exact h
      | some i =>
        simp only
        cases hs : w.sessions.get? i with
        | none => exact h
        | some s => exact h

/-- In the bot no checker ever has a queued caller. -/
theorem runBot_queues_empty (events : List BotEvent) :
    ∀ c ∈ (runBot events).checkers, c.connectionQueue = [] := by
  have key : ∀ (evs : List BotEvent) (w : Improved),
      (∀ c ∈ w.checkers, c.connectionQueue = []) →
      ∀ c ∈ (evs.foldl stepBot w).checkers, c.connectionQueue = [] := by
    intro evs
    induction evs with
    | nil => intro w h; exact h
    | cons ev evs ih => intro w h; exact ih (stepBot w ev) (stepBot_queues_empty w ev h)
  exact key events ⟨[], [], []⟩ (fun c hc => by cases hc)

/-! ## Claims on purity and on a failed connection attempt -/

/-- The state the model carries: `exec` on a global pattern object does depend on its
`lastIndex` (from 0 it finds `code 1111` at index 0, from 7 it finds `code 2222` at index
10), while element 0 of `match` is `code 1111` from either. -/
theorem exec_reads_lastIndex :
    (RegExpObject.exec ⟨phraseSep "code", true, 0⟩ "code 1111 code 2222".toList).1 =
        some (0, "code 1111".toList) ∧
      (RegExpObject.exec ⟨phraseSep "code", true, 7⟩ "code 1111 code 2222".toList).1 =
        some (10, "code 2222".toList) ∧
      (stringMatch "code 1111 code 2222".toList ⟨phraseSep "code", true, 0⟩).map
          (fun r => r.1.head?) = some (some "code 1111".toList) ∧
      (stringMatch "code 1111 code 2222".toList ⟨phraseSep "code", true, 7⟩).map
          (fun r => r.1.head?) = some (some "code 1111".toList) := by
  refine ⟨by decide, by decide, by decide, by decide⟩

/-- C7: `extractVerificationCodes` is a pure function.  Run on any two environments (any
clock value, the pattern objects at any `lastIndex`) and on two messages that agree in
subject, sender, recipient, body text and date, with the same target, the body of the
function returns, and returns the same result in both; that result is the function
`extractVerificationCodes` of the message and the target; and a second call in the
environment the first call left returns the identical result again. -/
theorem extraction_is_pure (toLowerCase : Str → Str) (e1 e2 : EmailContent)
    (targetEmail : Option Str) (r1 r2 : Realm) (h1 : r1.HasPatterns) (h2 : r2.HasPatterns)
    (hsub : e1.subject = e2.subject) (hfrom : e1.sender = e2.sender)
    (hto : e1.recipient = e2.recipient) (htext : e1.text = e2.text)
    (hdate : e1.date = e2.date) :
    ∃ result s1 s2 s3,
      extractVerificationCodesWith toLowerCase e1 targetEmail r1 = some (result, s1) ∧
        extractVerificationCodesWith toLowerCase e2 targetEmail r2 = some (result, s2) ∧
        extractVerificationCodesWith toLowerCase e1 targetEmail s1 = some (result, s3) ∧
        result = extractVerificationCodes toLowerCase e1 targetEmail := by
  obtain ⟨s1, hs1, hp1, _⟩ := extractVerificationCodesWith_spec toLowerCase e1 targetEmail r1 h1
  obtain ⟨s2, hs2, _, _⟩ := extractVerificationCodesWith_spec toLowerCase e2 targetEmail r2 h2
  obtain ⟨s3, hs3, _, _⟩ := extractVerificationCodesWith_spec toLowerCase e1 targetEmail s1 hp1
  refine ⟨extractVerificationCodes toLowerCase e1 targetEmail, s1, s2, s3, hs1, ?_, hs3, rfl⟩
  rw [hs2, extractVerificationCodes_congr toLowerCase e1 e2 targetEmail hsub hfrom hto htext hdate]

/-- C7, witness: the scenario message read with fresh pattern objects at clock 1000, and a
copy that differs in the `html` field read at clock 2000 with every `lastIndex` at 9. -/
theorem extraction_is_pure_witness :
    ∃ result s1 s2 s3,
      extractVerificationCodesWith asciiLower
          ⟨some "Your Uber verification code".toList, "admin@uber.com".toList,
            "alice@catchall.test".toList, some "Your code: 1234".toList, none, some 0⟩ alice
          (Realm.fresh 1000) = some (result, s1) ∧
        extractVerificationCodesWith asciiLower
          ⟨some "Your Uber verification code".toList, "admin@uber.com".toList,
            "alice@catchall.test".toList, some "Your code: 1234".toList,
            some "<b>1234</b>".toList, some 0⟩ alice (Realm.stale 2000 9) = some (result, s2) ∧
        extractVerificationCodesWith asciiLower
          ⟨some "Your Uber verification code".toList, "admin@uber.com".toList,
            "alice@catchall.test".toList, some "Your code: 1234".toList, none, some 0⟩ alice
          s1 = some (result, s3) ∧
        result = extractVerificationCodes asciiLower
          ⟨some "Your Uber verification code".toList, "admin@uber.com".toList,
            "alice@catchall.test".toList, some "Your code: 1234".toList, none, some 0⟩ alice :=
  extraction_is_pure asciiLower _ _ alice (Realm.fresh 1000) (Realm.stale 2000 9)
    ⟨⟨rfl, by decide⟩, ⟨rfl, by decide⟩, ⟨rfl, by decide⟩⟩
    ⟨⟨rfl, by decide⟩, ⟨rfl, by decide⟩, ⟨rfl, by decide⟩⟩ rfl rfl rfl rfl rfl

/-- C14 (amended): when the connection attempt of a checker fails, the caller that
started it is rejected with the error and `isConnecting` is false afterwards; the
`connectionQueue` of the checker is left as it was.  In the bot, where every checker is
created by one call of `checkForNewOTPs` that calls `connectImap` on it once, that queue
is empty, so after the failure the queue is empty and no caller is pending. -/
theorem failed_attempt_rejects_initiator (w : Improved) (k i a : Nat) (c : Checker)
    (s : Session) (message : Str) (hk : w.checkers.get? k = some c)
    (hinit : c.initiator = some a) (hs : w.sessions.get? i = some s)
    (haw : awaitingChecker w i = some k) :
    (stepImproved w (.error i message)).results = w.results ++ [(a, .rejected message)] ∧
      (stepImproved w (.error i message)).checkers.get? k =
        some ⟨c.connection, false, c.connectionQueue, none⟩ ∧
      (∀ events, w = runBot events →
        (stepImproved w (.error i message)).checkers.get? k =
          some ⟨c.connection, false, [], none⟩) := by
  have hstep := stepImproved_error w k i c s message hk hs haw
  have hklt : k < w.checkers.length := get?_lt_length _ _ _ hk
  have hget : (stepImproved w (.error i message)).checkers.get? k =
      some ⟨c.connection, false, c.connectionQueue, none⟩ := by
    rw [hstep]
    exact setAt_get?_self _ _ _ hklt
  refine ⟨?_, hget, ?_⟩
  · rw [hstep, hinit]
    rfl
  · intro events hw
    have hq : c.connectionQueue = [] := by
      have := runBot_queues_empty events c
      rw [← hw] at this
      exact this (List.get?_mem hk)
    rw [hget, hq]

/-- C14, witness: one `checkForNewOTPs` at clock 1000 whose connection attempt fails. -/
theorem failed_attempt_rejects_initiator_witness :
    (stepImproved (runBot [.checkForNewOTPs 1000 0]) (.error 0 "connect failed".toList)).results =
        (runBot [.checkForNewOTPs 1000 0]).results ++ [(0, .rejected "connect failed".toList)] ∧
      (stepImproved (runBot [.checkForNewOTPs 1000 0])
          (.error 0 "connect failed".toList)).checkers.get? 0 =
        some ⟨some 0, false, [], none⟩ :=
  ⟨(failed_attempt_rejects_initiator (runBot [.checkForNewOTPs 1000 0]) 0 0 0
      ⟨some 0, true, [], some 0⟩ ⟨1000, false, false⟩ "connect failed".toList
      (by decide) rfl (by decide) (by decide)).1,
    (failed_attempt_rejects_initiator (runBot [.checkForNewOTPs 1000 0]) 0 0 0
      ⟨some 0, true, [], some 0⟩ ⟨1000, false, false⟩ "connect failed".toList
      (by decide) rfl (by decide) (by decide)).2.2 [.checkForNewOTPs 1000 0] rfl⟩

end OTP
